import Mathlib

/-!
The Markdown to WeChat HTML converter of markdown-wx.

A shallow embedding of `internal/converter/markdown_wx.go` and the properties
of its conversion pipeline.

Go strings are modelled as lists of characters (`Str`); the input is assumed
to be valid UTF-8, so a rune of the Go program is a `Char` here. The methods
of `*WechatConverter` mutate the receiver; here they take the converter and
return the new one next to their result. An index into a nil submatch slice
panics in Go; the functions that index submatches return `Option`.
-/

set_option maxRecDepth 100000
set_option maxHeartbeats 4000000

namespace MarkdownWx

/-- A Go string, as its sequence of runes. -/
abbrev Str := List Char

/-! ## The `strings`, `html` and `fmt` functions the converter calls -/

/-- The backtick character. -/
def backtick : Char := Char.ofNat 96

/-- The three backticks of a code fence. -/
def fence : Str := [backtick, backtick, backtick]

/-- Go `unicode.IsSpace`: the characters `strings.TrimSpace` removes. -/
def isSpace (c : Char) : Bool :=
  let n := c.toNat
  (9 ≤ n && n ≤ 13) || n = 32 || n = 0x85 || n = 0xA0 || n = 0x1680 ||
  (0x2000 ≤ n && n ≤ 0x200a) || n = 0x2028 || n = 0x2029 || n = 0x202f ||
  n = 0x205f || n = 0x3000

/-- Go `strings.TrimSpace`. -/
def TrimSpace (s : Str) : Str :=
  ((s.dropWhile isSpace).reverse.dropWhile isSpace).reverse

/-- Go `strings.Trim(s, cutset)` for a cutset of one character. -/
def Trim (s : Str) (c : Char) : Str :=
  ((s.dropWhile (fun x => x == c)).reverse.dropWhile (fun x => x == c)).reverse

/-- Go `strings.HasPrefix`. -/
def HasPrefix : Str → Str → Bool
  | _, [] => true
  | [], _ :: _ => false
  | c :: cs, p :: ps => c == p && HasPrefix cs ps

/-- Go `strings.TrimPrefix`. -/
def TrimPrefix (s p : Str) : Str :=
  if HasPrefix s p then s.drop p.length else s

/-- Go `strings.Contains`. -/
def Contains : Str → Str → Bool
  | [], sub => HasPrefix [] sub
  | c :: cs, sub => HasPrefix (c :: cs) sub || Contains cs sub

/-- Go `strings.Split(s, sep)` for a separator of one character. -/
def Split (sep : Char) : Str → List Str
  | [] => [[]]
  | c :: cs =>
    if c = sep then [] :: Split sep cs
    else match Split sep cs with
      | [] => [[c]]
      | l :: ls => (c :: l) :: ls

/-- Go `strings.Join`. -/
def Join (sep : Str) : List Str → Str
  | [] => []
  | [a] => a
  | a :: b :: r => a ++ sep ++ Join sep (b :: r)

/-- The scan of `strings.ReplaceAll` for a non-empty `old`: `skip` counts the
characters of a replaced occurrence still to be passed over. -/
def replaceAllAux (old new : Str) : Nat → Str → Str
  | _, [] => []
  | k + 1, _ :: cs => replaceAllAux old new k cs
  | 0, c :: cs =>
    if HasPrefix (c :: cs) old then new ++ replaceAllAux old new (old.length - 1) cs
    else c :: replaceAllAux old new 0 cs

/-- Go `strings.ReplaceAll`: the non-overlapping occurrences of `old`, left to
right, are replaced by `new`; an empty `old` matches before every rune and at
the end. -/
def ReplaceAll (s old new : Str) : Str :=
  match old with
  | [] => new ++ s.flatMap (fun c => c :: new)
  | _ :: _ => replaceAllAux old new 0 s

/-- The scan of `strings.Replace(s, old, new, 1)` for a non-empty `old`. -/
def replaceFirstAux (old new : Str) : Str → Str
  | [] => []
  | c :: cs =>
    if HasPrefix (c :: cs) old then new ++ (c :: cs).drop old.length
    else c :: replaceFirstAux old new cs

/-- Go `strings.Replace(s, old, new, 1)`. -/
def Replace1 (s old new : Str) : Str :=
  match old with
  | [] => new ++ s
  | _ :: _ => replaceFirstAux old new s

/-- Go `html.EscapeString` on one character. -/
def escapeChar (c : Char) : Str :=
  if c = '&' then "&amp;".toList
  else if c = Char.ofNat 39 then "&#39;".toList
  else if c = '<' then "&lt;".toList
  else if c = '>' then "&gt;".toList
  else if c = Char.ofNat 34 then "&#34;".toList
  else [c]

/-- Go `html.EscapeString`. -/
def EscapeString (s : Str) : Str := s.flatMap escapeChar

/-- The verb `%d` of `fmt.Sprintf` on a non-negative integer. -/
def itoa (n : Nat) : Str := Nat.toDigits 10 n

/-- ASCII digits, the class `\d` of Go regular expressions. -/
def isDigit (c : Char) : Bool := 48 ≤ c.toNat && c.toNat ≤ 57

/-! ## The converter -/

/-- The type `WechatStyles`. -/
structure WechatStyles where
  H1Style : Str
  H2Style : Str
  H3Style : Str
  ParagraphStyle : Str
  QuoteStyle : Str
  CodeBlockStyle : Str
  InlineCodeStyle : Str
  ListStyle : Str
  LinkStyle : Str
  ImageStyle : Str
  TableStyle : Str
  TableHeaderStyle : Str
  TableCellStyle : Str
deriving DecidableEq

/-- The type `WechatConverter`. The Go map `codeBlocks` is a list of
key/value pairs with distinct keys. -/
structure WechatConverter where
  footnotes : List Str
  styles : WechatStyles
  codeBlocks : List (Str × Str)
deriving DecidableEq

/-- The font stack shared by several of the default styles. -/
def fontStack : Str :=
  "font-family: -apple-system-font, BlinkMacSystemFont, 'Helvetica Neue', 'PingFang SC', 'Hiragino Sans GB', 'Microsoft YaHei UI', 'Microsoft YaHei', Arial, sans-serif;".toList

/-- The function `getDefaultStyles`. -/
def getDefaultStyles : WechatStyles where
  H1Style := "style=\"display: table; text-align: center; color: #3f3f3f; line-height: 1.75; ".toList ++ fontStack ++ " font-size: 18px; font-weight: bold; margin: 2em auto 1em; padding: 0 1em; border-bottom: 3px solid #009874; margin-top: 0;\"".toList
  H2Style := "style=\"display: table; text-align: center; color: #fff; line-height: 1.75; ".toList ++ fontStack ++ " font-size: 16px; font-weight: bold; margin: 4em auto 2em; padding: 0 0.3em; background: #009874;\"".toList
  H3Style := "style=\"text-align: left; color: #3f3f3f; line-height: 1.2; ".toList ++ fontStack ++ " font-size: 14px; font-weight: bold; margin: 2em 8px 0.75em 0; padding-left: 8px; border-left: 5px solid #009874;\"".toList
  ParagraphStyle := "style=\"font-size: 16px; line-height: 1.5em; padding: 0.5em 0; margin: 0; color: initial;\"".toList
  QuoteStyle := "style=\"text-align: left; ".toList ++ fontStack ++ " font-size: 14px; font-style: normal; border-left: none; padding: 0.5em 1em; background: rgba(27, 31, 35, 0.05); margin: 1em 0;\"".toList
  CodeBlockStyle := "style=\"display: block; padding: 1em; color: rgb(51, 51, 51); background: rgb(248, 248, 248); font-style: normal; font-variant-ligatures: normal; font-variant-caps: normal; font-weight: 400; letter-spacing: normal; orphans: 2; text-indent: 0px; text-transform: none; widows: 2; word-spacing: 0px; text-decoration-style: initial; text-decoration-color: initial; text-align: left; line-height: 1.5; ".toList ++ fontStack ++ " margin: 0.9rem 0; white-space: pre;\"".toList
  InlineCodeStyle := "style=\"text-align: left; line-height: 1; white-space: initial; color: #333; background: rgba(27, 31, 35, 0.05); padding: 0.1em 0.3em; font-weight: bold; font-size: 1em; top: -0.1em; position: relative;\"".toList
  ListStyle := "style=\"padding-left: 1.2em;\"".toList
  LinkStyle := "style=\"color: #009874; text-decoration: none; font-size: 14px;\"".toList
  ImageStyle := "style=\"display: initial; max-width: 100%;\"".toList
  TableStyle := "style=\"width: 100%; border-collapse: collapse; line-height: 1.35; font-size: 14px;\"".toList
  TableHeaderStyle := "style=\"background: rgb(0 0 0 / 5%); border: 1px solid #ddd; padding: 0.25em 0.5em;\"".toList
  TableCellStyle := "style=\"border: 1px solid #ddd; padding: 0.25em 0.5em;\"".toList

/-- The function `NewWechatConverterFixed`. -/
def NewWechatConverterFixed : WechatConverter where
  footnotes := []
  styles := getDefaultStyles
  codeBlocks := []

/-! ## Regular expressions

A compiled pattern is modelled by the function that matches it at the start
of a text and returns the submatches, the whole match first (Go's leftmost-first
semantics at one start position). None of the patterns below matches the empty
string. -/

/-- A compiled pattern: the submatches of its match at the start of the text. -/
abbrev Regexp := Str → Option (List Str)

/-- The text before the first occurrence of `sub` and the text after it. -/
def cut (sub : Str) : Str → Option (Str × Str)
  | [] => if HasPrefix [] sub then some ([], []) else none
  | c :: cs =>
    if HasPrefix (c :: cs) sub then some ([], (c :: cs).drop sub.length)
    else (cut sub cs).map (fun p => (c :: p.1, p.2))

/-- The pattern of `extractCodeBlocks`, "(?s)" then three backticks, `(.*?)`,
a newline, `(.*?)` and three backticks: the first group is lazy and ends at the
first newline after the opening fence (a later newline cannot succeed where the
first fails), the second ends at the first closing fence after that newline. -/
def codeBlockRegex : Regexp := fun s =>
  if HasPrefix s fence then
    match cut ['\n'] (s.drop 3) with
    | none => none
    | some (lang, r) =>
      match cut fence r with
      | none => none
      | some (code, _) => some [fence ++ lang ++ ['\n'] ++ code ++ fence, lang, code]
  else none

/-- The pattern `\[([^\]]+)\]\(([^)]+)\)` of `processLinks`: each group is the
longest run of characters other than its closing delimiter, which must follow. -/
def linkRegex : Regexp := fun s =>
  match s with
  | [] => none
  | c :: r =>
    if c = '[' then
      let t := r.takeWhile (fun x => x != ']')
      match r.dropWhile (fun x => x != ']') with
      | c1 :: c2 :: r2 =>
        let u := r2.takeWhile (fun x => x != ')')
        match r2.dropWhile (fun x => x != ')') with
        | c3 :: _ =>
          if c1 = ']' ∧ c2 = '(' ∧ c3 = ')' ∧ t ≠ [] ∧ u ≠ [] then
            some ['[' :: t ++ [']', '('] ++ u ++ [')'], t, u]
          else none
        | [] => none
      | _ => none
    else none

/-- The pattern `!\[([^\]]*)\]\(([^)]+)\)` of `processImages`. -/
def imageRegex : Regexp := fun s =>
  match s with
  | c0 :: c :: r =>
    if c0 = '!' ∧ c = '[' then
      let t := r.takeWhile (fun x => x != ']')
      match r.dropWhile (fun x => x != ']') with
      | c1 :: c2 :: r2 =>
        let u := r2.takeWhile (fun x => x != ')')
        match r2.dropWhile (fun x => x != ')') with
        | c3 :: _ =>
          if c1 = ']' ∧ c2 = '(' ∧ c3 = ')' ∧ u ≠ [] then
            some ['!' :: '[' :: t ++ [']', '('] ++ u ++ [')'], t, u]
          else none
        | [] => none
      | _ => none
    else none
  | _ => none

/-- The pattern of `processInlineCode`: a backtick, `([^`]+)`, a backtick. -/
def inlineCodeRegex : Regexp := fun s =>
  match s with
  | [] => none
  | c :: r =>
    if c = backtick then
      let t := r.takeWhile (fun x => x != backtick)
      match r.dropWhile (fun x => x != backtick) with
      | _ :: _ => if t ≠ [] then some [backtick :: t ++ [backtick], t] else none
      | [] => none
    else none

/-- The pattern `\*\*([^*]+)\*\*` of `processBoldItalic`. -/
def boldRegex : Regexp := fun s =>
  match s with
  | c0 :: c :: r =>
    if c0 = '*' ∧ c = '*' then
      let t := r.takeWhile (fun x => x != '*')
      match r.dropWhile (fun x => x != '*') with
      | _ :: c2 :: _ =>
        if c2 = '*' ∧ t ≠ [] then some ['*' :: '*' :: t ++ ['*', '*'], t] else none
      | _ => none
    else none
  | _ => none

/-- The pattern `\*([^*]+)\*` of `processBoldItalic`. -/
def italicRegex : Regexp := fun s =>
  match s with
  | [] => none
  | c :: r =>
    if c = '*' then
      let t := r.takeWhile (fun x => x != '*')
      match r.dropWhile (fun x => x != '*') with
      | _ :: _ => if t ≠ [] then some ['*' :: t ++ ['*'], t] else none
      | [] => none
    else none

/-- Go `FindStringSubmatch`: the submatches of the leftmost match, `none` for
the nil slice returned when nothing matches. -/
def FindStringSubmatch (re : Regexp) : Str → Option (List Str)
  | [] => re []
  | c :: cs =>
    match re (c :: cs) with
    | some g => some g
    | none => FindStringSubmatch re cs

/-- The scan of `ReplaceAllStringFunc` with a callback that reads and writes
the converter's state `σ` and may panic (`none`). The matches are found left to
right and do not overlap: `skip` counts the characters of the last match still to
be passed over. The callback receives the matched text. -/
def replaceAllAuxM {σ : Type} (re : Regexp) (repl : σ → Str → Option (Str × σ)) :
    Nat → σ → Str → Option (Str × σ)
  | _, st, [] => some ([], st)
  | k + 1, st, _ :: cs => replaceAllAuxM re repl k st cs
  | 0, st, c :: cs =>
    match re (c :: cs) with
    | none => (replaceAllAuxM re repl 0 st cs).map (fun p => (c :: p.1, p.2))
    | some g =>
      match repl st (g.headD []) with
      | none => none
      | some (r, st1) =>
        (replaceAllAuxM re repl ((g.headD []).length - 1) st1 cs).map
          (fun p => (r ++ p.1, p.2))

/-- Go `ReplaceAllStringFunc` with a stateful callback that may panic. -/
def ReplaceAllStringFuncM {σ : Type} (re : Regexp) (repl : σ → Str → Option (Str × σ))
    (st : σ) (text : Str) : Option (Str × σ) :=
  replaceAllAuxM re repl 0 st text

/-- The scan of `ReplaceAllStringFunc` and `ReplaceAllString` with a pure
replacement computed from the submatches. -/
def replaceAllAuxP (re : Regexp) (repl : List Str → Str) : Nat → Str → Str
  | _, [] => []
  | k + 1, _ :: cs => replaceAllAuxP re repl k cs
  | 0, c :: cs =>
    match re (c :: cs) with
    | none => c :: replaceAllAuxP re repl 0 cs
    | some g => repl g ++ replaceAllAuxP re repl ((g.headD []).length - 1) cs

/-- Go `ReplaceAllStringFunc`, the callback applied to the matched text. -/
def ReplaceAllStringFunc (re : Regexp) (repl : Str → Str) (text : Str) : Str :=
  replaceAllAuxP re (fun g => repl (g.headD [])) 0 text

/-- Go `ReplaceAllString` with a template `pre$1post`. -/
def ReplaceAllString1 (re : Regexp) (pre post : Str) (text : Str) : Str :=
  replaceAllAuxP re (fun g => pre ++ g.getD 1 [] ++ post) 0 text

/-- Go `ReplaceAllStringFunc` for a multi-line pattern `(?m)^marker(.+)$`: the
dot does not match a newline, so a match is a whole line that starts with the
marker and has at least one more character; `marker` returns what follows the
marker. The text is rewritten line by line. -/
def replaceLines (marker : Str → Option Str) (repl : Str → Str) (text : Str) : Str :=
  Join ['\n'] ((Split '\n' text).map (fun l =>
    match marker l with
    | some (_ :: _) => repl l
    | _ => l))

/-- What follows a literal marker at the start of a line. -/
def litMarker (m : Str) (l : Str) : Option Str :=
  if HasPrefix l m then some (l.drop m.length) else none

/-- What follows the marker `[-*+] ` at the start of a line. -/
def unorderedMarker : Str → Option Str
  | c :: d :: r => if (c = '-' ∨ c = '*' ∨ c = '+') ∧ d = ' ' then some r else none
  | _ => none

/-- What follows the marker `\d+\.` at the start of a line: the digits are
matched greedily and a dot must follow them. -/
def orderedMarker (l : Str) : Option Str :=
  match l.takeWhile isDigit, l.dropWhile isDigit with
  | _ :: _, c :: r => if c = '.' then some r else none
  | _, _ => none

/-! ## The stages of the pipeline -/

/-- The pattern `^\d+\.$` that `preprocessText` applies to a trimmed line: one
or more digits, a dot, and nothing else. -/
def isOrphanMarker (l : Str) : Bool :=
  match l.takeWhile isDigit, l.dropWhile isDigit with
  | _ :: _, [c] => c = '.'
  | _, _ => false

/-- The inner loop `for j := i + 1; j < len(lines); j++` of `preprocessText`:
the first index from `j` on, among the next `n`, of a line that is not blank,
and that line trimmed. -/
def nextContent (lines : List Str) : Nat → Nat → Option (Nat × Str)
  | 0, _ => none
  | n + 1, j =>
    let nextLine := TrimSpace (lines.getD j [])
    if nextLine ≠ [] then some (j, nextLine) else nextContent lines n (j + 1)

/-- The loop `for k := i + 1; k <= j; k++` of `preprocessText`, which
overwrites `lines[k]` with the empty string: `n` indices from `k` on. -/
def blankLines : Nat → Nat → List Str → List Str
  | 0, _, lines => lines
  | n + 1, k, lines => blankLines n (k + 1) (lines.set k [])

/-- The outer loop of `preprocessText` from index `i`, with `n` lines left
(`n + i` is the number of lines). The slice `lines` is written while it is
ranged over, and the loop reads each element when it reaches it. -/
def preprocessLoop : Nat → Nat → List Str → List Str → List Str
  | 0, _, _, result => result
  | n + 1, i, lines, result =>
    let line := lines.getD i []
    if isOrphanMarker (TrimSpace line) then
      match nextContent lines n (i + 1) with
      | some (j, nextLine) =>
        preprocessLoop n (i + 1) (blankLines (j - i) (i + 1) lines)
          (result ++ [TrimSpace line ++ [' '] ++ nextLine])
      | none => preprocessLoop n (i + 1) lines result
    else if line ≠ [] then preprocessLoop n (i + 1) lines (result ++ [line])
    else preprocessLoop n (i + 1) lines result

/-- The method `preprocessText`. -/
def preprocessText (text : Str) : Str :=
  let lines := Split '\n' text
  Join ['\n'] (preprocessLoop lines.length 0 lines [])

/-- The token `__CODE_BLOCK_<n>__`. -/
def placeholder (counter : Nat) : Str :=
  "__CODE_BLOCK_".toList ++ itoa counter ++ "__".toList

/-- The assignment `m[k] = v` on a Go map. -/
def mapSet : List (Str × Str) → Str → Str → List (Str × Str)
  | [], k, v => [(k, v)]
  | (k1, v1) :: r, k, v => if k1 = k then (k, v) :: r else (k1, v1) :: mapSet r k v

/-- The callback of `extractCodeBlocks`, on the counter and the converter:
`matches[2]` panics when the pattern does not match the matched text again. -/
def extractCallback (st : Nat × WechatConverter) (m : Str) :
    Option (Str × (Nat × WechatConverter)) :=
  match FindStringSubmatch codeBlockRegex m with
  | none => none
  | some subs =>
    match subs[2]? with
    | none => none
    | some code =>
      let codeHTML := "<section ".toList ++ st.2.styles.CodeBlockStyle ++ ">".toList ++
        EscapeString code ++ "</section>".toList
      some (placeholder st.1,
        (st.1 + 1, { st.2 with codeBlocks := mapSet st.2.codeBlocks (placeholder st.1) codeHTML }))

/-- The method `extractCodeBlocks`. -/
def extractCodeBlocks (c : WechatConverter) (text : Str) : Option (Str × WechatConverter) :=
  (ReplaceAllStringFuncM codeBlockRegex extractCallback (0, c) text).map
    (fun p => (p.1, p.2.2))

/-- The order in which `range` visits the entries of a Go map is unspecified:
it is a parameter of the model, a rearrangement of the entries. -/
structure MapOrder where
  visit : List (Str × Str) → List (Str × Str)
  perm : ∀ m, (visit m).Perm m

/-- The order of insertion, one of the orders a `range` can take. -/
def MapOrder.insertion : MapOrder where
  visit := id
  perm := fun m => List.Perm.refl m

/-- The method `restoreCodeBlocks`, the entries visited in the order `ord`. -/
def restoreCodeBlocks (ord : MapOrder) (c : WechatConverter) (text : Str) : Str :=
  (ord.visit c.codeBlocks).foldl (fun t e => ReplaceAll t e.1 e.2) text

/-- The method `processHeaders`. -/
def processHeaders (c : WechatConverter) (text : Str) : Str :=
  let text := replaceLines (litMarker "# ".toList) (fun m =>
    "<h1 ".toList ++ c.styles.H1Style ++ ">".toList ++
      EscapeString (TrimSpace (TrimPrefix m "#".toList)) ++ "</h1>".toList) text
  let text := replaceLines (litMarker "## ".toList) (fun m =>
    "<h2 ".toList ++ c.styles.H2Style ++ ">".toList ++
      EscapeString (TrimSpace (TrimPrefix m "##".toList)) ++ "</h2>".toList) text
  replaceLines (litMarker "### ".toList) (fun m =>
    "<h3 ".toList ++ c.styles.H3Style ++ ">".toList ++
      EscapeString (TrimSpace (TrimPrefix m "###".toList)) ++ "</h3>".toList) text

/-- The function `isTableSeparator`. -/
def isTableSeparator (line : Str) : Bool :=
  let line := ReplaceAll line [' '] []
  line.all (fun char => char = '|' || char = '-' || char = ':') &&
    Contains line ['-'] && Contains line ['|']

/-- The style of a data cell of `convertTable`, `j` the cell's column. -/
def cellStyleOf (c : WechatConverter) (j : Nat) (cell : Str) : Str :=
  let cellStyle := c.styles.TableCellStyle
  let cellStyle :=
    if HasPrefix cell ['-'] || HasPrefix cell [backtick] then
      Replace1 cellStyle "color: #333".toList
        "color: #d63384; font-family: 'SFMono-Regular', Consolas, monospace".toList
    else cellStyle
  if j = 0 ∧ (HasPrefix cell ['-'] || Contains cell "login".toList ||
      Contains cell "upload".toList) then
    Replace1 cellStyle "color: #333".toList
      "color: #d63384; font-weight: bold; font-family: 'SFMono-Regular', Consolas, monospace".toList
  else cellStyle

/-- The inner loop of `convertTable` over the cells of a data row, from column `j`. -/
def dataCells (c : WechatConverter) : Nat → List Str → Str
  | _, [] => []
  | j, cell :: rest =>
    let cell := TrimSpace cell
    "<td ".toList ++ cellStyleOf c j cell ++ ">".toList ++ EscapeString cell ++
      "</td>".toList ++ dataCells c (j + 1) rest

/-- The loop of `convertTable` over the cells of the header row. -/
def headerCells (c : WechatConverter) : List Str → Str
  | [] => []
  | cell :: rest =>
    let cell := TrimSpace cell
    (if cell ≠ [] then
      "<th ".toList ++ c.styles.TableHeaderStyle ++ ">".toList ++ EscapeString cell ++
        "</th>".toList
    else []) ++ headerCells c rest

/-- The loop of `convertTable` over the data rows. -/
def dataRows (c : WechatConverter) : List Str → Str
  | [] => []
  | line :: rest =>
    "<tr>".toList ++ dataCells c 0 (Split '|' (Trim line '|')) ++ "</tr>".toList ++
      dataRows c rest

/-- The method `convertTable`. -/
def convertTable (c : WechatConverter) (tableLines : List Str) : Str :=
  match tableLines with
  | [] => Join ['\n'] tableLines
  | header :: rows =>
    "<table ".toList ++ c.styles.TableStyle ++ ">".toList ++
      "<tr>".toList ++ headerCells c (Split '|' (Trim header '|')) ++ "</tr>".toList ++
      dataRows c rows ++ "</table>".toList

/-- The loop of `processTables` over the lines still to visit, the current
one first, with the variables `result`, `tableLines` and `inTable`. The
statement `i++` before `continue` changes only the iteration's copy of the
range index; the next iteration visits the next line. -/
def tablesLoop (c : WechatConverter) :
    List Str → List Str → List Str → Bool → List Str × List Str × Bool
  | [], result, tableLines, inTable => (result, tableLines, inTable)
  | raw :: rest, result, tableLines, inTable =>
    let line := TrimSpace raw
    if Contains line ['|'] && !inTable &&
        (match rest with
          | [] => false
          | next :: _ => isTableSeparator (TrimSpace next)) then
      tablesLoop c rest result [line] true
    else if inTable then
      if Contains line ['|'] && !isTableSeparator line then
        tablesLoop c rest result (tableLines ++ [line]) true
      else
        let result := result ++ [convertTable c tableLines]
        tablesLoop c rest (if line ≠ [] then result ++ [line] else result) [] false
    else tablesLoop c rest (result ++ [line]) tableLines inTable

/-- The method `processTables`. -/
def processTables (c : WechatConverter) (text : Str) : Str :=
  match tablesLoop c (Split '\n' text) [] [] false with
  | (result, tableLines, inTable) =>
    Join ['\n']
      (if inTable ∧ tableLines.length > 0 then result ++ [convertTable c tableLines]
       else result)

/-- The method `processQuotes`. -/
def processQuotes (c : WechatConverter) (text : Str) : Str :=
  replaceLines (litMarker "> ".toList) (fun m =>
    "<blockquote ".toList ++ c.styles.QuoteStyle ++ ">".toList ++
      EscapeString (TrimSpace (TrimPrefix m ">".toList)) ++ "</blockquote>".toList) text

/-- The fixed style of a list item. -/
def liOpen : Str := "<li style=\"margin: 0; line-height: 1.5em; font-size: 14px;\">".toList

/-- The replacement of an anchored marker pattern (`^[-*+] `, `^\d+\.`) by the
empty string. -/
def stripMarker (marker : Str → Option Str) (m : Str) : Str := (marker m).getD m

/-- The method `processLists`. -/
def processLists (c : WechatConverter) (text : Str) : Str :=
  let text := replaceLines (litMarker "•".toList) (fun m =>
    "<ul ".toList ++ c.styles.ListStyle ++ ">".toList ++ liOpen ++
      EscapeString (TrimSpace (TrimPrefix m "•".toList)) ++ "</li></ul>".toList) text
  let text := replaceLines unorderedMarker (fun m =>
    "<ul ".toList ++ c.styles.ListStyle ++ ">".toList ++ liOpen ++
      EscapeString (stripMarker unorderedMarker m) ++ "</li></ul>".toList) text
  replaceLines orderedMarker (fun m =>
    "<ol ".toList ++ c.styles.ListStyle ++ ">".toList ++ liOpen ++
      EscapeString (TrimSpace (stripMarker orderedMarker m)) ++ "</li></ol>".toList) text

/-- The callback of `processLinks`: `matches[1]` and `matches[2]` panic when
the pattern does not match the matched text again. -/
def linkCallback (c : WechatConverter) (m : Str) : Option (Str × WechatConverter) :=
  match FindStringSubmatch linkRegex m with
  | none => none
  | some subs =>
    match subs[1]?, subs[2]? with
    | some linkText, some linkURL =>
      let footnoteIndex := c.footnotes.length + 1
      some ("<span ".toList ++ c.styles.LinkStyle ++ ">".toList ++ EscapeString linkText ++
          "</span><sup>[".toList ++ itoa footnoteIndex ++ "]</sup>".toList,
        { c with footnotes := c.footnotes ++ [linkURL] })
    | _, _ => none

/-- The method `processLinks`. -/
def processLinks (c : WechatConverter) (text : Str) : Option (Str × WechatConverter) :=
  ReplaceAllStringFuncM linkRegex linkCallback c text

/-- The callback of `processImages`. -/
def imageCallback (c : WechatConverter) (_ : Unit) (m : Str) : Option (Str × Unit) :=
  match FindStringSubmatch imageRegex m with
  | none => none
  | some subs =>
    match subs[1]?, subs[2]? with
    | some altText, some imageURL =>
      some ("<img ".toList ++ c.styles.ImageStyle ++ " src=\"".toList ++ imageURL ++
        "\" alt=\"".toList ++ EscapeString altText ++ "\" />".toList, ())
    | _, _ => none

/-- The method `processImages`. -/
def processImages (c : WechatConverter) (text : Str) : Option Str :=
  (ReplaceAllStringFuncM imageRegex (imageCallback c) () text).map Prod.fst

/-- The method `processInlineCode`. -/
def processInlineCode (c : WechatConverter) (text : Str) : Str :=
  ReplaceAllStringFunc inlineCodeRegex (fun m =>
    "<code ".toList ++ c.styles.InlineCodeStyle ++ ">".toList ++
      EscapeString (Trim m backtick) ++ "</code>".toList) text

/-- The method `processBoldItalic`. -/
def processBoldItalic (text : Str) : Str :=
  let text := ReplaceAllString1 boldRegex "<strong>".toList "</strong>".toList text
  ReplaceAllString1 italicRegex "<em>".toList "</em>".toList text

/-- The method `processParagraphs`. -/
def processParagraphs (c : WechatConverter) (text : Str) : Str :=
  Join ['\n'] ((Split '\n' text).filterMap (fun line =>
    let line := TrimSpace line
    if line = [] then none
    else if HasPrefix line ['<'] then some line
    else some ("<p ".toList ++ c.styles.ParagraphStyle ++ ">".toList ++ line ++ "</p>".toList)))

/-- The horizontal rule that opens the references section. -/
def footnoteRule : Str :=
  "<hr style=\"margin: 30px 0; border: none; border-top: 1px solid #eee;\" />".toList

/-- The heading of the references section. -/
def footnoteHeading : Str :=
  "<h2 style=\"display: table; ".toList ++ fontStack ++ " font-size: 14px; font-weight: bold; margin: 3em 0 0.6em 0; padding-left: 0.2em;\">参考</h2>".toList

/-- The opening tag of a paragraph of the references section. -/
def footnoteOpen : Str :=
  "<p style=\"font-size: 10px; font-style: italic; line-height: 1.2; margin: 0.4rem 0;\">".toList

/-- The loop of `generateFootnotes`, from index `i`. -/
def footnoteItems : Nat → List Str → Str
  | _, [] => []
  | i, footnote :: rest =>
    footnoteOpen ++ "[".toList ++ itoa (i + 1) ++ "] ".toList ++ EscapeString footnote ++
      "</p>".toList ++ footnoteItems (i + 1) rest

/-- The method `generateFootnotes`. -/
def generateFootnotes (c : WechatConverter) : Str :=
  if c.footnotes.length = 0 then []
  else footnoteRule ++ footnoteHeading ++ footnoteItems 0 c.footnotes

/-- The method `ConvertMarkdownToWechat`: the returned string and the
converter after the call; `none` when a callback panics. -/
def ConvertMarkdownToWechat (ord : MapOrder) (c : WechatConverter) (markdown : Str) :
    Option (Str × WechatConverter) :=
  let c := { c with footnotes := [] }
  let html := preprocessText markdown
  match extractCodeBlocks c html with
  | none => none
  | some (html, c) =>
    let html := processHeaders c html
    let html := processQuotes c html
    let html := processTables c html
    let html := processLists c html
    match processLinks c html with
    | none => none
    | some (html, c) =>
      match processImages c html with
      | none => none
      | some html =>
        let html := processInlineCode c html
        let html := processBoldItalic html
        let html := processParagraphs c html
        let html := restoreCodeBlocks ord c html
        let html := if c.footnotes.length > 0 then html ++ generateFootnotes c else html
        some (html, c)

/-- The stages of `ConvertMarkdownToWechat` before `restoreCodeBlocks`: none of
them reads the placeholder map or the iteration order. -/
def convertStages (c : WechatConverter) (markdown : Str) : Option (Str × WechatConverter) :=
  let c := { c with footnotes := [] }
  match extractCodeBlocks c (preprocessText markdown) with
  | none => none
  | some (html, c) =>
    match processLinks c (processLists c (processTables c (processQuotes c
        (processHeaders c html)))) with
    | none => none
    | some (html, c) =>
      match processImages c html with
      | none => none
      | some html =>
        some (processParagraphs c (processBoldItalic (processInlineCode c html)), c)

/-- The last two steps of `ConvertMarkdownToWechat`: the placeholders are
restored and the references section is appended. -/
def convertFinish (ord : MapOrder) (c : WechatConverter) (html : Str) : Str :=
  let html := restoreCodeBlocks ord c html
  if c.footnotes.length > 0 then html ++ generateFootnotes c else html

/-! ## Specifications of the scanning stages

What the callbacks of `extractCodeBlocks`, `processLinks` and `processImages`
compute when they do not panic, as functions of the text alone. -/

/-- Specification of the text `extractCodeBlocks` returns: the matches of the
code-block pattern, left to right and not overlapping, are replaced by the
placeholders numbered from `n`. -/
def extractText : Nat → Nat → Str → Str
  | _, _, [] => []
  | k + 1, n, _ :: cs => extractText k n cs
  | 0, n, c :: cs =>
    match codeBlockRegex (c :: cs) with
    | none => c :: extractText 0 n cs
    | some g => placeholder n ++ extractText ((g.headD []).length - 1) (n + 1) cs

/-- Specification of the entries `extractCodeBlocks` writes to the placeholder
map, in the order of the matches: the placeholder and the escaped body wrapped
in a `<section>` that carries the code-block style. -/
def extractEntries (style : Str) : Nat → Nat → Str → List (Str × Str)
  | _, _, [] => []
  | k + 1, n, _ :: cs => extractEntries style k n cs
  | 0, n, c :: cs =>
    match codeBlockRegex (c :: cs) with
    | none => extractEntries style 0 n cs
    | some g =>
      (placeholder n, "<section ".toList ++ style ++ ">".toList ++
          EscapeString (g.getD 2 []) ++ "</section>".toList) ::
        extractEntries style ((g.headD []).length - 1) (n + 1) cs

/-- Specification of the text `processLinks` returns (section 4.6): every
match of the link pattern, left to right and not overlapping, is replaced by a
span with the escaped link text and the marker of its number; the numbers
start after `n`. -/
def renderLinks (style : Str) : Nat → Nat → Str → Str
  | _, _, [] => []
  | k + 1, n, _ :: cs => renderLinks style k n cs
  | 0, n, c :: cs =>
    match linkRegex (c :: cs) with
    | none => c :: renderLinks style 0 n cs
    | some g =>
      "<span ".toList ++ style ++ ">".toList ++ EscapeString (g.getD 1 []) ++
        "</span><sup>[".toList ++ itoa (n + 1) ++ "]</sup>".toList ++
        renderLinks style ((g.headD []).length - 1) (n + 1) cs

/-- Specification of the footnotes `processLinks` records (section 4.6): the
URLs of the matches of the link pattern, left to right and not overlapping. -/
def linkURLs : Nat → Str → List Str
  | _, [] => []
  | k + 1, _ :: cs => linkURLs k cs
  | 0, c :: cs =>
    match linkRegex (c :: cs) with
    | none => linkURLs 0 cs
    | some g => g.getD 2 [] :: linkURLs ((g.headD []).length - 1) cs

/-- Specification of the text `processImages` returns (section 4.7). -/
def renderImages (style : Str) (k : Nat) (text : Str) : Str :=
  replaceAllAuxP imageRegex (fun g =>
    "<img ".toList ++ style ++ " src=\"".toList ++ g.getD 2 [] ++
      "\" alt=\"".toList ++ EscapeString (g.getD 1 []) ++ "\" />".toList) k text

/-- A converter with the styles of `c` in the state `NewWechatConverterFixed`
builds: no footnote, an empty placeholder map. -/
def freshState (c : WechatConverter) : WechatConverter :=
  { c with footnotes := [], codeBlocks := [] }

/-- The document as `ConvertMarkdownToWechat` passes it to `processLinks`:
after preprocessing, code-block extraction, headings, quotes, tables and lists. -/
def linkStageText (c : WechatConverter) (markdown : Str) : Str :=
  processLists c (processTables c (processQuotes c (processHeaders c
    (extractText 0 0 (preprocessText markdown)))))

/-- The stages from `processLinks` to `processParagraphs` on the text `t`, the
link markers numbered from 1. -/
def afterLinks (c : WechatConverter) (t : Str) : Str :=
  processParagraphs c (processBoldItalic (processInlineCode c
    (renderImages c.styles.ImageStyle 0 (renderLinks c.styles.LinkStyle 0 0 t))))

/-- A plain item text: it is not empty and does not end in white space, it is
one line, and it has none of the characters that start a table cell, a link, an
image, a code span or an emphasis. -/
def plainItem (a : Str) : Bool :=
  a.all (fun x => x != '\n' && x != '|' && x != '[' && x != backtick && x != '*') &&
    (match a.getLast? with
      | some y => !isSpace y
      | none => false)

/-- A text without the characters the stages after the lists react to. -/
def quiet (s : Str) : Prop :=
  ∀ x ∈ s, x ≠ '\n' ∧ x ≠ '|' ∧ x ≠ '[' ∧ x ≠ backtick ∧ x ≠ '*'

/-! ## Specification of a table (section 4.4, row rendering) -/

/-- The cells of a table row: the row without its leading and trailing pipes
is split at the pipes and every cell is trimmed. -/
def rowCells (line : Str) : List Str := (Split '|' (Trim line '|')).map TrimSpace

/-- A header cell element. -/
def thElement (c : WechatConverter) (cell : Str) : Str :=
  "<th ".toList ++ c.styles.TableHeaderStyle ++ ">".toList ++ EscapeString cell ++
    "</th>".toList

/-- A data cell element, `j` the column of the cell. -/
def tdElement (c : WechatConverter) (j : Nat) (cell : Str) : Str :=
  "<td ".toList ++ cellStyleOf c j cell ++ ">".toList ++ EscapeString cell ++ "</td>".toList

/-- Specification of the header row: one `<th>` for every cell that is not
empty, in order; an empty cell emits nothing. -/
def headerRowSpec (c : WechatConverter) (line : Str) : Str :=
  "<tr>".toList ++ ((rowCells line).filter (fun cell => cell ≠ [])).flatMap (thElement c) ++
    "</tr>".toList

/-- Specification of a data row: one `<td>` for every cell, in order, the
empty cells included. -/
def dataRowSpec (c : WechatConverter) (line : Str) : Str :=
  "<tr>".toList ++ ((rowCells line).enumFrom 0).flatMap (fun p => tdElement c p.1 p.2) ++
    "</tr>".toList

/-- Specification of a table: the header row, then the data rows. -/
def tableSpec (c : WechatConverter) (header : Str) (rows : List Str) : Str :=
  "<table ".toList ++ c.styles.TableStyle ++ ">".toList ++ headerRowSpec c header ++
    rows.flatMap (dataRowSpec c) ++ "</table>".toList

/-! ## Documents of fenced code blocks -/

/-- A fenced code block: the opening fence, the language tag, a newline, the
body and the closing fence. -/
def fencedBlock (tag body : Str) : Str := fence ++ tag ++ ['\n'] ++ body ++ fence

/-- A properly closed block: the tag holds no newline, and the closing fence is
the first fence after the opening line, that is the body holds no fence and does
not end in a backtick. -/
def properBlock (tag body : Str) : Bool :=
  tag.all (fun x => x != '\n') && !Contains body fence &&
    !(body.getLast? == some backtick)

/-- A document of fenced blocks: every block `(pre, tag, body)` is the text
`pre` followed by the block of `tag` and `body`; `last` is the text after the
last block. -/
def blocksDoc : List (Str × Str × Str) → Str → Str
  | [], last => last
  | (pre, tag, body) :: rest, last => pre ++ fencedBlock tag body ++ blocksDoc rest last

/-- The document with every block replaced by its placeholder, numbered from `n`. -/
def blocksReplaced : Nat → List (Str × Str × Str) → Str → Str
  | _, [], last => last
  | n, (pre, _, _) :: rest, last => pre ++ placeholder n ++ blocksReplaced (n + 1) rest last

/-- The entries of the placeholder map for the blocks of a document, numbered
from `n`: the placeholder and the escaped body in a `<section>` of the code-block
style. -/
def blocksEntries (style : Str) : Nat → List (Str × Str × Str) → List (Str × Str)
  | _, [] => []
  | n, (_, _, body) :: rest =>
    (placeholder n, "<section ".toList ++ style ++ ">".toList ++ EscapeString body ++
      "</section>".toList) :: blocksEntries style (n + 1) rest

/-- The lookup `m[k]` on a Go map. -/
def mapGet : List (Str × Str) → Str → Option Str
  | [], _ => none
  | (k1, v1) :: r, k => if k1 = k then some v1 else mapGet r k

/-- The number a string of decimal digits stands for. -/
def digitsValue (s : Str) : Nat := s.foldl (fun a c => 10 * a + (c.toNat - 48)) 0

/-! ## Headings -/

/-- The heading element of a level: the tag with the style of the level around
the escaped, trimmed text. -/
def headingElement (tag style t : Str) : Str :=
  "<".toList ++ tag ++ " ".toList ++ style ++ ">".toList ++ EscapeString (TrimSpace t) ++
    "</".toList ++ tag ++ ">".toList

/-- One pass of `processHeaders` on one line, by the specification: a line that
begins with the marker `m` and goes on after it becomes the heading element of the
text behind the marker, and every other line stays as it is. -/
def headingPass (m tag style l : Str) : Str :=
  if HasPrefix l m ∧ m.length < l.length then headingElement tag style (l.drop m.length)
  else l

/-- Specification of `processHeaders` on one line: a line of one, two or three
hashes, one space and a non-empty text becomes the heading element of that level,
and every other line stays as it is. -/
def headingLine (c : WechatConverter) (l : Str) : Str :=
  if HasPrefix l "# ".toList ∧ 2 < l.length then
    headingElement "h1".toList c.styles.H1Style (l.drop 2)
  else if HasPrefix l "## ".toList ∧ 3 < l.length then
    headingElement "h2".toList c.styles.H2Style (l.drop 3)
  else if HasPrefix l "### ".toList ∧ 4 < l.length then
    headingElement "h3".toList c.styles.H3Style (l.drop 4)
  else l

/-! ## Documents of links -/

/-- The link `[t](u)`. -/
def linkText (t u : Str) : Str := '[' :: t ++ [']', '('] ++ u ++ [')']

/-- No link begins at any position of `gap` when `rest` follows it. -/
def noLinkStart : Str → Str → Bool
  | [], _ => true
  | c :: cs, rest => (linkRegex (c :: cs ++ rest)).isNone && noLinkStart cs rest

/-- The document of the links `[t](u)`, every one behind its gap `pre`, with the
text `last` behind the last link. -/
def linksDoc : List (Str × Str × Str) → Str → Str
  | [], last => last
  | (pre, t, u) :: segs, last => pre ++ linkText t u ++ linksDoc segs last

/-- The links of the document are its leftmost occurrences, one after the other:
every text is non-empty without `]`, every address is non-empty without `)`, and
no link begins inside a gap or inside the last text. -/
def leftmostLinks : List (Str × Str × Str) → Str → Bool
  | [], last => noLinkStart last []
  | (pre, t, u) :: segs, last =>
    decide (t ≠ []) && decide (']' ∉ t) && decide (u ≠ []) && decide (')' ∉ u) &&
      noLinkStart pre (linkText t u ++ linksDoc segs last) && leftmostLinks segs last

/-- The document with every link replaced by its element: the span with the link
style and the escaped text, and the superscript marker, numbered from `n + 1`. -/
def linksRendered (style : Str) : Nat → List (Str × Str × Str) → Str → Str
  | _, [], last => last
  | n, (pre, t, _) :: segs, last =>
    pre ++ ("<span ".toList ++ style ++ ">".toList ++ EscapeString t ++
      "</span><sup>[".toList ++ itoa (n + 1) ++ "]</sup>".toList) ++
      linksRendered style (n + 1) segs last

/-! ## Orphaned list markers -/

/-- The first line with content among the lines: its position and the line
trimmed. -/
def firstContent : List Str → Option (Nat × Str)
  | [] => none
  | l :: ls =>
    if TrimSpace l ≠ [] then some (0, TrimSpace l)
    else (firstContent ls).map (fun p => (p.1 + 1, p.2))

/-- Specification of the loop of `preprocessText` over the lines, the first
`skip` of which were consumed as the blank lines and the content of a marker: an
orphaned marker is joined with the next line with content, a marker without one is
dropped, an empty line is dropped, and every other line is kept. -/
def joinMarkers : Nat → List Str → List Str
  | _, [] => []
  | skip + 1, _ :: rest => joinMarkers skip rest
  | 0, line :: rest =>
    if isOrphanMarker (TrimSpace line) then
      match firstContent rest with
      | some (j, content) => (TrimSpace line ++ [' '] ++ content) :: joinMarkers (j + 1) rest
      | none => joinMarkers 0 rest
    else if line ≠ [] then line :: joinMarkers 0 rest
    else joinMarkers 0 rest

/-- Every orphaned marker line among the lines is followed, among them, by a
line with content. -/
def markersJoined : List Str → Bool
  | [] => true
  | l :: ls => (!isOrphanMarker (TrimSpace l) || (firstContent ls).isSome) && markersJoined ls

/-! ## Another order of iteration -/

/-- The reverse of the order of insertion, another of the orders a `range`
can take. -/
def MapOrder.reversed : MapOrder where
  visit := List.reverse
  perm := fun m => List.reverse_perm m

/-- The loop of `preprocessText`, having run over the lines (the first `skip`
of them consumed already), is left with a marker that still waits for its
content: an orphaned marker line that the loop has reached as a marker and that
has no line with content after it among the lines. The first line with content
that follows the lines is then consumed as the content of that marker. -/
def markerPending : Nat → List Str → Bool
  | _, [] => false
  | skip + 1, _ :: rest => markerPending skip rest
  | 0, line :: rest =>
    if isOrphanMarker (TrimSpace line) then
      match firstContent rest with
      | some (j, _) => markerPending (j + 1) rest
      | none => true
    else markerPending 0 rest

/-! ## Theorems -/

/-- `ConvertMarkdownToWechat` is its stages followed by its last two steps. -/
theorem ConvertMarkdownToWechat_eq (ord : MapOrder) (c : WechatConverter) (markdown : Str) :
    ConvertMarkdownToWechat ord c markdown =
      (convertStages c markdown).map (fun p => (convertFinish ord p.2 p.1, p.2)) := by
  simp only [ConvertMarkdownToWechat, convertStages, convertFinish]
  generalize extractCodeBlocks _ (preprocessText markdown) = e1
  rcases e1 with _ | ⟨h1, c1⟩
  · rfl
  · simp only []
    generalize processLinks c1 _ = e2
    rcases e2 with _ | ⟨h2, c2⟩
    · rfl
    · simp only []
      generalize processImages c2 h2 = e3
      rcases e3 with _ | h3
      · rfl
      · rfl

/-- The converter after `ConvertMarkdownToWechat` is the one its stages leave. -/
theorem ConvertMarkdownToWechat_snd (ord : MapOrder) (c : WechatConverter) (markdown : Str) :
    (ConvertMarkdownToWechat ord c markdown).map Prod.snd =
      (convertStages c markdown).map Prod.snd := by
  rw [ConvertMarkdownToWechat_eq, Option.map_map]
  rfl

/-- Every iteration order visits an empty map as the empty sequence. -/
theorem MapOrder.visit_nil (ord : MapOrder) : ord.visit [] = [] :=
  List.Perm.eq_nil (ord.perm [])

/-- Every iteration order visits a map of one entry as that entry. -/
theorem MapOrder.visit_singleton (ord : MapOrder) (e : Str × Str) : ord.visit [e] = [e] :=
  List.perm_singleton.mp (ord.perm [e])

/-- With an empty placeholder map the last two steps only append the
references section. -/
theorem convertFinish_nil (ord : MapOrder) (c : WechatConverter) (html : Str)
    (h : c.codeBlocks = []) :
    convertFinish ord c html =
      if c.footnotes.length > 0 then html ++ generateFootnotes c else html := by
  simp [convertFinish, restoreCodeBlocks, h, MapOrder.visit_nil]

/-- With one entry in the placeholder map the order of the visit does not
matter: the entry is replaced and the references section appended. -/
theorem convertFinish_singleton (ord : MapOrder) (c : WechatConverter) (html k v : Str)
    (h : c.codeBlocks = [(k, v)]) :
    convertFinish ord c html =
      if c.footnotes.length > 0 then ReplaceAll html k v ++ generateFootnotes c
      else ReplaceAll html k v := by
  simp [convertFinish, restoreCodeBlocks, h, MapOrder.visit_singleton]

/-! ### Prefixes and cuts -/

theorem HasPrefix_iff (s p : Str) : HasPrefix s p = true ↔ ∃ r, s = p ++ r := by
  induction p generalizing s with
  | nil => simp [HasPrefix]
  | cons x xs ih =>
    cases s with
    | nil => simp [HasPrefix]
    | cons c cs =>
      simp only [HasPrefix, Bool.and_eq_true, beq_iff_eq, ih, List.cons_append, List.cons.injEq]
      constructor
      · rintro ⟨rfl, r, rfl⟩
        exact ⟨r, rfl, rfl⟩
      · rintro ⟨r, rfl, rfl⟩
        exact ⟨rfl, r, rfl⟩

theorem HasPrefix_append (p r : Str) : HasPrefix (p ++ r) p = true :=
  (HasPrefix_iff _ _).mpr ⟨r, rfl⟩

theorem HasPrefix_append_long (u x p : Str) (h : p.length ≤ u.length) :
    HasPrefix (u ++ x) p = HasPrefix u p := by
  induction p generalizing u with
  | nil => simp [HasPrefix]
  | cons y ys ih =>
    cases u with
    | nil => simp at h
    | cons c cs =>
      simp only [List.length_cons, Nat.add_le_add_iff_right] at h
      simp [HasPrefix, ih cs h]

theorem cut_eq_some (sub : Str) (s a b : Str) (h : cut sub s = some (a, b)) :
    s = a ++ sub ++ b := by
  induction s generalizing a with
  | nil =>
    simp only [cut] at h
    split at h
    · rename_i hp
      cases sub with
      | nil => simp at h; simp [h]
      | cons x xs => simp [HasPrefix] at hp
    · simp at h
  | cons c cs ih =>
    simp only [cut] at h
    split at h
    · rename_i hp
      obtain ⟨r, hr⟩ := (HasPrefix_iff _ _).mp hp
      simp only [Option.some.injEq, Prod.mk.injEq] at h
      obtain ⟨rfl, rfl⟩ := h
      rw [hr]; simp
    · cases hc : cut sub cs with
      | none => simp [hc] at h
      | some p =>
        obtain ⟨a', b'⟩ := p
        simp only [hc, Option.map_some', Option.some.injEq, Prod.mk.injEq] at h
        obtain ⟨rfl, rfl⟩ := h
        rw [ih a' hc]; simp

theorem cut_first (sub : Str) (s a b b' : Str) (h : cut sub s = some (a, b)) :
    cut sub (a ++ sub ++ b') = some (a, b') := by
  induction s generalizing a with
  | nil =>
    simp only [cut] at h
    split at h
    · rename_i hp
      cases sub with
      | nil =>
        simp only [Option.some.injEq, Prod.mk.injEq] at h
        obtain ⟨rfl, rfl⟩ := h
        cases b' <;> simp [cut, HasPrefix]
      | cons x xs => simp [HasPrefix] at hp
    · simp at h
  | cons c cs ih =>
    simp only [cut] at h
    split at h
    · simp only [Option.some.injEq, Prod.mk.injEq] at h
      obtain ⟨rfl, rfl⟩ := h
      cases sub with
      | nil => cases b' <;> simp [cut, HasPrefix]
      | cons x xs =>
        have := HasPrefix_append (x :: xs) b'
        simp only [List.nil_append, List.cons_append] at this ⊢
        simp [cut, this]
    · rename_i hp
      cases hc : cut sub cs with
      | none => simp [hc] at h
      | some p =>
        obtain ⟨a', b0⟩ := p
        simp only [hc, Option.map_some', Option.some.injEq, Prod.mk.injEq] at h
        obtain ⟨rfl, rfl⟩ := h
        have hcs := cut_eq_some sub cs a' b0 hc
        have ih' := ih a' hc
        have e1 : HasPrefix (c :: a' ++ sub ++ b') sub = HasPrefix (c :: a' ++ sub) sub := by
          rw [List.append_assoc (c :: a')]
          rw [← List.append_assoc (c :: a') sub b']
          exact HasPrefix_append_long (c :: a' ++ sub) b' sub (by simp; omega)
        have e2 : HasPrefix (c :: cs) sub = HasPrefix (c :: a' ++ sub) sub := by
          rw [hcs]
          exact HasPrefix_append_long (c :: a' ++ sub) b0 sub (by simp; omega)
        have hf : HasPrefix (c :: (a' ++ sub ++ b')) sub = false := by
          have : HasPrefix (c :: a' ++ sub ++ b') sub = false := by
            rw [e1, ← e2]; simpa using hp
          simpa using this
        rw [List.append_assoc] at hf ih'
        simp [cut, hf, ih']

/-! ### The patterns match their own matches again -/

theorem takeWhile_append_stop (p : Char → Bool) (t : Str) (x : Char) (y : Str)
    (ht : ∀ a ∈ t, p a = true) (hx : p x = false) :
    (t ++ x :: y).takeWhile p = t := by
  induction t with
  | nil => simp [List.takeWhile, hx]
  | cons a as ih =>
    have ha : p a = true := ht a (List.mem_cons_self _ _)
    simp [List.takeWhile, ha, ih (fun b hb => ht b (List.mem_cons_of_mem _ hb))]

theorem dropWhile_append_stop (p : Char → Bool) (t : Str) (x : Char) (y : Str)
    (ht : ∀ a ∈ t, p a = true) (hx : p x = false) :
    (t ++ x :: y).dropWhile p = x :: y := by
  induction t with
  | nil => simp [List.dropWhile, hx]
  | cons a as ih =>
    have ha : p a = true := ht a (List.mem_cons_self _ _)
    simp [List.dropWhile, ha, ih (fun b hb => ht b (List.mem_cons_of_mem _ hb))]

theorem takeWhile_all (p : Char → Bool) (s : Str) : ∀ a ∈ s.takeWhile p, p a = true :=
  fun _ ha => List.mem_takeWhile_imp ha

theorem FindStringSubmatch_head (re : Regexp) (s : Str) (g : List Str)
    (h : re s = some g) : FindStringSubmatch re s = some g := by
  cases s with
  | nil => simpa [FindStringSubmatch] using h
  | cons c cs => simp [FindStringSubmatch, h]

theorem codeBlockRegex_some (s : Str) (g : List Str) (h : codeBlockRegex s = some g) :
    ∃ lang code rest, g = [fence ++ lang ++ ['\n'] ++ code ++ fence, lang, code] ∧
      s = fence ++ lang ++ ['\n'] ++ code ++ fence ++ rest ∧
      codeBlockRegex (fence ++ lang ++ ['\n'] ++ code ++ fence) = some g := by
  unfold codeBlockRegex at h
  split at h
  · rename_i hp
    obtain ⟨r, rfl⟩ := (HasPrefix_iff _ _).mp hp
    have hdrop : (fence ++ r).drop 3 = r := by simp [fence]
    rw [hdrop] at h
    cases h1 : cut ['\n'] r with
    | none => simp [h1] at h
    | some p1 =>
      obtain ⟨lang, r1⟩ := p1
      cases h2 : cut fence r1 with
      | none => simp [h1, h2] at h
      | some p2 =>
        obtain ⟨code, rest⟩ := p2
        simp only [h1, h2, Option.some.injEq] at h
        refine ⟨lang, code, rest, h.symm, ?_, ?_⟩
        · rw [cut_eq_some _ _ _ _ h1, cut_eq_some _ _ _ _ h2]
          simp
        · unfold codeBlockRegex
          have e : fence ++ lang ++ ['\n'] ++ code ++ fence =
              fence ++ (lang ++ ['\n'] ++ (code ++ fence)) := by simp
          rw [e, HasPrefix_append]
          have hdrop2 : (fence ++ (lang ++ ['\n'] ++ (code ++ fence))).drop 3 =
              lang ++ ['\n'] ++ (code ++ fence) := by simp [fence]
          rw [hdrop2, cut_first _ _ _ _ (code ++ fence) h1]
          have h3 := cut_first _ _ _ _ [] h2
          rw [List.append_nil] at h3
          simp only [if_true, h3]
          rw [← h]
  · simp at h

theorem linkRegex_some (s : Str) (g : List Str) (h : linkRegex s = some g) :
    ∃ t u, g = ['[' :: t ++ [']', '('] ++ u ++ [')'], t, u] ∧
      linkRegex ('[' :: t ++ [']', '('] ++ u ++ [')']) = some g := by
  unfold linkRegex at h
  cases s with
  | nil => simp at h
  | cons c r =>
    simp only at h
    split at h
    · split at h
      · rename_i c1 c2 r2 hd1
        split at h
        · rename_i c3 r3 hd2
          split at h
          · rename_i hc
            obtain ⟨rfl, rfl, rfl, ht, hu⟩ := hc
            simp only [Option.some.injEq] at h
            refine ⟨_, _, h.symm, ?_⟩
            have ht1 := takeWhile_all (fun x => x != ']') r
            have hu1 := takeWhile_all (fun x => x != ')') r2
            unfold linkRegex
            simp only [List.cons_append, List.append_assoc, if_true]
            rw [takeWhile_append_stop _ _ _ _ ht1 (by simp),
              dropWhile_append_stop _ _ _ _ ht1 (by simp)]
            simp only [List.nil_append]
            rw [takeWhile_append_stop _ _ _ _ hu1 (by simp),
              dropWhile_append_stop _ _ _ _ hu1 (by simp)]
            simp only [true_and]
            rw [if_pos ⟨ht, hu⟩]
            rw [← h]
            simp
          · simp at h
        · simp at h
      · simp at h
    · simp at h

theorem imageRegex_some (s : Str) (g : List Str) (h : imageRegex s = some g) :
    ∃ t u, g = ['!' :: '[' :: t ++ [']', '('] ++ u ++ [')'], t, u] ∧
      imageRegex ('!' :: '[' :: t ++ [']', '('] ++ u ++ [')']) = some g := by
  unfold imageRegex at h
  split at h
  · rename_i c0 c r
    split at h
    · rename_i hc0
      obtain ⟨rfl, rfl⟩ := hc0
      split at h
      · rename_i c1 c2 r2 hd1
        split at h
        · rename_i c3 r3 hd2
          dsimp only at h
          split at h
          · rename_i hc
            obtain ⟨rfl, rfl, rfl, hu⟩ := hc
            simp only [Option.some.injEq] at h
            refine ⟨_, _, h.symm, ?_⟩
            have ht1 := takeWhile_all (fun x => x != ']') r
            have hu1 := takeWhile_all (fun x => x != ')') r2
            unfold imageRegex
            simp only [List.cons_append, List.append_assoc, true_and, if_true]
            rw [takeWhile_append_stop _ _ _ _ ht1 (by simp),
              dropWhile_append_stop _ _ _ _ ht1 (by simp)]
            simp only [List.nil_append]
            rw [takeWhile_append_stop _ _ _ _ hu1 (by simp),
              dropWhile_append_stop _ _ _ _ hu1 (by simp)]
            simp only [true_and]
            rw [if_pos hu]
            rw [← h]
            simp
          · simp at h
        · simp at h
      · simp at h
    · simp at h
  · simp at h

/-! ### The scanning stages never panic and compute their specifications -/

theorem extract_scan (k n : Nat) (c : WechatConverter) (s : Str) :
    replaceAllAuxM codeBlockRegex extractCallback k (n, c) s =
      some (extractText k n s,
        (n + (extractEntries c.styles.CodeBlockStyle k n s).length,
          { c with
            codeBlocks := (extractEntries c.styles.CodeBlockStyle k n s).foldl
                            (fun m e => mapSet m e.1 e.2) c.codeBlocks })) := by
  induction s generalizing k n c with
  | nil => simp [replaceAllAuxM, extractText, extractEntries]
  | cons x xs ih =>
    cases k with
    | succ k => simp [replaceAllAuxM, extractText, extractEntries, ih]
    | zero =>
      simp only [replaceAllAuxM, extractText, extractEntries]
      cases hre : codeBlockRegex (x :: xs) with
      | none => simp [ih]
      | some g =>
        obtain ⟨lang, code, rest, rfl, _, hw⟩ := codeBlockRegex_some _ _ hre
        have hf := FindStringSubmatch_head _ _ _ hw
        simp only [List.headD_cons, extractCallback, hf, List.getElem?_cons_succ,
          List.getElem?_cons_zero, ih, Option.map_some', List.getD_cons_succ,
          List.getD_cons_zero, List.length_cons, List.foldl_cons]
        simp only [Option.some.injEq, Prod.mk.injEq, true_and]
        exact ⟨by omega, trivial⟩

theorem links_scan (k : Nat) (c : WechatConverter) (s : Str) :
    replaceAllAuxM linkRegex linkCallback k c s =
      some (renderLinks c.styles.LinkStyle k c.footnotes.length s,
        { c with footnotes := c.footnotes ++ linkURLs k s }) := by
  induction s generalizing k c with
  | nil => simp [replaceAllAuxM, renderLinks, linkURLs]
  | cons x xs ih =>
    cases k with
    | succ k => simp [replaceAllAuxM, renderLinks, linkURLs, ih]
    | zero =>
      simp only [replaceAllAuxM, renderLinks, linkURLs]
      cases hre : linkRegex (x :: xs) with
      | none => simp [ih]
      | some g =>
        obtain ⟨t, u, rfl, hw⟩ := linkRegex_some _ _ hre
        have hf := FindStringSubmatch_head _ _ _ hw
        simp only [List.headD_cons, linkCallback, hf, List.getElem?_cons_succ,
          List.getElem?_cons_zero, ih, Option.map_some', List.getD_cons_succ,
          List.getD_cons_zero, List.length_append, List.length_cons, List.length_nil]
        simp

theorem images_scan (c : WechatConverter) (k : Nat) (s : Str) :
    replaceAllAuxM imageRegex (imageCallback c) k () s =
      some (renderImages c.styles.ImageStyle k s, ()) := by
  induction s generalizing k with
  | nil => simp [replaceAllAuxM, renderImages, replaceAllAuxP]
  | cons x xs ih =>
    cases k with
    | succ k =>
      simp only [replaceAllAuxM, ih]
      simp [renderImages, replaceAllAuxP]
    | zero =>
      simp only [replaceAllAuxM, renderImages, replaceAllAuxP]
      cases hre : imageRegex (x :: xs) with
      | none => simp [ih, renderImages]
      | some g =>
        obtain ⟨t, u, rfl, hw⟩ := imageRegex_some _ _ hre
        have hf := FindStringSubmatch_head _ _ _ hw
        simp only [List.headD_cons, imageCallback, hf, List.getElem?_cons_succ,
          List.getElem?_cons_zero, ih, Option.map_some', List.getD_cons_succ,
          List.getD_cons_zero]
        simp [renderImages]

/-- `extractCodeBlocks` never panics: it returns the text of its specification
and writes the entries of its specification to the placeholder map. -/
theorem extractCodeBlocks_eq (c : WechatConverter) (text : Str) :
    extractCodeBlocks c text =
      some (extractText 0 0 text,
        { c with
          codeBlocks := (extractEntries c.styles.CodeBlockStyle 0 0 text).foldl
                          (fun m e => mapSet m e.1 e.2) c.codeBlocks }) := by
  simp [extractCodeBlocks, ReplaceAllStringFuncM, extract_scan]

/-- `processLinks` never panics: it returns the text of its specification and
appends the URLs of the matches to the footnotes. -/
theorem processLinks_eq (c : WechatConverter) (text : Str) :
    processLinks c text =
      some (renderLinks c.styles.LinkStyle 0 c.footnotes.length text,
        { c with footnotes := c.footnotes ++ linkURLs 0 text }) := by
  simp [processLinks, ReplaceAllStringFuncM, links_scan]

/-- `processImages` never panics. -/
theorem processImages_eq (c : WechatConverter) (text : Str) :
    processImages c text = some (renderImages c.styles.ImageStyle 0 text) := by
  simp [processImages, ReplaceAllStringFuncM, images_scan]

/-! ### The stages read the converter's styles only -/

theorem cellStyleOf_congr (c d : WechatConverter) (h : c.styles = d.styles) :
    cellStyleOf c = cellStyleOf d := by
  funext j cell
  simp only [cellStyleOf, h]

theorem headerCells_congr (c d : WechatConverter) (h : c.styles = d.styles) (l : List Str) :
    headerCells c l = headerCells d l := by
  induction l with
  | nil => rfl
  | cons x xs ih => simp only [headerCells, h, ih]

theorem dataCells_congr (c d : WechatConverter) (h : c.styles = d.styles) (j : Nat)
    (l : List Str) : dataCells c j l = dataCells d j l := by
  induction l generalizing j with
  | nil => rfl
  | cons x xs ih => simp only [dataCells, cellStyleOf_congr c d h, ih]

theorem dataRows_congr (c d : WechatConverter) (h : c.styles = d.styles) (l : List Str) :
    dataRows c l = dataRows d l := by
  induction l with
  | nil => rfl
  | cons x xs ih => simp only [dataRows, dataCells_congr c d h, ih]

theorem convertTable_congr (c d : WechatConverter) (h : c.styles = d.styles) (l : List Str) :
    convertTable c l = convertTable d l := by
  cases l with
  | nil => rfl
  | cons x xs => simp only [convertTable, h, headerCells_congr c d h, dataRows_congr c d h]

theorem tablesLoop_congr (c d : WechatConverter) (h : c.styles = d.styles) (lines : List Str)
    (result tableLines : List Str) (inTable : Bool) :
    tablesLoop c lines result tableLines inTable =
      tablesLoop d lines result tableLines inTable := by
  induction lines generalizing result tableLines inTable with
  | nil => rfl
  | cons x xs ih => simp only [tablesLoop, convertTable_congr c d h, ih]

theorem processTables_congr (c d : WechatConverter) (h : c.styles = d.styles) (text : Str) :
    processTables c text = processTables d text := by
  simp only [processTables, tablesLoop_congr c d h, convertTable_congr c d h]

theorem processHeaders_congr (c d : WechatConverter) (h : c.styles = d.styles) (text : Str) :
    processHeaders c text = processHeaders d text := by
  simp only [processHeaders, h]

theorem processQuotes_congr (c d : WechatConverter) (h : c.styles = d.styles) (text : Str) :
    processQuotes c text = processQuotes d text := by
  simp only [processQuotes, h]

theorem processLists_congr (c d : WechatConverter) (h : c.styles = d.styles) (text : Str) :
    processLists c text = processLists d text := by
  simp only [processLists, h]

theorem processInlineCode_congr (c d : WechatConverter) (h : c.styles = d.styles)
    (text : Str) : processInlineCode c text = processInlineCode d text := by
  simp only [processInlineCode, h]

theorem processParagraphs_congr (c d : WechatConverter) (h : c.styles = d.styles)
    (text : Str) : processParagraphs c text = processParagraphs d text := by
  simp only [processParagraphs, h]

theorem linkStageText_congr (c d : WechatConverter) (h : c.styles = d.styles) (md : Str) :
    linkStageText c md = linkStageText d md := by
  simp only [linkStageText, processLists_congr c d h, processTables_congr c d h,
    processQuotes_congr c d h, processHeaders_congr c d h]

theorem afterLinks_congr (c d : WechatConverter) (h : c.styles = d.styles) (t : Str) :
    afterLinks c t = afterLinks d t := by
  simp only [afterLinks, processParagraphs_congr c d h, processInlineCode_congr c d h, h]

/-- The stages of `ConvertMarkdownToWechat` never panic; their result in
terms of the specifications of the scanning stages. -/
theorem convertStages_eq (c : WechatConverter) (md : Str) :
    convertStages c md =
      some (afterLinks (freshState c) (linkStageText (freshState c) md),
        { footnotes := linkURLs 0 (linkStageText (freshState c) md)
          styles := c.styles
          codeBlocks := (extractEntries c.styles.CodeBlockStyle 0 0 (preprocessText md)).foldl
                          (fun m e => mapSet m e.1 e.2) c.codeBlocks }) := by
  simp only [convertStages, extractCodeBlocks_eq, processLinks_eq, processImages_eq]
  simp only [List.length_nil, List.nil_append, Option.some.injEq, Prod.mk.injEq]
  generalize (extractEntries c.styles.CodeBlockStyle 0 0 (preprocessText md)).foldl
    (fun m e => mapSet m e.1 e.2) c.codeBlocks = cb
  have e1 : ∀ d : WechatConverter, d.styles = c.styles →
      processLists d (processTables d (processQuotes d (processHeaders d
        (extractText 0 0 (preprocessText md))))) = linkStageText (freshState c) md := by
    intro d hd
    exact linkStageText_congr d (freshState c) hd md
  have e2 : ∀ (d : WechatConverter) (t : Str), d.styles = c.styles →
      processParagraphs d (processBoldItalic (processInlineCode d
        (renderImages c.styles.ImageStyle 0 (renderLinks c.styles.LinkStyle 0 0 t)))) =
      afterLinks (freshState c) t := by
    intro d t hd
    have := afterLinks_congr d (freshState c) hd t
    simp only [afterLinks, hd] at this
    simp only [afterLinks]
    exact this
  rw [e1 { footnotes := [], styles := c.styles, codeBlocks := cb } rfl,
    e2 { footnotes := linkURLs 0 (linkStageText (freshState c) md), styles := c.styles,
         codeBlocks := cb } _ rfl]
  exact ⟨rfl, rfl⟩

/-- `ConvertMarkdownToWechat` never panics and keeps the styles. -/
theorem ConvertMarkdownToWechat_styles (ord : MapOrder) (c : WechatConverter) (md out : Str)
    (c1 : WechatConverter) (h : ConvertMarkdownToWechat ord c md = some (out, c1)) :
    c1.styles = c.styles := by
  have h2 : (ConvertMarkdownToWechat ord c md).map Prod.snd = some c1 := by rw [h]; rfl
  rw [ConvertMarkdownToWechat_snd, convertStages_eq] at h2
  simp only [Option.map_some', Option.some.injEq] at h2
  rw [← h2]

/-- The first match of the link pattern gets the number after `n`: the text
before it is unchanged. -/
theorem renderLinks_first (style : Str) (n : Nat) (t : Str) (h : linkURLs 0 t ≠ []) :
    ∃ pre post g, t = pre ++ post ∧
      (∀ i, i < pre.length → linkRegex (t.drop i) = none) ∧
      linkRegex post = some g ∧
      renderLinks style 0 n t =
        pre ++ ("<span ".toList ++ style ++ ">".toList ++ EscapeString (g.getD 1 []) ++
          "</span><sup>[".toList ++ itoa (n + 1) ++ "]</sup>".toList) ++
        renderLinks style ((g.headD []).length - 1) (n + 1) (post.drop 1) := by
  induction t with
  | nil => simp [linkURLs] at h
  | cons x xs ih =>
    cases hre : linkRegex (x :: xs) with
    | none =>
      simp only [linkURLs, hre] at h
      obtain ⟨pre, post, g, ht, hpre, hg, hr⟩ := ih h
      refine ⟨x :: pre, post, g, by simp [ht], ?_, hg, ?_⟩
      · intro i hi
        cases i with
        | zero => simpa using hre
        | succ j =>
          simp only [List.length_cons, Nat.add_lt_add_iff_right] at hi
          simpa using hpre j hi
      · simp [renderLinks, hre, hr]
    | some g =>
      refine ⟨[], x :: xs, g, rfl, by simp, hre, ?_⟩
      simp [renderLinks, hre]

/-! ### Lines -/

theorem Split_of_not_mem (sep : Char) (a : Str) (h : sep ∉ a) : Split sep a = [a] := by
  induction a with
  | nil => rfl
  | cons c cs ih =>
    have hc : c ≠ sep := fun e => h (e ▸ List.mem_cons_self _ _)
    have hcs : sep ∉ cs := fun e => h (List.mem_cons_of_mem _ e)
    simp [Split, hc, ih hcs]

theorem Split_append_sep (sep : Char) (a rest : Str) (h : sep ∉ a) :
    Split sep (a ++ sep :: rest) = a :: Split sep rest := by
  induction a with
  | nil => simp [Split]
  | cons c cs ih =>
    have hc : c ≠ sep := fun e => h (e ▸ List.mem_cons_self _ _)
    have hcs : sep ∉ cs := fun e => h (List.mem_cons_of_mem _ e)
    simp [Split, hc, ih hcs]

theorem Split_Join (sep : Char) (ls : List Str) (hne : ls ≠ [])
    (h : ∀ l ∈ ls, sep ∉ l) : Split sep (Join [sep] ls) = ls := by
  induction ls with
  | nil => exact absurd rfl hne
  | cons a rest ih =>
    cases rest with
    | nil => simpa [Join] using Split_of_not_mem sep a (h a (List.mem_cons_self _ _))
    | cons b r =>
      have ha : sep ∉ a := h a (List.mem_cons_self _ _)
      have ih' := ih (by simp) (fun l hl => h l (List.mem_cons_of_mem _ hl))
      simp only [Join, List.append_assoc, List.singleton_append]
      rw [Split_append_sep sep a _ ha, ih']

theorem mem_Join (sep : Str) (ls : List Str) (x : Char) (h : x ∈ Join sep ls) :
    x ∈ sep ∨ ∃ l ∈ ls, x ∈ l := by
  induction ls with
  | nil => simp [Join] at h
  | cons a rest ih =>
    cases rest with
    | nil => exact Or.inr ⟨a, List.mem_cons_self _ _, by simpa [Join] using h⟩
    | cons b r =>
      simp only [Join, List.mem_append] at h
      rcases h with (h | h) | h
      · exact Or.inr ⟨a, List.mem_cons_self _ _, h⟩
      · exact Or.inl h
      · rcases ih h with h | ⟨l, hl, hx⟩
        · exact Or.inl h
        · exact Or.inr ⟨l, List.mem_cons_of_mem _ hl, hx⟩

theorem replaceLines_Join (marker : Str → Option Str) (repl : Str → Str) (ls : List Str)
    (hne : ls ≠ []) (h : ∀ l ∈ ls, '\n' ∉ l) :
    replaceLines marker repl (Join ['\n'] ls) =
      Join ['\n'] (ls.map (fun l =>
        match marker l with
        | some (_ :: _) => repl l
        | _ => l)) := by
  simp only [replaceLines, Split_Join '\n' ls hne h]

/-! ### Trimming -/

theorem mem_of_mem_dropWhile (p : Char → Bool) (s : Str) (x : Char)
    (h : x ∈ s.dropWhile p) : x ∈ s :=
  (List.dropWhile_suffix p).subset h

theorem mem_of_mem_TrimSpace (s : Str) (x : Char) (h : x ∈ TrimSpace s) : x ∈ s := by
  unfold TrimSpace at h
  rw [List.mem_reverse] at h
  have h1 := mem_of_mem_dropWhile _ _ _ h
  rw [List.mem_reverse] at h1
  exact mem_of_mem_dropWhile _ _ _ h1

theorem TrimSpace_id (x : Char) (m init : Str) (y : Char) (h : x :: m = init ++ [y])
    (hx : isSpace x = false) (hy : isSpace y = false) : TrimSpace (x :: m) = x :: m := by
  unfold TrimSpace
  have h1 : (x :: m).dropWhile isSpace = x :: m := by simp [List.dropWhile, hx]
  rw [h1, h]
  simp [List.dropWhile, hy]

/-! ### Escaping -/

theorem mem_escapeChar (c x : Char) (h : x ∈ escapeChar c) :
    x = c ∨ x ∈ "&amp;#39lt34g".toList := by
  unfold escapeChar at h
  split at h
  · right; revert h; revert x; decide
  · split at h
    · right; revert h; revert x; decide
    · split at h
      · right; revert h; revert x; decide
      · split at h
        · right; revert h; revert x; decide
        · split at h
          · right; revert h; revert x; decide
          · left; simpa using h

theorem mem_EscapeString (s : Str) (x : Char) (h : x ∈ EscapeString s) :
    x ∈ s ∨ x ∈ "&amp;#39lt34g".toList := by
  unfold EscapeString at h
  rw [List.mem_flatMap] at h
  obtain ⟨c, hc, hx⟩ := h
  rcases mem_escapeChar c x hx with h | h
  · exact Or.inl (h ▸ hc)
  · exact Or.inr h

/-! ### A text without the first character of a pattern has no match -/

theorem codeBlockRegex_head (c : Char) (cs : Str) (g : List Str)
    (h : codeBlockRegex (c :: cs) = some g) : c = backtick := by
  unfold codeBlockRegex at h
  split at h
  · rename_i hp
    simp only [fence, HasPrefix, Bool.and_eq_true, beq_iff_eq] at hp
    exact hp.1
  · simp at h

theorem linkRegex_head (c : Char) (cs : Str) (g : List Str)
    (h : linkRegex (c :: cs) = some g) : c = '[' := by
  unfold linkRegex at h
  simp only at h
  split at h
  · assumption
  · simp at h

theorem imageRegex_second (c : Char) (cs : Str) (g : List Str)
    (h : imageRegex (c :: cs) = some g) : '[' ∈ cs := by
  unfold imageRegex at h
  split at h
  · rename_i c0 c1 r heq
    split at h
    · rename_i hc
      simp only [List.cons.injEq] at heq
      rw [heq.2, ← hc.2]
      exact List.mem_cons_self _ _
    · simp at h
  · simp at h

theorem inlineCodeRegex_head (c : Char) (cs : Str) (g : List Str)
    (h : inlineCodeRegex (c :: cs) = some g) : c = backtick := by
  unfold inlineCodeRegex at h
  simp only at h
  split at h
  · assumption
  · simp at h

theorem boldRegex_head (c : Char) (cs : Str) (g : List Str)
    (h : boldRegex (c :: cs) = some g) : c = '*' := by
  unfold boldRegex at h
  split at h
  · rename_i c0 c1 r heq
    split at h
    · rename_i hc
      simp only [List.cons.injEq] at heq
      rw [heq.1, hc.1]
    · simp at h
  · simp at h

theorem italicRegex_head (c : Char) (cs : Str) (g : List Str)
    (h : italicRegex (c :: cs) = some g) : c = '*' := by
  unfold italicRegex at h
  simp only at h
  split at h
  · assumption
  · simp at h

theorem replaceAllAuxP_id (re : Regexp) (repl : List Str → Str) (s : Str)
    (h : ∀ c cs, (c :: cs) <:+ s → re (c :: cs) = none) : replaceAllAuxP re repl 0 s = s := by
  induction s with
  | nil => rfl
  | cons c cs ih =>
    have h0 := h c cs (List.suffix_refl _)
    have ih' := ih (fun d ds hd => h d ds (hd.trans (List.suffix_cons c cs)))
    simp [replaceAllAuxP, h0, ih']

theorem extractText_id (n : Nat) (s : Str) (h : backtick ∉ s) : extractText 0 n s = s := by
  induction s with
  | nil => rfl
  | cons c cs ih =>
    have hc : codeBlockRegex (c :: cs) = none := by
      cases hr : codeBlockRegex (c :: cs) with
      | none => rfl
      | some g => exact absurd (codeBlockRegex_head c cs g hr ▸ List.mem_cons_self _ _) h
    simp [extractText, hc, ih (fun e => h (List.mem_cons_of_mem _ e))]

theorem extractEntries_nil (style : Str) (n : Nat) (s : Str) (h : backtick ∉ s) :
    extractEntries style 0 n s = [] := by
  induction s with
  | nil => rfl
  | cons c cs ih =>
    have hc : codeBlockRegex (c :: cs) = none := by
      cases hr : codeBlockRegex (c :: cs) with
      | none => rfl
      | some g => exact absurd (codeBlockRegex_head c cs g hr ▸ List.mem_cons_self _ _) h
    simp [extractEntries, hc, ih (fun e => h (List.mem_cons_of_mem _ e))]

theorem linkRegex_none (c : Char) (cs : Str) (h : '[' ∉ c :: cs) :
    linkRegex (c :: cs) = none := by
  cases hr : linkRegex (c :: cs) with
  | none => rfl
  | some g => exact absurd (linkRegex_head c cs g hr ▸ List.mem_cons_self _ _) h

theorem renderLinks_id (style : Str) (n : Nat) (s : Str) (h : '[' ∉ s) :
    renderLinks style 0 n s = s := by
  induction s with
  | nil => rfl
  | cons c cs ih =>
    simp [renderLinks, linkRegex_none c cs h, ih (fun e => h (List.mem_cons_of_mem _ e))]

theorem linkURLs_nil (s : Str) (h : '[' ∉ s) : linkURLs 0 s = [] := by
  induction s with
  | nil => rfl
  | cons c cs ih =>
    simp [linkURLs, linkRegex_none c cs h, ih (fun e => h (List.mem_cons_of_mem _ e))]

theorem renderImages_id (style : Str) (s : Str) (h : '[' ∉ s) :
    renderImages style 0 s = s := by
  unfold renderImages
  apply replaceAllAuxP_id
  intro c cs hs
  cases hr : imageRegex (c :: cs) with
  | none => rfl
  | some g =>
    exact absurd (hs.subset (List.mem_cons_of_mem _ (imageRegex_second c cs g hr))) h

theorem processInlineCode_id (c : WechatConverter) (s : Str) (h : backtick ∉ s) :
    processInlineCode c s = s := by
  unfold processInlineCode ReplaceAllStringFunc
  apply replaceAllAuxP_id
  intro d ds hs
  cases hr : inlineCodeRegex (d :: ds) with
  | none => rfl
  | some g =>
    exact absurd (hs.subset (inlineCodeRegex_head d ds g hr ▸ List.mem_cons_self _ _)) h

theorem processBoldItalic_id (s : Str) (h : '*' ∉ s) : processBoldItalic s = s := by
  unfold processBoldItalic ReplaceAllString1
  have h1 : replaceAllAuxP boldRegex
      (fun g => "<strong>".toList ++ g.getD 1 [] ++ "</strong>".toList) 0 s = s := by
    apply replaceAllAuxP_id
    intro d ds hs
    cases hr : boldRegex (d :: ds) with
    | none => rfl
    | some g =>
      exact absurd (hs.subset (boldRegex_head d ds g hr ▸ List.mem_cons_self _ _)) h
  simp only [h1]
  apply replaceAllAuxP_id
  intro d ds hs
  cases hr : italicRegex (d :: ds) with
  | none => rfl
  | some g =>
    exact absurd (hs.subset (italicRegex_head d ds g hr ▸ List.mem_cons_self _ _)) h

/-! ### Lines that no stage touches -/

theorem Contains_single (s : Str) (x : Char) : Contains s [x] = true ↔ x ∈ s := by
  induction s with
  | nil => simp [Contains, HasPrefix]
  | cons c cs ih =>
    simp only [Contains, HasPrefix, Bool.and_true, Bool.or_eq_true, beq_iff_eq, ih,
      List.mem_cons]
    constructor
    · rintro (h | h)
      · exact Or.inl h.symm
      · exact Or.inr h
    · rintro (h | h)
      · exact Or.inl h.symm
      · exact Or.inr h

theorem Contains_single_false (s : Str) (x : Char) (h : x ∉ s) : Contains s [x] = false := by
  cases hc : Contains s [x] with
  | false => rfl
  | true => exact absurd ((Contains_single s x).mp hc) h

theorem tablesLoop_no_pipe (c : WechatConverter) (lines result tableLines : List Str)
    (h : ∀ l ∈ lines, '|' ∉ l) :
    tablesLoop c lines result tableLines false =
      (result ++ lines.map TrimSpace, tableLines, false) := by
  induction lines generalizing result with
  | nil => simp [tablesLoop]
  | cons l rest ih =>
    have hl : Contains (TrimSpace l) ['|'] = false :=
      Contains_single_false _ _ (fun e => h l (List.mem_cons_self _ _)
        (mem_of_mem_TrimSpace _ _ e))
    simp only [tablesLoop, hl, Bool.false_and, Bool.false_eq_true, if_false]
    rw [ih _ (fun m hm => h m (List.mem_cons_of_mem _ hm))]
    simp

theorem processTables_Join (c : WechatConverter) (ls : List Str) (hne : ls ≠ [])
    (hn : ∀ l ∈ ls, '\n' ∉ l) (hp : ∀ l ∈ ls, '|' ∉ l) :
    processTables c (Join ['\n'] ls) = Join ['\n'] (ls.map TrimSpace) := by
  simp only [processTables, Split_Join '\n' ls hne hn, tablesLoop_no_pipe c ls [] [] hp]
  simp

theorem preprocessLoop_id (n i : Nat) (lines result : List Str) (hlen : lines.length = i + n)
    (h : ∀ l ∈ lines, l ≠ [] ∧ isOrphanMarker (TrimSpace l) = false) :
    preprocessLoop n i lines result = result ++ lines.drop i := by
  induction n generalizing i result with
  | zero =>
    have : lines.drop i = [] := List.drop_eq_nil_of_le (by omega)
    simp [preprocessLoop, this]
  | succ n ih =>
    have hi : i < lines.length := by omega
    have hget : lines.getD i [] = lines[i] := by
      simp [List.getD_eq_getElem?_getD, List.getElem?_eq_getElem hi]
    have hmem : lines[i] ∈ lines := List.getElem_mem hi
    obtain ⟨h1, h2⟩ := h _ hmem
    simp only [preprocessLoop, hget, h2, Bool.false_eq_true, if_false, ne_eq, h1,
      not_false_eq_true, if_true]
    rw [ih (i + 1) _ (by omega), List.drop_eq_getElem_cons hi]
    simp

theorem preprocessText_Join (ls : List Str) (hne : ls ≠ []) (hn : ∀ l ∈ ls, '\n' ∉ l)
    (h : ∀ l ∈ ls, l ≠ [] ∧ isOrphanMarker (TrimSpace l) = false) :
    preprocessText (Join ['\n'] ls) = Join ['\n'] ls := by
  simp only [preprocessText, Split_Join '\n' ls hne hn]
  rw [preprocessLoop_id ls.length 0 ls [] (by simp) h]
  simp

theorem filterMap_some_id (f : Str → Option Str) (ls : List Str)
    (h : ∀ l ∈ ls, f l = some l) : ls.filterMap f = ls := by
  induction ls with
  | nil => rfl
  | cons a rest ih =>
    simp [List.filterMap_cons, h a (List.mem_cons_self _ _),
      ih (fun l hl => h l (List.mem_cons_of_mem _ hl))]

theorem processParagraphs_Join (c : WechatConverter) (ls : List Str) (hne : ls ≠ [])
    (hn : ∀ l ∈ ls, '\n' ∉ l)
    (h : ∀ l ∈ ls, TrimSpace l = l ∧ l ≠ [] ∧ HasPrefix l ['<'] = true) :
    processParagraphs c (Join ['\n'] ls) = Join ['\n'] ls := by
  simp only [processParagraphs, Split_Join '\n' ls hne hn]
  rw [filterMap_some_id]
  intro l hl
  obtain ⟨h1, h2, h3⟩ := h l hl
  simp [h1, h2, h3]

/-! ### Lines of unordered list items -/

theorem quiet_append (s t : Str) (hs : quiet s) (ht : quiet t) : quiet (s ++ t) := by
  intro x hx
  rcases List.mem_append.mp hx with h | h
  · exact hs x h
  · exact ht x h

theorem quiet_EscapeString (s : Str) (hs : quiet s) : quiet (EscapeString s) := by
  intro x hx
  rcases mem_EscapeString s x hx with h | h
  · exact hs x h
  · clear hx
    revert h
    revert x
    decide

theorem plainItem_quiet (a : Str) (h : plainItem a = true) : quiet a := by
  intro x hx
  simp only [plainItem, Bool.and_eq_true, List.all_eq_true] at h
  have := h.1 x hx
  simp only [Bool.and_eq_true, bne_iff_ne, ne_eq] at this
  exact ⟨this.1.1.1.1, this.1.1.1.2, this.1.1.2, this.1.2, this.2⟩

theorem plainItem_last (a : Str) (h : plainItem a = true) :
    ∃ init y, a = init ++ [y] ∧ isSpace y = false := by
  simp only [plainItem, Bool.and_eq_true] at h
  have h2 := h.2
  cases hl : a.getLast? with
  | none => simp [hl] at h2
  | some y =>
    simp only [hl, Bool.not_eq_true'] at h2
    refine ⟨a.dropLast, y, ?_, h2⟩
    have := List.dropLast_append_getLast? y hl
    exact this.symm

theorem HasPrefix_cons_ne (x y : Char) (xs ys : Str) (h : x ≠ y) :
    HasPrefix (x :: xs) (y :: ys) = false := by
  simp [HasPrefix, h]

theorem replaceLines_none (marker : Str → Option Str) (repl : Str → Str) (ls : List Str)
    (hne : ls ≠ []) (hn : ∀ l ∈ ls, '\n' ∉ l) (h : ∀ l ∈ ls, marker l = none) :
    replaceLines marker repl (Join ['\n'] ls) = Join ['\n'] ls := by
  rw [replaceLines_Join marker repl ls hne hn]
  congr 1
  conv_rhs => rw [← List.map_id ls]
  apply List.map_congr_left
  intro l hl
  simp [h l hl]

theorem replaceLines_all (marker : Str → Option Str) (repl : Str → Str) (ls : List Str)
    (hne : ls ≠ []) (hn : ∀ l ∈ ls, '\n' ∉ l)
    (h : ∀ l ∈ ls, ∃ r, marker l = some r ∧ r ≠ []) :
    replaceLines marker repl (Join ['\n'] ls) = Join ['\n'] (ls.map repl) := by
  rw [replaceLines_Join marker repl ls hne hn]
  congr 1
  apply List.map_congr_left
  intro l hl
  obtain ⟨r, hr, hr0⟩ := h l hl
  cases r with
  | nil => exact absurd rfl hr0
  | cons x xs => simp [hr]

theorem itemLine_quiet (a : Str) (h : plainItem a = true) : quiet ('-' :: ' ' :: a) := by
  intro x hx
  simp only [List.mem_cons] at hx
  rcases hx with rfl | rfl | hx
  · decide
  · decide
  · exact plainItem_quiet a h x hx

theorem itemLine_trim (a : Str) (h : plainItem a = true) :
    TrimSpace ('-' :: ' ' :: a) = '-' :: ' ' :: a := by
  obtain ⟨init, y, rfl, hy⟩ := plainItem_last a h
  exact TrimSpace_id '-' (' ' :: (init ++ [y])) ('-' :: ' ' :: init) y (by simp) (by decide) hy

theorem itemLine_not_marker (a : Str) : isOrphanMarker ('-' :: ' ' :: a) = false := by
  have : isDigit '-' = false := by decide
  simp [isOrphanMarker, List.takeWhile, this]

theorem plainItem_ne_nil (a : Str) (h : plainItem a = true) : a ≠ [] := by
  obtain ⟨init, y, rfl, _⟩ := plainItem_last a h
  simp

/-- The part of an unordered list element before the item text, with the
default styles. -/
theorem ulOpen_quiet : quiet ("<ul ".toList ++ getDefaultStyles.ListStyle ++ ">".toList ++
    liOpen) := by
  unfold quiet
  decide

theorem ulLine_quiet (a : Str) (h : quiet a) :
    quiet ("<ul ".toList ++ getDefaultStyles.ListStyle ++ ">".toList ++ liOpen ++
      EscapeString a ++ "</li></ul>".toList) := by
  apply quiet_append
  · exact quiet_append _ _ ulOpen_quiet (quiet_EscapeString a h)
  · unfold quiet
    decide

theorem ulLine_shape (a : Str) :
    ∃ m init, "<ul ".toList ++ getDefaultStyles.ListStyle ++ ">".toList ++ liOpen ++
      EscapeString a ++ "</li></ul>".toList = '<' :: m ∧
      '<' :: m = init ++ ['>'] := by
  have e1 : "<ul ".toList = '<' :: "ul ".toList := rfl
  have e2 : "</li></ul>".toList = "</li></ul".toList ++ ['>'] := rfl
  refine ⟨"ul ".toList ++ getDefaultStyles.ListStyle ++ ">".toList ++ liOpen ++
      EscapeString a ++ "</li></ul>".toList,
    "<ul ".toList ++ getDefaultStyles.ListStyle ++ ">".toList ++ liOpen ++
      EscapeString a ++ "</li></ul".toList, ?_, ?_⟩
  · rw [e1]; simp
  · rw [e1, e2]; simp

theorem itemLines_ne_nil (items : List Str) (hne : items ≠ []) :
    items.map (fun a => '-' :: ' ' :: a) ≠ [] := by
  simpa using hne

theorem itemLines_facts (items : List Str) (hp : ∀ a ∈ items, plainItem a = true) :
    ∀ l ∈ items.map (fun a => '-' :: ' ' :: a),
      quiet l ∧ TrimSpace l = l ∧ ∃ a, l = '-' :: ' ' :: a ∧ plainItem a = true := by
  intro l hl
  obtain ⟨a, ha, rfl⟩ := List.mem_map.mp hl
  exact ⟨itemLine_quiet a (hp a ha), itemLine_trim a (hp a ha), a, rfl, hp a ha⟩

theorem ulLines_facts (items : List Str) (hp : ∀ a ∈ items, plainItem a = true) :
    ∀ l ∈ items.map (fun a => "<ul ".toList ++ getDefaultStyles.ListStyle ++ ">".toList ++
        liOpen ++ EscapeString a ++ "</li></ul>".toList),
      quiet l ∧ ∃ m init, l = '<' :: m ∧ '<' :: m = init ++ ['>'] := by
  intro l hl
  obtain ⟨a, ha, rfl⟩ := List.mem_map.mp hl
  exact ⟨ulLine_quiet a (plainItem_quiet a (hp a ha)), ulLine_shape a⟩

/-- `processLists` on the lines of plain unordered items: every line becomes
its own `<ul>` element with one `<li>`. -/
theorem processLists_items (c : WechatConverter)
    (hs : c.styles.ListStyle = getDefaultStyles.ListStyle) (items : List Str)
    (hne : items ≠ []) (hp : ∀ a ∈ items, plainItem a = true) :
    processLists c (Join ['\n'] (items.map (fun a => '-' :: ' ' :: a))) =
      Join ['\n'] (items.map (fun a =>
        "<ul ".toList ++ getDefaultStyles.ListStyle ++ ">".toList ++ liOpen ++
          EscapeString a ++ "</li></ul>".toList)) := by
  have hl := itemLines_facts items hp
  have hu := ulLines_facts items hp
  have hne1 := itemLines_ne_nil items hne
  have hn1 : ∀ l ∈ items.map (fun a => '-' :: ' ' :: a), '\n' ∉ l :=
    fun l h e => ((hl l h).1 '\n' e).1 rfl
  have hne2 : items.map (fun a => "<ul ".toList ++ getDefaultStyles.ListStyle ++
      ">".toList ++ liOpen ++ EscapeString a ++ "</li></ul>".toList) ≠ [] := by
    simpa using hne
  have hn2 : ∀ l ∈ items.map (fun a => "<ul ".toList ++ getDefaultStyles.ListStyle ++
      ">".toList ++ liOpen ++ EscapeString a ++ "</li></ul>".toList), '\n' ∉ l :=
    fun l h e => ((hu l h).1 '\n' e).1 rfl
  have ebullet : "•".toList = ['•'] := rfl
  unfold processLists
  simp only [hs]
  rw [replaceLines_none _ _ _ hne1 hn1, replaceLines_all _ _ _ hne1 hn1, List.map_map]
  · have e : (fun m => "<ul ".toList ++ getDefaultStyles.ListStyle ++ ">".toList ++ liOpen ++
          EscapeString (stripMarker unorderedMarker m) ++ "</li></ul>".toList) ∘
        (fun a => '-' :: ' ' :: a) =
        fun a => "<ul ".toList ++ getDefaultStyles.ListStyle ++ ">".toList ++ liOpen ++
          EscapeString a ++ "</li></ul>".toList := by
      funext a
      simp [stripMarker, unorderedMarker]
    rw [e, replaceLines_none _ _ _ hne2 hn2]
    intro l h
    obtain ⟨_, m, init, rfl, _⟩ := hu l h
    have : isDigit '<' = false := by decide
    simp [orderedMarker, List.takeWhile, this]
  · intro l h
    obtain ⟨_, _, a, rfl, ha⟩ := hl l h
    exact ⟨a, by simp [unorderedMarker], plainItem_ne_nil a ha⟩
  · intro l h
    obtain ⟨_, _, a, rfl, _⟩ := hl l h
    rw [ebullet]
    simp [litMarker, HasPrefix]

/-- Claim C1: the end-to-end scenario. On a fresh converter the input
`# Title`, blank line, `Hello **world**, see [here](https://x.com).` is
converted to the H1 line, the paragraph line with the bold word, the link span
and the marker `[1]`, and the references section (rule, heading, one paragraph
`[1] https://x.com`), and nothing else; one footnote is recorded. -/
theorem c1_end_to_end (ord : MapOrder) :
    ConvertMarkdownToWechat ord NewWechatConverterFixed
        "# Title\n\nHello **world**, see [here](https://x.com).\n".toList =
      some ("<h1 ".toList ++ getDefaultStyles.H1Style ++ ">Title</h1>".toList ++ ['\n'] ++
          "<p ".toList ++ getDefaultStyles.ParagraphStyle ++
          ">Hello <strong>world</strong>, see <span ".toList ++ getDefaultStyles.LinkStyle ++
          ">here</span><sup>[1]</sup>.</p>".toList ++
          footnoteRule ++ footnoteHeading ++ footnoteOpen ++ "[1] https://x.com</p>".toList,
        { NewWechatConverterFixed with footnotes := ["https://x.com".toList] }) := by
  have h : convertStages NewWechatConverterFixed
      "# Title\n\nHello **world**, see [here](https://x.com).\n".toList =
      some ("<h1 ".toList ++ getDefaultStyles.H1Style ++ ">Title</h1>".toList ++ ['\n'] ++
          "<p ".toList ++ getDefaultStyles.ParagraphStyle ++
          ">Hello <strong>world</strong>, see <span ".toList ++ getDefaultStyles.LinkStyle ++
          ">here</span><sup>[1]</sup>.</p>".toList,
        { NewWechatConverterFixed with footnotes := ["https://x.com".toList] }) := by
    decide!
  rw [ConvertMarkdownToWechat_eq, h, Option.map, convertFinish_nil _ _ _ rfl]
  decide!

/-- Claim C2, the failing input: a link inside a heading. `processHeaders`
escapes the heading text before `processLinks` sees it, so the URL `http://x?a&b`
is recorded as `http://x?a&amp;b` and `generateFootnotes` escapes it again: the
entry of the references section is `[1] http://x?a&amp;amp;b`, escaped twice. -/
theorem c2_heading_link_escaped_twice (ord : MapOrder) :
    ConvertMarkdownToWechat ord NewWechatConverterFixed "# [a](http://x?a&b)".toList =
      some ("<h1 ".toList ++ getDefaultStyles.H1Style ++ "><span ".toList ++
          getDefaultStyles.LinkStyle ++ ">a</span><sup>[1]</sup></h1>".toList ++
          footnoteRule ++ footnoteHeading ++ footnoteOpen ++
          "[1] http://x?a&amp;amp;b</p>".toList,
        { NewWechatConverterFixed with footnotes := ["http://x?a&amp;b".toList] }) := by
  have h : convertStages NewWechatConverterFixed "# [a](http://x?a&b)".toList =
      some ("<h1 ".toList ++ getDefaultStyles.H1Style ++ "><span ".toList ++
          getDefaultStyles.LinkStyle ++ ">a</span><sup>[1]</sup></h1>".toList,
        { NewWechatConverterFixed with footnotes := ["http://x?a&amp;b".toList] }) := by
    decide!
  rw [ConvertMarkdownToWechat_eq, h, Option.map, convertFinish_nil _ _ _ rfl]
  decide!

/-- Claim C3, the failing input: the table of the specification. The
separator line is not skipped: it ends the table after the header, and the
separator and the two data lines are returned as ordinary lines after a table
that has the header row only. -/
theorem c3_separator_ends_table :
    processTables NewWechatConverterFixed
        "| A | B |\n|---|---|\n| 1 | 2 |\n|   | 4 |".toList =
      convertTable NewWechatConverterFixed ["| A | B |".toList] ++
        "\n|---|---|\n| 1 | 2 |\n|   | 4 |".toList ∧
    convertTable NewWechatConverterFixed ["| A | B |".toList] =
      "<table ".toList ++ getDefaultStyles.TableStyle ++ "><tr><th ".toList ++
        getDefaultStyles.TableHeaderStyle ++ ">A</th><th ".toList ++
        getDefaultStyles.TableHeaderStyle ++ ">B</th></tr></table>".toList ∧
    processTables NewWechatConverterFixed
        "| A | B |\n|---|---|\n| 1 | 2 |\n|   | 4 |".toList ≠
      convertTable NewWechatConverterFixed
        ["| A | B |".toList, "| 1 | 2 |".toList, "|   | 4 |".toList] := by
  decide!

/-- Claim C4, the failing input: a fenced block whose body has a blank line.
`preprocessText` runs before the block is extracted and drops the blank line:
the body `a`, blank line, `b` is emitted as `a`, `b`. -/
theorem c4_blank_line_removed_from_code (ord : MapOrder) :
    ConvertMarkdownToWechat ord NewWechatConverterFixed
        (fence ++ "\na\n\nb\n".toList ++ fence) =
      some ("<p ".toList ++ getDefaultStyles.ParagraphStyle ++ "><section ".toList ++
          getDefaultStyles.CodeBlockStyle ++ ">a\nb\n</section></p>".toList,
        { NewWechatConverterFixed with
          codeBlocks := [("__CODE_BLOCK_0__".toList, "<section ".toList ++
            getDefaultStyles.CodeBlockStyle ++ ">a\nb\n</section>".toList)] }) := by
  have h : convertStages NewWechatConverterFixed (fence ++ "\na\n\nb\n".toList ++ fence) =
      some ("<p ".toList ++ getDefaultStyles.ParagraphStyle ++ ">__CODE_BLOCK_0__</p>".toList,
        { NewWechatConverterFixed with
          codeBlocks := [("__CODE_BLOCK_0__".toList, "<section ".toList ++
            getDefaultStyles.CodeBlockStyle ++ ">a\nb\n</section>".toList)] }) := by
    decide!
  rw [ConvertMarkdownToWechat_eq, h, Option.map, convertFinish_singleton _ _ _ _ _ rfl]
  decide!

/-- Claim C5, the failing input: a fenced block that holds the only link
`[x](y)` of the document, then the line `[a](b` and a quote line. The link in
the block records nothing, but `processLinks` runs on the HTML of the quote,
whose style holds a closing parenthesis: it matches from `[a](b` up to that
parenthesis and records a footnote. -/
theorem c5_footnote_without_link (ord : MapOrder) :
    (ConvertMarkdownToWechat ord NewWechatConverterFixed
        (fence ++ "\n[x](y)\n".toList ++ fence ++ "\n[a](b\n> q".toList)).map
        Prod.snd =
      some { NewWechatConverterFixed with
        codeBlocks := [("__CODE_BLOCK_0__".toList, "<section ".toList ++
          getDefaultStyles.CodeBlockStyle ++ ">[x](y)\n</section>".toList)]
        footnotes := ["b\n<blockquote style=\"text-align: left; ".toList ++ fontStack ++
        " font-size: 14px; font-style: normal; border-left: none; padding: 0.5em 1em; background: rgba(27, 31, 35, 0.05".toList] } := by
  rw [ConvertMarkdownToWechat_snd]
  decide!

/-- Claim C6, the failing input: an image with a non-empty alt text.
`processLinks` runs before `processImages` and matches the bracket part of
`![x](u)`: the output has no `<img>`, the image became `!` and a link span, and a
footnote is recorded. -/
theorem c6_image_taken_as_link (ord : MapOrder) :
    ConvertMarkdownToWechat ord NewWechatConverterFixed "![x](u)".toList =
      some ("<p ".toList ++ getDefaultStyles.ParagraphStyle ++ ">!<span ".toList ++
          getDefaultStyles.LinkStyle ++ ">x</span><sup>[1]</sup></p>".toList ++
          footnoteRule ++ footnoteHeading ++ footnoteOpen ++ "[1] u</p>".toList,
        { NewWechatConverterFixed with footnotes := ["u".toList] }) := by
  have h : convertStages NewWechatConverterFixed "![x](u)".toList =
      some ("<p ".toList ++ getDefaultStyles.ParagraphStyle ++ ">!<span ".toList ++
          getDefaultStyles.LinkStyle ++ ">x</span><sup>[1]</sup></p>".toList,
        { NewWechatConverterFixed with footnotes := ["u".toList] }) := by
    decide!
  rw [ConvertMarkdownToWechat_eq, h, Option.map, convertFinish_nil _ _ _ rfl]
  decide!

/-- Claim C7, the failing input: the paragraph line `a < b`.
`processParagraphs` wraps the line without escaping it: the `<` is emitted raw. -/
theorem c7_paragraph_not_escaped (ord : MapOrder) :
    ConvertMarkdownToWechat ord NewWechatConverterFixed "a < b".toList =
      some ("<p ".toList ++ getDefaultStyles.ParagraphStyle ++ ">a < b</p>".toList,
        NewWechatConverterFixed) := by
  have h : convertStages NewWechatConverterFixed "a < b".toList =
      some ("<p ".toList ++ getDefaultStyles.ParagraphStyle ++ ">a < b</p>".toList,
        NewWechatConverterFixed) := by
    decide!
  rw [ConvertMarkdownToWechat_eq, h, Option.map, convertFinish_nil _ _ _ rfl]
  decide!

/-- Claim C8, the failing input: a document with a fenced block, then the
document `__CODE_BLOCK_0__` on the same converter. The placeholder map is not
reset: the second call replaces the literal text by the code block of the first
document, where a fresh converter returns the text in a paragraph. -/
theorem c8_placeholder_map_not_reset (ord : MapOrder) :
    ∃ c1 : WechatConverter,
      (ConvertMarkdownToWechat ord NewWechatConverterFixed
        (fence ++ "\na\n".toList ++ fence)).map Prod.snd = some c1 ∧
      (ConvertMarkdownToWechat ord c1 "__CODE_BLOCK_0__".toList).map Prod.fst =
        some ("<p ".toList ++ getDefaultStyles.ParagraphStyle ++ "><section ".toList ++
          getDefaultStyles.CodeBlockStyle ++ ">a\n</section></p>".toList) ∧
      (ConvertMarkdownToWechat ord NewWechatConverterFixed "__CODE_BLOCK_0__".toList).map
          Prod.fst =
        some ("<p ".toList ++ getDefaultStyles.ParagraphStyle ++
          ">__CODE_BLOCK_0__</p>".toList) := by
  refine ⟨{ NewWechatConverterFixed with
    codeBlocks := [("__CODE_BLOCK_0__".toList, "<section ".toList ++
      getDefaultStyles.CodeBlockStyle ++ ">a\n</section>".toList)] }, ?_, ?_, ?_⟩
  · rw [ConvertMarkdownToWechat_snd]
    decide!
  · have h : convertStages { NewWechatConverterFixed with
        codeBlocks := [("__CODE_BLOCK_0__".toList, "<section ".toList ++
          getDefaultStyles.CodeBlockStyle ++ ">a\n</section>".toList)] }
        "__CODE_BLOCK_0__".toList =
        some ("<p ".toList ++ getDefaultStyles.ParagraphStyle ++
            ">__CODE_BLOCK_0__</p>".toList,
          { NewWechatConverterFixed with
            codeBlocks := [("__CODE_BLOCK_0__".toList, "<section ".toList ++
              getDefaultStyles.CodeBlockStyle ++ ">a\n</section>".toList)] }) := by
      decide!
    rw [ConvertMarkdownToWechat_eq, h, Option.map, Option.map,
      convertFinish_singleton _ _ _ _ _ rfl]
    decide!
  · have h : convertStages NewWechatConverterFixed "__CODE_BLOCK_0__".toList =
        some ("<p ".toList ++ getDefaultStyles.ParagraphStyle ++
            ">__CODE_BLOCK_0__</p>".toList, NewWechatConverterFixed) := by
      decide!
    rw [ConvertMarkdownToWechat_eq, h, Option.map, Option.map,
      convertFinish_nil _ _ _ rfl]
    decide!

/-- Footnote numbering restarts on every call. After any first conversion `m1`,
a second conversion `m2` on the same converter returns, and (1) its footnotes
are the matches of the link pattern in the text of `m2` as it reaches
`processLinks`, which is what a converter in the fresh state records for `m2`;
(2) the first match is replaced by a span with the marker `[1]`; (3) the output
ends with the references section of those footnotes, numbered from 1, and
nothing of `m1` is in it. The text that reaches `processLinks` has been escaped
by the stages before it, so a match need not be the URL as written in `m2`. -/
theorem second_call_footnotes (ord : MapOrder) (c0 : WechatConverter) (m1 m2 o1 : Str)
    (c1 : WechatConverter) (h1 : ConvertMarkdownToWechat ord c0 m1 = some (o1, c1)) :
    ∃ o2 c2, ConvertMarkdownToWechat ord c1 m2 = some (o2, c2) ∧
      c2.footnotes = linkURLs 0 (linkStageText (freshState c0) m2) ∧
      (ConvertMarkdownToWechat ord (freshState c0) m2).map (fun p => p.2.footnotes) =
        some c2.footnotes ∧
      (c2.footnotes ≠ [] → ∃ pre post g, linkStageText (freshState c0) m2 = pre ++ post ∧
        (∀ i, i < pre.length →
          linkRegex ((linkStageText (freshState c0) m2).drop i) = none) ∧
        linkRegex post = some g ∧
        renderLinks c0.styles.LinkStyle 0 0 (linkStageText (freshState c0) m2) =
          pre ++ ("<span ".toList ++ c0.styles.LinkStyle ++ ">".toList ++
            EscapeString (g.getD 1 []) ++ "</span><sup>[1]</sup>".toList) ++
          renderLinks c0.styles.LinkStyle ((g.headD []).length - 1) 1 (post.drop 1)) ∧
      o2 = restoreCodeBlocks ord c2
          (afterLinks (freshState c0) (linkStageText (freshState c0) m2)) ++
        (if c2.footnotes = [] then []
         else footnoteRule ++ footnoteHeading ++ footnoteItems 0 c2.footnotes) := by
  have hs : c1.styles = c0.styles := ConvertMarkdownToWechat_styles ord c0 m1 o1 c1 h1
  have hf : (freshState c1).styles = (freshState c0).styles := hs
  have hst := convertStages_eq c1 m2
  rw [linkStageText_congr _ _ hf, afterLinks_congr _ _ hf] at hst
  have hfr := convertStages_eq (freshState c0) m2
  have hff : freshState (freshState c0) = freshState c0 := rfl
  rw [hff] at hfr
  generalize (extractEntries c1.styles.CodeBlockStyle 0 0 (preprocessText m2)).foldl
    (fun m e => mapSet m e.1 e.2) c1.codeBlocks = cb at hst
  generalize (extractEntries (freshState c0).styles.CodeBlockStyle 0 0
    (preprocessText m2)).foldl (fun m e => mapSet m e.1 e.2) (freshState c0).codeBlocks = cb0
    at hfr
  generalize linkStageText (freshState c0) m2 = t at hst hfr ⊢
  refine ⟨convertFinish ord { footnotes := linkURLs 0 t, styles := c1.styles, codeBlocks := cb }
    (afterLinks (freshState c0) t),
    { footnotes := linkURLs 0 t, styles := c1.styles, codeBlocks := cb }, ?_, rfl, ?_, ?_, ?_⟩
  · rw [ConvertMarkdownToWechat_eq, hst, Option.map_some']
  · rw [ConvertMarkdownToWechat_eq, hfr, Option.map_some', Option.map_some']
  · intro hne
    have := renderLinks_first c0.styles.LinkStyle 0 t hne
    simpa [itoa] using this
  · simp only [convertFinish, generateFootnotes]
    cases linkURLs 0 t with
    | nil => simp
    | cons u us => simp

/-- After the document `[a](u)`, the document `[b](v)` on the same converter
records the footnote `v` only. -/
theorem second_call_footnotes_example :
    ConvertMarkdownToWechat MapOrder.insertion NewWechatConverterFixed "[a](u)".toList =
      some ("<span ".toList ++
          getDefaultStyles.LinkStyle ++ ">a</span><sup>[1]</sup>".toList ++
          footnoteRule ++ footnoteHeading ++ footnoteOpen ++ "[1] u</p>".toList,
        { NewWechatConverterFixed with footnotes := ["u".toList] }) ∧
    ∃ o2 c2, ConvertMarkdownToWechat MapOrder.insertion
        { NewWechatConverterFixed with footnotes := ["u".toList] } "[b](v)".toList =
        some (o2, c2) ∧ c2.footnotes = ["v".toList] := by
  have h : ConvertMarkdownToWechat MapOrder.insertion NewWechatConverterFixed
      "[a](u)".toList =
      some ("<span ".toList ++
          getDefaultStyles.LinkStyle ++ ">a</span><sup>[1]</sup>".toList ++
          footnoteRule ++ footnoteHeading ++ footnoteOpen ++ "[1] u</p>".toList,
        { NewWechatConverterFixed with footnotes := ["u".toList] }) := by
    decide!
  obtain ⟨o2, c2, h2, hf, _⟩ := second_call_footnotes MapOrder.insertion
    NewWechatConverterFixed "[a](u)".toList "[b](v)".toList _ _ h
  exact ⟨h, o2, c2, h2, hf.trans (by decide!)⟩

/-- Claim C9, the failing input: a second call whose document has a link
inside a heading. After the call on `[x](y)` the converter holds the footnote
`y`; the call on `# [a](http://x?a&b)` on that converter returns, its first
marker is `[1]` and nothing of the first call is in it, but the footnotes do not
hold the URL of the link: `processHeaders` escapes the heading text before
`processLinks` sees it, so the one footnote is `http://x?a&amp;b`, and the
references section escapes it again. -/
theorem c9_second_call_escaped_url (ord : MapOrder) :
    ConvertMarkdownToWechat ord NewWechatConverterFixed "[x](y)".toList =
      some ("<span ".toList ++ getDefaultStyles.LinkStyle ++
          ">x</span><sup>[1]</sup>".toList ++
          footnoteRule ++ footnoteHeading ++ footnoteOpen ++ "[1] y</p>".toList,
        { NewWechatConverterFixed with footnotes := ["y".toList] }) ∧
    ConvertMarkdownToWechat ord { NewWechatConverterFixed with footnotes := ["y".toList] }
        "# [a](http://x?a&b)".toList =
      some ("<h1 ".toList ++ getDefaultStyles.H1Style ++ "><span ".toList ++
          getDefaultStyles.LinkStyle ++ ">a</span><sup>[1]</sup></h1>".toList ++
          footnoteRule ++ footnoteHeading ++ footnoteOpen ++
          "[1] http://x?a&amp;amp;b</p>".toList,
        { NewWechatConverterFixed with footnotes := ["http://x?a&amp;b".toList] }) ∧
    ["http://x?a&amp;b".toList] ≠ ["http://x?a&b".toList] := by
  have h1 : convertStages NewWechatConverterFixed "[x](y)".toList =
      some ("<span ".toList ++ getDefaultStyles.LinkStyle ++
          ">x</span><sup>[1]</sup>".toList,
        { NewWechatConverterFixed with footnotes := ["y".toList] }) := by
    decide!
  have h2 : convertStages { NewWechatConverterFixed with footnotes := ["y".toList] }
      "# [a](http://x?a&b)".toList =
      some ("<h1 ".toList ++ getDefaultStyles.H1Style ++ "><span ".toList ++
          getDefaultStyles.LinkStyle ++ ">a</span><sup>[1]</sup></h1>".toList,
        { NewWechatConverterFixed with footnotes := ["http://x?a&amp;b".toList] }) := by
    decide!
  refine ⟨?_, ?_, by decide⟩
  · rw [ConvertMarkdownToWechat_eq, h1, Option.map, convertFinish_nil _ _ _ rfl]
    decide!
  · rw [ConvertMarkdownToWechat_eq, h2, Option.map, convertFinish_nil _ _ _ rfl]
    decide!

/-- Claim C10: converting the `n` consecutive lines `- a_1`, ..., `- a_n` of
plain item texts on a fresh converter produces `n` sibling `<ul>` elements, one
per line in order, each with exactly one `<li>` that holds the escaped item
text; the lines are never grouped into one list, and no footnote is recorded. -/
theorem c10_single_item_lists (ord : MapOrder) (items : List Str) (hne : items ≠ [])
    (hp : ∀ a ∈ items, plainItem a = true) :
    ConvertMarkdownToWechat ord NewWechatConverterFixed
        (Join ['\n'] (items.map (fun a => "- ".toList ++ a))) =
      some (Join ['\n'] (items.map (fun a =>
          "<ul ".toList ++ getDefaultStyles.ListStyle ++ ">".toList ++ liOpen ++
            EscapeString a ++ "</li></ul>".toList)),
        NewWechatConverterFixed) := by
  have edash : (fun a : Str => "- ".toList ++ a) = fun a => '-' :: ' ' :: a := rfl
  rw [edash]
  have hl := itemLines_facts items hp
  have hu := ulLines_facts items hp
  have hne1 := itemLines_ne_nil items hne
  have hn1 : ∀ l ∈ items.map (fun a => '-' :: ' ' :: a), '\n' ∉ l :=
    fun l h e => ((hl l h).1 '\n' e).1 rfl
  have hne2 : items.map (fun a => "<ul ".toList ++ getDefaultStyles.ListStyle ++
      ">".toList ++ liOpen ++ EscapeString a ++ "</li></ul>".toList) ≠ [] := by
    simpa using hne
  have hn2 : ∀ l ∈ items.map (fun a => "<ul ".toList ++ getDefaultStyles.ListStyle ++
      ">".toList ++ liOpen ++ EscapeString a ++ "</li></ul>".toList), '\n' ∉ l :=
    fun l h e => ((hu l h).1 '\n' e).1 rfl
  generalize hL : items.map (fun a => '-' :: ' ' :: a) = lines at hl hne1 hn1 ⊢
  generalize hH : items.map (fun a => "<ul ".toList ++ getDefaultStyles.ListStyle ++
      ">".toList ++ liOpen ++ EscapeString a ++ "</li></ul>".toList) = html at hu hne2 hn2 ⊢
  -- the characters of the two texts
  have hb1 : backtick ∉ Join ['\n'] lines := by
    intro e
    rcases mem_Join _ _ _ e with h | ⟨l, hl1, hx⟩
    · revert h; decide
    · exact ((hl l hl1).1 _ hx).2.2.2.1 rfl
  have hq2 : ∀ x, x = '[' ∨ x = backtick ∨ x = '*' → x ∉ Join ['\n'] html := by
    intro x hx e
    rcases mem_Join _ _ _ e with h | ⟨l, hl1, hx1⟩
    · rcases hx with rfl | rfl | rfl <;> revert h <;> decide
    · have := (hu l hl1).1 _ hx1
      rcases hx with rfl | rfl | rfl
      · exact this.2.2.1 rfl
      · exact this.2.2.2.1 rfl
      · exact this.2.2.2.2 rfl
  -- the stages before the lists leave the lines as they are
  have h1 : preprocessText (Join ['\n'] lines) = Join ['\n'] lines := by
    apply preprocessText_Join lines hne1 hn1
    intro l h
    obtain ⟨_, ht, a, rfl, _⟩ := hl l h
    exact ⟨by simp, by rw [ht]; exact itemLine_not_marker a⟩
  have h2 : extractText 0 0 (Join ['\n'] lines) = Join ['\n'] lines := extractText_id 0 _ hb1
  have hmark : ∀ (x : Char) (xs : Str), x ≠ '-' → ∀ l ∈ lines, litMarker (x :: xs) l = none := by
    intro x xs hx l h
    obtain ⟨_, _, a, rfl, _⟩ := hl l h
    simp [litMarker, HasPrefix_cons_ne '-' x _ xs (fun e => hx e.symm)]
  have h3 : processHeaders NewWechatConverterFixed (Join ['\n'] lines) = Join ['\n'] lines := by
    have e1 : "# ".toList = '#' :: " ".toList := rfl
    have e2 : "## ".toList = '#' :: "# ".toList := rfl
    have e3 : "### ".toList = '#' :: "## ".toList := rfl
    unfold processHeaders
    simp only
    rw [e1, replaceLines_none _ _ _ hne1 hn1 (hmark _ _ (by decide)),
      e2, replaceLines_none _ _ _ hne1 hn1 (hmark _ _ (by decide)),
      e3, replaceLines_none _ _ _ hne1 hn1 (hmark _ _ (by decide))]
  have h4 : processQuotes NewWechatConverterFixed (Join ['\n'] lines) = Join ['\n'] lines := by
    have e1 : "> ".toList = '>' :: " ".toList := rfl
    unfold processQuotes
    rw [e1, replaceLines_none _ _ _ hne1 hn1 (hmark _ _ (by decide))]
  have h5 : processTables NewWechatConverterFixed (Join ['\n'] lines) = Join ['\n'] lines := by
    rw [processTables_Join _ lines hne1 hn1 (fun l h e => ((hl l h).1 _ e).2.1 rfl)]
    congr 1
    conv_rhs => rw [← List.map_id lines]
    exact List.map_congr_left (fun l h => (hl l h).2.1)
  have h6 : processLists NewWechatConverterFixed (Join ['\n'] lines) = Join ['\n'] html := by
    rw [← hL, ← hH]
    exact processLists_items NewWechatConverterFixed rfl items hne hp
  have hlink : linkStageText NewWechatConverterFixed (Join ['\n'] lines) = Join ['\n'] html := by
    simp only [linkStageText, h1, h2, h3, h4, h5, h6]
  -- the stages after the lists leave the elements as they are
  have h7 : linkURLs 0 (Join ['\n'] html) = [] := linkURLs_nil _ (hq2 _ (Or.inl rfl))
  have h8 : processParagraphs NewWechatConverterFixed (Join ['\n'] html) = Join ['\n'] html := by
    apply processParagraphs_Join _ html hne2 hn2
    intro l h
    obtain ⟨_, m, init, rfl, hm⟩ := hu l h
    exact ⟨TrimSpace_id '<' m init '>' hm (by decide) (by decide), by simp, by simp [HasPrefix]⟩
  have hafter : afterLinks NewWechatConverterFixed (Join ['\n'] html) = Join ['\n'] html := by
    simp only [afterLinks, renderLinks_id _ 0 _ (hq2 _ (Or.inl rfl)),
      renderImages_id _ _ (hq2 _ (Or.inl rfl)),
      processInlineCode_id _ _ (hq2 _ (Or.inr (Or.inl rfl))),
      processBoldItalic_id _ (hq2 _ (Or.inr (Or.inr rfl))), h8]
  have hfresh : freshState NewWechatConverterFixed = NewWechatConverterFixed := rfl
  rw [ConvertMarkdownToWechat_eq, convertStages_eq, hfresh, hlink, hafter, h7, h1,
    extractEntries_nil _ 0 _ hb1, Option.map_some', List.foldl_nil]
  have hc : (⟨[], NewWechatConverterFixed.styles, NewWechatConverterFixed.codeBlocks⟩ :
      WechatConverter) = NewWechatConverterFixed := rfl
  rw [hc, convertFinish_nil _ _ _ rfl]
  rfl

/-- Witness of claim C10: the two lines `- a`, `- b` become two `<ul>`
elements of one item each. -/
theorem c10_single_item_lists_witness :
    ConvertMarkdownToWechat MapOrder.insertion NewWechatConverterFixed "- a\n- b".toList =
      some ("<ul ".toList ++ getDefaultStyles.ListStyle ++ ">".toList ++ liOpen ++
          "a</li></ul>".toList ++ ['\n'] ++
          "<ul ".toList ++ getDefaultStyles.ListStyle ++ ">".toList ++ liOpen ++
          "b</li></ul>".toList, NewWechatConverterFixed) := by
  have h := c10_single_item_lists MapOrder.insertion ["a".toList, "b".toList]
    (by decide) (by decide)
  have e1 : Join ['\n'] (["a".toList, "b".toList].map (fun a => "- ".toList ++ a)) =
      "- a\n- b".toList := by decide
  have e2 : Join ['\n'] (["a".toList, "b".toList].map (fun a =>
      "<ul ".toList ++ getDefaultStyles.ListStyle ++ ">".toList ++ liOpen ++
        EscapeString a ++ "</li></ul>".toList)) =
      "<ul ".toList ++ getDefaultStyles.ListStyle ++ ">".toList ++ liOpen ++
          "a</li></ul>".toList ++ ['\n'] ++
          "<ul ".toList ++ getDefaultStyles.ListStyle ++ ">".toList ++ liOpen ++
          "b</li></ul>".toList := by decide!
  rw [e1, e2] at h
  exact h

/-! ### Tables -/

theorem headerCells_eq (c : WechatConverter) (l : List Str) :
    headerCells c l =
      ((l.map TrimSpace).filter (fun cell => cell ≠ [])).flatMap (thElement c) := by
  induction l with
  | nil => rfl
  | cons x xs ih =>
    simp only [headerCells, ih, List.map_cons, List.filter_cons]
    by_cases h : TrimSpace x = []
    · simp [h]
    · simp [h, thElement]

theorem dataCells_eq (c : WechatConverter) (j : Nat) (l : List Str) :
    dataCells c j l =
      ((l.map TrimSpace).enumFrom j).flatMap (fun p => tdElement c p.1 p.2) := by
  induction l generalizing j with
  | nil => rfl
  | cons x xs ih =>
    simp [dataCells, ih, tdElement, List.enumFrom_cons]

theorem dataRows_eq (c : WechatConverter) (rows : List Str) :
    dataRows c rows = rows.flatMap (dataRowSpec c) := by
  induction rows with
  | nil => rfl
  | cons x xs ih =>
    simp [dataRows, ih, dataRowSpec, rowCells, dataCells_eq]

/-- Claim C11: `convertTable` on a non-empty list of lines is the table of the
specification. The first line is the header row, with one `<th>` carrying the
header style and the escaped text for every cell whose trimmed text is not empty,
in order, and nothing for an empty cell; every other line is a data row with one
`<td>` for every cell, in order, and an empty cell is an empty `<td>`. -/
theorem c11_table_rows (c : WechatConverter) (header : Str) (rows : List Str) :
    convertTable c (header :: rows) = tableSpec c header rows ∧
    (∀ j : Nat, tdElement c j [] =
      "<td ".toList ++ cellStyleOf c j [] ++ "></td>".toList) ∧
    (∀ line : Str, (((rowCells line).enumFrom 0).map (fun p => tdElement c p.1 p.2)).length =
      (rowCells line).length) := by
  refine ⟨?_, ?_, ?_⟩
  · simp [convertTable, tableSpec, headerRowSpec, rowCells, headerCells_eq, dataRows_eq]
  · intro j
    simp [tdElement, EscapeString]
  · intro line
    simp

/-! ### Placeholders -/

theorem digitChar_toNat (k : Nat) (h : k < 10) : (Nat.digitChar k).toNat - 48 = k := by
  interval_cases k <;> rfl

theorem toDigitsCore_value (fuel n : Nat) (ds : Str) (h : n < fuel) :
    (Nat.toDigitsCore 10 fuel n ds).foldl (fun a c => 10 * a + (c.toNat - 48)) 0 =
      ds.foldl (fun a c => 10 * a + (c.toNat - 48)) n := by
  induction fuel generalizing n ds with
  | zero => omega
  | succ fuel ih =>
    simp only [Nat.toDigitsCore]
    have hd := digitChar_toNat (n % 10) (Nat.mod_lt _ (by decide))
    split
    · rename_i h0
      simp only [List.foldl_cons, Nat.mul_zero, Nat.zero_add, hd]
      have : n % 10 = n := by omega
      rw [this]
    · rename_i h0
      rw [ih (n / 10) _ (by omega)]
      simp only [List.foldl_cons, hd]
      have : 10 * (n / 10) + n % 10 = n := by omega
      rw [this]

theorem digitsValue_itoa (n : Nat) : digitsValue (itoa n) = n := by
  simp only [digitsValue, itoa, Nat.toDigits]
  rw [toDigitsCore_value (n + 1) n [] (by omega)]
  rfl

theorem itoa_injective (i j : Nat) (h : itoa i = itoa j) : i = j := by
  have := congrArg digitsValue h
  simpa [digitsValue_itoa] using this

theorem placeholder_injective (i j : Nat) (h : placeholder i = placeholder j) : i = j := by
  simp only [placeholder, List.append_assoc] at h
  have h1 := List.append_cancel_left h
  have h2 : (itoa i).length = (itoa j).length := by
    have := congrArg List.length h1
    simpa using this
  exact itoa_injective i j (List.append_inj_left h1 h2)

theorem mapGet_mapSet_self (m : List (Str × Str)) (k v : Str) :
    mapGet (mapSet m k v) k = some v := by
  induction m with
  | nil => simp [mapSet, mapGet]
  | cons e r ih =>
    obtain ⟨k1, v1⟩ := e
    by_cases h : k1 = k
    · simp [mapSet, mapGet, h]
    · simp [mapSet, mapGet, h, ih]

theorem mapGet_mapSet_other (m : List (Str × Str)) (k v k2 : Str) (h : k2 ≠ k) :
    mapGet (mapSet m k v) k2 = mapGet m k2 := by
  induction m with
  | nil => simp [mapSet, mapGet, Ne.symm h]
  | cons e r ih =>
    obtain ⟨k1, v1⟩ := e
    by_cases h1 : k1 = k
    · subst h1
      simp [mapSet, mapGet, Ne.symm h]
    · simp [mapSet, mapGet, h1, ih]

theorem mapGet_foldl_other (entries : List (Str × Str)) (m : List (Str × Str)) (k : Str)
    (h : ∀ e ∈ entries, e.1 ≠ k) :
    mapGet (entries.foldl (fun m e => mapSet m e.1 e.2) m) k = mapGet m k := by
  induction entries generalizing m with
  | nil => rfl
  | cons e rest ih =>
    simp only [List.foldl_cons]
    rw [ih _ (fun x hx => h x (List.mem_cons_of_mem _ hx)),
      mapGet_mapSet_other _ _ _ _ (fun e1 => h e (List.mem_cons_self _ _) e1.symm)]

/-! ### The code-block pattern on a fenced block -/

theorem cut_newline (tag rest : Str) (h : '\n' ∉ tag) :
    cut ['\n'] (tag ++ '\n' :: rest) = some (tag, rest) := by
  induction tag with
  | nil => simp [cut, HasPrefix]
  | cons c cs ih =>
    have hc : c ≠ '\n' := fun e => h (e ▸ List.mem_cons_self _ _)
    have hcs : '\n' ∉ cs := fun e => h (List.mem_cons_of_mem _ e)
    simp [cut, HasPrefix, hc, ih hcs]

theorem cut_fence_body (body rest : Str) (h1 : Contains body fence = false)
    (h2 : body.getLast? ≠ some backtick) :
    cut fence (body ++ fence ++ rest) = some (body, rest) := by
  induction body with
  | nil => simp [cut, fence, HasPrefix]
  | cons c cs ih =>
    simp only [Contains, Bool.or_eq_false_iff] at h1
    have hcs2 : cs.getLast? ≠ some backtick := by
      cases cs with
      | nil => simp
      | cons d r => simpa [List.getLast?_cons_cons] using h2
    have ih' := ih h1.2 hcs2
    have hp : HasPrefix (c :: (cs ++ fence ++ rest)) fence = false := by
      cases cs with
      | nil =>
        have hc : c ≠ backtick := by simpa using h2
        simp [HasPrefix, fence, hc]
      | cons d r =>
        cases r with
        | nil =>
          have hd : d ≠ backtick := by simpa [List.getLast?_cons_cons] using h2
          simp [HasPrefix, fence, hd]
        | cons e r2 =>
          have := h1.1
          simp only [HasPrefix, fence, Bool.and_true] at this ⊢
          simpa using this
    rw [List.append_assoc] at hp ih'
    simp [cut, hp, ih']

theorem properBlock_facts (tag body : Str) (h : properBlock tag body = true) :
    '\n' ∉ tag ∧ Contains body fence = false ∧ body.getLast? ≠ some backtick := by
  simp only [properBlock, Bool.and_eq_true, List.all_eq_true, bne_iff_ne, ne_eq,
    Bool.not_eq_true', beq_eq_false_iff_ne] at h
  exact ⟨fun e => h.1.1 _ e rfl, h.1.2, h.2⟩

theorem fencedBlock_cons (tag body rest : Str) :
    fencedBlock tag body ++ rest =
      backtick :: (backtick :: backtick :: tag ++ ['\n'] ++ body ++ fence ++ rest) := by
  simp [fencedBlock, fence]

theorem fencedBlock_length (tag body : Str) :
    (fencedBlock tag body).length - 1 =
      (backtick :: backtick :: tag ++ ['\n'] ++ body ++ fence).length := by
  simp [fencedBlock, fence]

theorem codeBlockRegex_block (tag body rest : Str) (h : properBlock tag body = true) :
    codeBlockRegex (fencedBlock tag body ++ rest) = some [fencedBlock tag body, tag, body] := by
  obtain ⟨h1, h2, h3⟩ := properBlock_facts tag body h
  unfold codeBlockRegex
  have e : fencedBlock tag body ++ rest = fence ++ (tag ++ '\n' :: (body ++ fence ++ rest)) := by
    simp [fencedBlock]
  rw [e, HasPrefix_append]
  have hdrop : (fence ++ (tag ++ '\n' :: (body ++ fence ++ rest))).drop 3 =
      tag ++ '\n' :: (body ++ fence ++ rest) := by simp [fence]
  rw [hdrop, cut_newline tag _ h1]
  simp only [if_true, cut_fence_body body rest h2 h3]
  simp [fencedBlock]

/-! ### Extraction on a document of fenced blocks -/

theorem extractText_skip (k n : Nat) (w s : Str) (h : w.length = k) :
    extractText k n (w ++ s) = extractText 0 n s := by
  induction w generalizing k with
  | nil =>
    simp only [List.length_nil] at h
    subst h
    rfl
  | cons x xs ih =>
    cases k with
    | zero => simp at h
    | succ k =>
      simp only [List.length_cons, Nat.add_right_cancel_iff] at h
      simp only [List.cons_append, extractText]
      exact ih k h

theorem extractEntries_skip (style : Str) (k n : Nat) (w s : Str) (h : w.length = k) :
    extractEntries style k n (w ++ s) = extractEntries style 0 n s := by
  induction w generalizing k with
  | nil =>
    simp only [List.length_nil] at h
    subst h
    rfl
  | cons x xs ih =>
    cases k with
    | zero => simp at h
    | succ k =>
      simp only [List.length_cons, Nat.add_right_cancel_iff] at h
      simp only [List.cons_append, extractEntries]
      exact ih k h

theorem codeBlockRegex_none_of_head (c : Char) (cs : Str) (h : c ≠ backtick) :
    codeBlockRegex (c :: cs) = none := by
  cases hr : codeBlockRegex (c :: cs) with
  | none => rfl
  | some g => exact absurd (codeBlockRegex_head c cs g hr) h

theorem extractText_pre (n : Nat) (pre s : Str) (h : backtick ∉ pre) :
    extractText 0 n (pre ++ s) = pre ++ extractText 0 n s := by
  induction pre with
  | nil => rfl
  | cons c cs ih =>
    have hc : c ≠ backtick := fun e => h (e ▸ List.mem_cons_self _ _)
    simp [extractText, codeBlockRegex_none_of_head c _ hc,
      ih (fun e => h (List.mem_cons_of_mem _ e))]

theorem extractEntries_pre (style : Str) (n : Nat) (pre s : Str) (h : backtick ∉ pre) :
    extractEntries style 0 n (pre ++ s) = extractEntries style 0 n s := by
  induction pre with
  | nil => rfl
  | cons c cs ih =>
    have hc : c ≠ backtick := fun e => h (e ▸ List.mem_cons_self _ _)
    simp [extractEntries, codeBlockRegex_none_of_head c _ hc,
      ih (fun e => h (List.mem_cons_of_mem _ e))]

theorem fencedBlock_split (tag body : Str) :
    ∃ w, (∀ rest, fencedBlock tag body ++ rest = backtick :: (w ++ rest)) ∧
      (fencedBlock tag body).length - 1 = w.length :=
  ⟨backtick :: backtick :: tag ++ ['\n'] ++ body ++ fence,
    fun rest => by simp [fencedBlock, fence], by simp [fencedBlock, fence]⟩

theorem extractText_match (n : Nat) (c : Char) (cs : Str) (g : List Str)
    (h : codeBlockRegex (c :: cs) = some g) :
    extractText 0 n (c :: cs) =
      placeholder n ++ extractText ((g.headD []).length - 1) (n + 1) cs := by
  simp [extractText, h]

theorem extractEntries_match (style : Str) (n : Nat) (c : Char) (cs : Str) (g : List Str)
    (h : codeBlockRegex (c :: cs) = some g) :
    extractEntries style 0 n (c :: cs) =
      (placeholder n, "<section ".toList ++ style ++ ">".toList ++
          EscapeString (g.getD 2 []) ++ "</section>".toList) ::
        extractEntries style ((g.headD []).length - 1) (n + 1) cs := by
  simp [extractEntries, h]

theorem extractText_block (n : Nat) (tag body rest : Str) (h : properBlock tag body = true) :
    extractText 0 n (fencedBlock tag body ++ rest) =
      placeholder n ++ extractText 0 (n + 1) rest := by
  have hre := codeBlockRegex_block tag body rest h
  obtain ⟨w, hw, hlen⟩ := fencedBlock_split tag body
  rw [hw] at hre ⊢
  rw [extractText_match n _ _ _ hre, List.headD_cons, hlen, extractText_skip _ _ w rest rfl]

theorem extractEntries_block (style : Str) (n : Nat) (tag body rest : Str)
    (h : properBlock tag body = true) :
    extractEntries style 0 n (fencedBlock tag body ++ rest) =
      (placeholder n, "<section ".toList ++ style ++ ">".toList ++ EscapeString body ++
        "</section>".toList) :: extractEntries style 0 (n + 1) rest := by
  have hre := codeBlockRegex_block tag body rest h
  obtain ⟨w, hw, hlen⟩ := fencedBlock_split tag body
  rw [hw] at hre ⊢
  rw [extractEntries_match style n _ _ _ hre, List.headD_cons, hlen,
    extractEntries_skip _ _ _ w rest rfl]
  rfl

theorem extract_blocks (style : Str) (n : Nat) (segs : List (Str × Str × Str)) (last : Str)
    (hsegs : ∀ s ∈ segs, backtick ∉ s.1 ∧ properBlock s.2.1 s.2.2 = true)
    (hlast : backtick ∉ last) :
    extractText 0 n (blocksDoc segs last) = blocksReplaced n segs last ∧
    extractEntries style 0 n (blocksDoc segs last) = blocksEntries style n segs := by
  induction segs generalizing n with
  | nil =>
    exact ⟨extractText_id n last hlast, extractEntries_nil style n last hlast⟩
  | cons s rest ih =>
    obtain ⟨pre, tag, body⟩ := s
    obtain ⟨h1, h2⟩ := hsegs (pre, tag, body) (List.mem_cons_self _ _)
    obtain ⟨ih1, ih2⟩ := ih (n + 1) (fun x hx => hsegs x (List.mem_cons_of_mem _ hx))
    simp only [blocksDoc, blocksReplaced, blocksEntries, List.append_assoc]
    rw [extractText_pre n pre _ h1, extractEntries_pre style n pre _ h1,
      extractText_block n tag body _ h2, extractEntries_block style n tag body _ h2, ih1, ih2]
    exact ⟨rfl, by simp⟩

theorem blocksEntries_keys (style : Str) (n : Nat) (segs : List (Str × Str × Str)) :
    ∀ e ∈ blocksEntries style n segs, ∃ j, n ≤ j ∧ e.1 = placeholder j := by
  induction segs generalizing n with
  | nil => simp [blocksEntries]
  | cons s rest ih =>
    obtain ⟨pre, tag, body⟩ := s
    intro e he
    simp only [blocksEntries, List.mem_cons] at he
    rcases he with rfl | he
    · exact ⟨n, Nat.le_refl _, rfl⟩
    · obtain ⟨j, hj, hk⟩ := ih (n + 1) e he
      exact ⟨j, by omega, hk⟩

theorem mapGet_blocksEntries (style : Str) (n : Nat) (segs : List (Str × Str × Str))
    (m : List (Str × Str)) (i : Nat) (h : i < segs.length) :
    mapGet ((blocksEntries style n segs).foldl (fun m e => mapSet m e.1 e.2) m)
        (placeholder (n + i)) =
      some ("<section ".toList ++ style ++ ">".toList ++
        EscapeString (segs.get ⟨i, h⟩).2.2 ++ "</section>".toList) := by
  induction segs generalizing n m i with
  | nil => simp at h
  | cons s rest ih =>
    obtain ⟨pre, tag, body⟩ := s
    cases i with
    | zero =>
      simp only [blocksEntries, List.foldl_cons, Nat.add_zero]
      rw [mapGet_foldl_other, mapGet_mapSet_self]
      · rfl
      · intro e he hk
        obtain ⟨j, hj, hkj⟩ := blocksEntries_keys style (n + 1) rest e he
        have := placeholder_injective j n (hkj ▸ hk)
        omega
    | succ i =>
      simp only [List.length_cons, Nat.add_lt_add_iff_right] at h
      simp only [blocksEntries, List.foldl_cons]
      have e : n + (i + 1) = (n + 1) + i := by omega
      rw [e]
      exact ih (n + 1) _ i h

/-- Claim C12: fenced blocks are matched one by one. On a document of properly
closed fenced blocks separated by texts without backticks, `extractCodeBlocks`
returns, and in its text every block is replaced in place by the placeholder of
its number, counted from 0, the texts around the blocks unchanged; the footnotes
and styles are untouched, the entries of the blocks are written to the placeholder
map in document order, and the map then gives for the placeholder of block `i` the
escaped body of that block in a `<section>` of the code-block style. -/
theorem c12_blocks_matched_one_by_one (c : WechatConverter)
    (segs : List (Str × Str × Str)) (last : Str)
    (hsegs : ∀ s ∈ segs, backtick ∉ s.1 ∧ properBlock s.2.1 s.2.2 = true)
    (hlast : backtick ∉ last) :
    ∃ c1, extractCodeBlocks c (blocksDoc segs last) = some (blocksReplaced 0 segs last, c1) ∧
      c1.footnotes = c.footnotes ∧ c1.styles = c.styles ∧
      c1.codeBlocks = (blocksEntries c.styles.CodeBlockStyle 0 segs).foldl
        (fun m e => mapSet m e.1 e.2) c.codeBlocks ∧
      ∀ (i : Nat) (h : i < segs.length),
        mapGet c1.codeBlocks (placeholder i) =
          some ("<section ".toList ++ c.styles.CodeBlockStyle ++ ">".toList ++
            EscapeString (segs.get ⟨i, h⟩).2.2 ++ "</section>".toList) := by
  obtain ⟨h1, h2⟩ := extract_blocks c.styles.CodeBlockStyle 0 segs last hsegs hlast
  refine ⟨⟨c.footnotes, c.styles, (blocksEntries c.styles.CodeBlockStyle 0 segs).foldl
    (fun m e => mapSet m e.1 e.2) c.codeBlocks⟩, ?_, rfl, rfl, rfl, ?_⟩
  · rw [extractCodeBlocks_eq, h1, h2]
  · intro i h
    have := mapGet_blocksEntries c.styles.CodeBlockStyle 0 segs c.codeBlocks i h
    rw [Nat.zero_add] at this
    exact this

/-- Witness of claim C12: the document `x`, a block tagged `go` with the body
`a`, the line `y`, an untagged block with the body `b`, and `z`. -/
theorem c12_blocks_matched_one_by_one_witness :
    ∃ c1, extractCodeBlocks NewWechatConverterFixed
        ("x".toList ++ fence ++ "go\na\n".toList ++ fence ++ "y\n".toList ++ fence ++
          "\nb\n".toList ++ fence ++ "z".toList) =
        some ("x__CODE_BLOCK_0__y\n__CODE_BLOCK_1__z".toList, c1) ∧
      mapGet c1.codeBlocks "__CODE_BLOCK_1__".toList =
        some ("<section ".toList ++ getDefaultStyles.CodeBlockStyle ++
          ">b\n</section>".toList) := by
  obtain ⟨c1, h1, _, _, _, h5⟩ := c12_blocks_matched_one_by_one NewWechatConverterFixed
    [("x".toList, "go".toList, "a\n".toList), ("y\n".toList, [], "b\n".toList)] "z".toList
    (by decide) (by decide)
  refine ⟨c1, ?_, ?_⟩
  · have e1 : blocksDoc [("x".toList, "go".toList, "a\n".toList),
        ("y\n".toList, [], "b\n".toList)] "z".toList =
        "x".toList ++ fence ++ "go\na\n".toList ++ fence ++ "y\n".toList ++ fence ++
          "\nb\n".toList ++ fence ++ "z".toList := by decide
    have e2 : blocksReplaced 0 [("x".toList, "go".toList, "a\n".toList),
        ("y\n".toList, [], "b\n".toList)] "z".toList =
        "x__CODE_BLOCK_0__y\n__CODE_BLOCK_1__z".toList := by decide
    rw [e1, e2] at h1
    exact h1
  · have := h5 1 (by decide)
    have e3 : placeholder 1 = "__CODE_BLOCK_1__".toList := by decide
    rw [e3] at this
    exact this

/-! ### A text without a closed fence -/

theorem extractText_none (n : Nat) (s : Str)
    (h : ∀ c cs, (c :: cs) <:+ s → codeBlockRegex (c :: cs) = none) :
    extractText 0 n s = s := by
  induction s with
  | nil => rfl
  | cons c cs ih =>
    have h0 := h c cs (List.suffix_refl _)
    have ih' := ih (fun d ds hd => h d ds (hd.trans (List.suffix_cons c cs)))
    simp [extractText, h0, ih']

theorem extractEntries_none (style : Str) (n : Nat) (s : Str)
    (h : ∀ c cs, (c :: cs) <:+ s → codeBlockRegex (c :: cs) = none) :
    extractEntries style 0 n s = [] := by
  induction s with
  | nil => rfl
  | cons c cs ih =>
    have h0 := h c cs (List.suffix_refl _)
    have ih' := ih (fun d ds hd => h d ds (hd.trans (List.suffix_cons c cs)))
    simp [extractEntries, h0, ih']

/-- Claim C13: an unterminated fence does not match. When the text is nowhere
three backticks, later a newline and later three backticks again,
`extractCodeBlocks` returns without a panic, the text is unchanged and the
converter, its placeholder map included, is as before. -/
theorem c13_unterminated_fence (c : WechatConverter) (text : Str)
    (h : ∀ a b d e : Str, text ≠ a ++ fence ++ b ++ ['\n'] ++ d ++ fence ++ e) :
    extractCodeBlocks c text = some (text, c) := by
  have hnone : ∀ x xs, (x :: xs) <:+ text → codeBlockRegex (x :: xs) = none := by
    intro x xs hs
    cases hr : codeBlockRegex (x :: xs) with
    | none => rfl
    | some g =>
      obtain ⟨lang, code, rest, _, hx, _⟩ := codeBlockRegex_some _ _ hr
      obtain ⟨pre, hpre⟩ := hs
      exfalso
      apply h pre lang code rest
      rw [← hpre, hx]
      simp
  rw [extractCodeBlocks_eq, extractText_none 0 text hnone,
    extractEntries_none _ 0 text hnone]
  rfl

/-- Witness of claim C13: an opening fence with a tag, a newline and a line of
code, and no closing fence. -/
theorem c13_unterminated_fence_witness :
    extractCodeBlocks NewWechatConverterFixed (fence ++ "go\nx := 1".toList) =
      some (fence ++ "go\nx := 1".toList, NewWechatConverterFixed) := by
  apply c13_unterminated_fence
  intro a b d e he
  have := congrArg (List.count backtick) he
  simp only [List.count_append] at this
  have h1 : List.count backtick (fence ++ "go\nx := 1".toList) = 3 := by decide
  have h2 : List.count backtick fence = 3 := by decide
  simp only [List.count_append] at h1
  omega

/-- Claim C14: the conversion never fails. For every input,
`ConvertMarkdownToWechat` on a converter from `NewWechatConverterFixed` returns a
string; the callbacks of `extractCodeBlocks`, `processLinks` and `processImages`
find their pattern again in the text it has just matched, with the same three
submatches, so the indices 1 and 2 are in range. -/
theorem c14_never_panics (ord : MapOrder) (markdown : Str) :
    (∃ html c, ConvertMarkdownToWechat ord NewWechatConverterFixed markdown =
      some (html, c)) ∧
    (∀ s g, codeBlockRegex s = some g →
      FindStringSubmatch codeBlockRegex (g.headD []) = some g ∧ g.length = 3) ∧
    (∀ s g, linkRegex s = some g →
      FindStringSubmatch linkRegex (g.headD []) = some g ∧ g.length = 3) ∧
    (∀ s g, imageRegex s = some g →
      FindStringSubmatch imageRegex (g.headD []) = some g ∧ g.length = 3) := by
  refine ⟨?_, ?_, ?_, ?_⟩
  · rw [ConvertMarkdownToWechat_eq, convertStages_eq, Option.map_some']
    exact ⟨_, _, rfl⟩
  · intro s g h
    obtain ⟨lang, code, rest, rfl, _, hw⟩ := codeBlockRegex_some s g h
    exact ⟨FindStringSubmatch_head _ _ _ hw, rfl⟩
  · intro s g h
    obtain ⟨t, u, rfl, hw⟩ := linkRegex_some s g h
    exact ⟨FindStringSubmatch_head _ _ _ hw, rfl⟩
  · intro s g h
    obtain ⟨t, u, rfl, hw⟩ := imageRegex_some s g h
    exact ⟨FindStringSubmatch_head _ _ _ hw, rfl⟩

/-- Claim C15, the failing input: a header, a separator, one data line and
the line `end`. The separator line is not skipped and ends the table after the
header: four lines are returned, the table of the header alone, the separator,
the data line and `end`. -/
theorem c15_table_ends_at_separator :
    processTables NewWechatConverterFixed "| A | B |\n|---|---|\n| 1 | 2 |\nend".toList =
      convertTable NewWechatConverterFixed ["| A | B |".toList] ++
        "\n|---|---|\n| 1 | 2 |\nend".toList ∧
    processTables NewWechatConverterFixed "| A | B |\n|---|---|\n| 1 | 2 |\nend".toList ≠
      convertTable NewWechatConverterFixed ["| A | B |".toList, "| 1 | 2 |".toList] ++
        "\nend".toList := by
  decide!

/-- Claim C16, the failing input: the code span with the content `a **b** c`.
`processInlineCode` leaves the asterisks in the `<code>` element and
`processBoldItalic` then runs over the element: a `<strong>` element is
produced inside it. -/
theorem c16_emphasis_inside_inline_code (ord : MapOrder) :
    ConvertMarkdownToWechat ord NewWechatConverterFixed
        (backtick :: "a **b** c".toList ++ [backtick]) =
      some ("<code ".toList ++ getDefaultStyles.InlineCodeStyle ++
          ">a <strong>b</strong> c</code>".toList, NewWechatConverterFixed) := by
  have h : convertStages NewWechatConverterFixed
      (backtick :: "a **b** c".toList ++ [backtick]) =
      some ("<code ".toList ++ getDefaultStyles.InlineCodeStyle ++
          ">a <strong>b</strong> c</code>".toList, NewWechatConverterFixed) := by
    decide!
  rw [ConvertMarkdownToWechat_eq, h, Option.map, convertFinish_nil _ _ _ rfl]
  decide!

/-! ### Emphasis -/

theorem dropWhile_head_false (p : Char → Bool) (l : Str) (d : Char) (r : Str)
    (h : l.dropWhile p = d :: r) : p d = false := by
  induction l with
  | nil => simp at h
  | cons x xs ih =>
    by_cases hx : p x = true
    · rw [List.dropWhile_cons_of_pos hx] at h
      exact ih h
    · rw [List.dropWhile_cons_of_neg hx] at h
      simp only [List.cons.injEq] at h
      rw [← h.1]
      simpa using hx

theorem not_mem_takeWhile_ne (x : Char) (l : Str) : x ∉ l.takeWhile (fun y => y != x) := by
  intro h
  have := takeWhile_all _ l x h
  simp at this

theorem boldRegex_some (s : Str) (g : List Str) (h : boldRegex s = some g) :
    ∃ t, g = ['*' :: '*' :: t ++ ['*', '*'], t] ∧ t ≠ [] ∧ '*' ∉ t ∧
      2 ≤ s.count '*' := by
  unfold boldRegex at h
  split at h
  · rename_i c0 c r
    split at h
    · rename_i hc
      obtain ⟨rfl, rfl⟩ := hc
      split at h
      · dsimp only at h
        split at h
        · rename_i hc2
          simp only [Option.some.injEq] at h
          exact ⟨_, h.symm, hc2.2, not_mem_takeWhile_ne '*' r, by simp⟩
        · simp at h
      · simp at h
    · simp at h
  · simp at h

theorem italicRegex_some (s : Str) (g : List Str) (h : italicRegex s = some g) :
    ∃ t, g = ['*' :: t ++ ['*'], t] ∧ t ≠ [] ∧ '*' ∉ t ∧ 2 ≤ s.count '*' := by
  unfold italicRegex at h
  cases s with
  | nil => simp at h
  | cons c r =>
    simp only at h
    split at h
    · rename_i hc
      subst hc
      split at h
      · rename_i d r2 hd
        split at h
        · rename_i ht
          simp only [Option.some.injEq] at h
          refine ⟨_, h.symm, ht, not_mem_takeWhile_ne '*' r, ?_⟩
          have hd1 : d = '*' := by
            have := dropWhile_head_false _ r d r2 hd
            simpa using this
          have hmem : '*' ∈ r := by
            apply mem_of_mem_dropWhile (fun x => x != '*')
            rw [hd, hd1]
            exact List.mem_cons_self _ _
          have := List.count_pos_iff.mpr hmem
          simp only [List.count_cons_self]
          omega
        · simp at h
      · simp at h
    · simp at h

theorem processBoldItalic_few_stars (text : Str) (h : text.count '*' ≤ 1) :
    processBoldItalic text = text := by
  have hsuf : ∀ d ds, (d :: ds) <:+ text → (d :: ds).count '*' ≤ 1 :=
    fun d ds hs => Nat.le_trans (hs.sublist.count_le _) h
  unfold processBoldItalic ReplaceAllString1
  have h1 : replaceAllAuxP boldRegex
      (fun g => "<strong>".toList ++ g.getD 1 [] ++ "</strong>".toList) 0 text = text := by
    apply replaceAllAuxP_id
    intro d ds hs
    cases hr : boldRegex (d :: ds) with
    | none => rfl
    | some g =>
      obtain ⟨_, _, _, _, hc⟩ := boldRegex_some _ _ hr
      have := hsuf d ds hs
      omega
  simp only [h1]
  apply replaceAllAuxP_id
  intro d ds hs
  cases hr : italicRegex (d :: ds) with
  | none => rfl
  | some g =>
    obtain ⟨_, _, _, _, hc⟩ := italicRegex_some _ _ hr
    have := hsuf d ds hs
    omega

/-- Claim C17 fails: the two lines `*a` and `b*` have one asterisk each, yet
`processBoldItalic` pairs the two asterisks across the line break and returns an
`<em>` element whose content holds the newline; the same for `**a`, `b**` and
`<strong>`. -/
theorem c17_emphasis_pairs_across_lines :
    (∀ l ∈ Split '\n' "*a\nb*".toList, l.count '*' ≤ 1) ∧
    processBoldItalic "*a\nb*".toList = "<em>a\nb</em>".toList ∧
    processBoldItalic "*a\nb*".toList ≠ "*a\nb*".toList ∧
    processBoldItalic "**a\nb**".toList = "<strong>a\nb</strong>".toList := by
  decide!

/-- Claim C17 as amended: the emphasis patterns pair two delimiters whenever
only characters other than the asterisk lie between them, a newline being one of
those. Every match of the bold pattern is `**t**` and every match of the italic
pattern is `*t*` with `t` not empty and free of asterisks, and `t` is the
content of the `<strong>` or `<em>` element that replaces the match; a text with
at most one asterisk in all is returned unchanged. -/
theorem c17_emphasis_contents (text : Str) :
    (∀ s g, boldRegex s = some g →
      ∃ t, g = ['*' :: '*' :: t ++ ['*', '*'], t] ∧ t ≠ [] ∧ '*' ∉ t) ∧
    (∀ s g, italicRegex s = some g →
      ∃ t, g = ['*' :: t ++ ['*'], t] ∧ t ≠ [] ∧ '*' ∉ t) ∧
    (text.count '*' ≤ 1 → processBoldItalic text = text) := by
  refine ⟨?_, ?_, processBoldItalic_few_stars text⟩
  · intro s g h
    obtain ⟨t, h1, h2, h3, _⟩ := boldRegex_some s g h
    exact ⟨t, h1, h2, h3⟩
  · intro s g h
    obtain ⟨t, h1, h2, h3, _⟩ := italicRegex_some s g h
    exact ⟨t, h1, h2, h3⟩

/-- Witness of the amended claim C17: the text `2 * 3` has one asterisk and is
returned unchanged. -/
theorem c17_emphasis_contents_witness :
    "2 * 3".toList.count '*' ≤ 1 ∧ processBoldItalic "2 * 3".toList = "2 * 3".toList :=
  ⟨by decide, (c17_emphasis_contents "2 * 3".toList).2.2 (by decide)⟩

/-- Claim C18, the failing input: a code span with the content `a<b` in a
heading. `processHeaders` escapes the heading text, the code span with it, and
`processInlineCode` escapes the content again: the `<code>` element holds
`a&amp;lt;b`. -/
theorem c18_inline_code_in_heading_escaped_twice (ord : MapOrder) :
    ConvertMarkdownToWechat ord NewWechatConverterFixed
        ("# ".toList ++ backtick :: "a<b".toList ++ [backtick]) =
      some ("<h1 ".toList ++ getDefaultStyles.H1Style ++ "><code ".toList ++
          getDefaultStyles.InlineCodeStyle ++ ">a&amp;lt;b</code></h1>".toList,
        NewWechatConverterFixed) := by
  have h : convertStages NewWechatConverterFixed
      ("# ".toList ++ backtick :: "a<b".toList ++ [backtick]) =
      some ("<h1 ".toList ++ getDefaultStyles.H1Style ++ "><code ".toList ++
          getDefaultStyles.InlineCodeStyle ++ ">a&amp;lt;b</code></h1>".toList,
        NewWechatConverterFixed) := by
    decide!
  rw [ConvertMarkdownToWechat_eq, h, Option.map, convertFinish_nil _ _ _ rfl]
  decide!

/-- Claim C19, the failing input: the line `-   a`. The unordered pattern
removes the marker `- ` and does not trim what follows: the `<li>` holds two
spaces and `a`, where the bullet and ordered patterns trim their content. -/
theorem c19_unordered_item_not_trimmed :
    processLists NewWechatConverterFixed "-   a".toList =
      "<ul ".toList ++ getDefaultStyles.ListStyle ++ ">".toList ++ liOpen ++
        "  a</li></ul>".toList ∧
    processLists NewWechatConverterFixed "•   a".toList =
      "<ul ".toList ++ getDefaultStyles.ListStyle ++ ">".toList ++ liOpen ++
        "a</li></ul>".toList ∧
    processLists NewWechatConverterFixed "1.   a".toList =
      "<ol ".toList ++ getDefaultStyles.ListStyle ++ ">".toList ++ liOpen ++
        "a</li></ol>".toList := by
  decide!

/-- With the default styles the text `color: #333` does not occur in the
style of a data cell, so neither replacement changes it. -/
theorem defaultCellStyle_fixed :
    Replace1 getDefaultStyles.TableCellStyle "color: #333".toList
        "color: #d63384; font-family: 'SFMono-Regular', Consolas, monospace".toList =
      getDefaultStyles.TableCellStyle ∧
    Replace1 getDefaultStyles.TableCellStyle "color: #333".toList
        "color: #d63384; font-weight: bold; font-family: 'SFMono-Regular', Consolas, monospace".toList =
      getDefaultStyles.TableCellStyle := by
  decide!

/-- Claim C20, the failing inputs: every data cell. With the default styles
`convertTable` gives every data cell exactly `TableCellStyle`, the cells that
start with `-` or a backtick and the first-column cells with `login` or
`upload` included: the table with the rows `| -v | login |` and
`| login | upload |` has four cells of the ordinary style. -/
theorem c20_no_cell_is_recoloured :
    (∀ (j : Nat) (cell : Str),
      cellStyleOf NewWechatConverterFixed j cell = getDefaultStyles.TableCellStyle) ∧
    convertTable NewWechatConverterFixed
        ["| cmd | x |".toList, "| -v | login |".toList, "| login | upload |".toList] =
      "<table ".toList ++ getDefaultStyles.TableStyle ++ "><tr><th ".toList ++
        getDefaultStyles.TableHeaderStyle ++ ">cmd</th><th ".toList ++
        getDefaultStyles.TableHeaderStyle ++ ">x</th></tr><tr><td ".toList ++
        getDefaultStyles.TableCellStyle ++ ">-v</td><td ".toList ++
        getDefaultStyles.TableCellStyle ++ ">login</td></tr><tr><td ".toList ++
        getDefaultStyles.TableCellStyle ++ ">login</td><td ".toList ++
        getDefaultStyles.TableCellStyle ++ ">upload</td></tr></table>".toList := by
  refine ⟨?_, by decide!⟩
  intro j cell
  have hs : NewWechatConverterFixed.styles.TableCellStyle = getDefaultStyles.TableCellStyle :=
    rfl
  unfold cellStyleOf
  simp only [hs]
  split <;> split <;> simp only [defaultCellStyle_fixed.1, defaultCellStyle_fixed.2]

/-! ### Separator lines and the pipes of a row -/

theorem replaceAllAux_single_nil (x : Char) (s : Str) :
    replaceAllAux [x] [] 0 s = s.filter (fun y => y != x) := by
  induction s with
  | nil => rfl
  | cons c cs ih =>
    by_cases h : c = x
    · subst h
      simp [replaceAllAux, HasPrefix, ih]
    · simp [replaceAllAux, HasPrefix, ih, h]

theorem isTableSeparator_iff (line : Str) :
    isTableSeparator line = true ↔
      (∀ x ∈ line, x = '|' ∨ x = '-' ∨ x = ':' ∨ x = ' ') ∧ '-' ∈ line ∧ '|' ∈ line := by
  simp only [isTableSeparator, ReplaceAll, replaceAllAux_single_nil, Bool.and_eq_true,
    Contains_single, List.all_eq_true, List.mem_filter, Bool.or_eq_true, decide_eq_true_eq,
    bne_iff_ne, ne_eq, and_imp]
  constructor
  · rintro ⟨⟨h1, h2⟩, h3⟩
    refine ⟨fun x hx => ?_, h2.1, h3.1⟩
    by_cases hs : x = ' '
    · exact Or.inr (Or.inr (Or.inr hs))
    · rcases h1 x hx hs with (h | h) | h
      · exact Or.inl h
      · exact Or.inr (Or.inl h)
      · exact Or.inr (Or.inr (Or.inl h))
  · rintro ⟨h1, h2, h3⟩
    refine ⟨⟨fun x hx hs => ?_, h2, by decide⟩, h3, by decide⟩
    rcases h1 x hx with h | h | h | h
    · exact Or.inl (Or.inl h)
    · exact Or.inl (Or.inr h)
    · exact Or.inr h
    · exact absurd h hs

theorem Trim_spec (s : Str) (c : Char) :
    ∃ pre suf, s = pre ++ Trim s c ++ suf ∧ (∀ x ∈ pre, x = c) ∧ (∀ x ∈ suf, x = c) ∧
      (Trim s c).head? ≠ some c ∧ (Trim s c).getLast? ≠ some c := by
  have hlast : (Trim s c).getLast? ≠ some c := by
    intro h
    have h2 := List.head?_dropWhile_not (fun x => x == c) (s.dropWhile (fun x => x == c)).reverse
    simp only [Trim, List.getLast?_reverse] at h
    rw [h] at h2
    simp at h2
  refine ⟨s.takeWhile (fun x => x == c),
    (((s.dropWhile (fun x => x == c)).reverse.takeWhile (fun x => x == c))).reverse, ?_, ?_, ?_,
    ?_, hlast⟩
  · simp only [Trim]
    rw [List.append_assoc, ← List.reverse_append, List.takeWhile_append_dropWhile,
      List.reverse_reverse, List.takeWhile_append_dropWhile]
  · intro x hx
    simpa using takeWhile_all _ _ x hx
  · intro x hx
    rw [List.mem_reverse] at hx
    simpa using takeWhile_all _ _ x hx
  · intro h
    have h2 := List.head?_dropWhile_not (fun x => x == c) s
    have h3 : s.dropWhile (fun x => x == c) =
        Trim s c ++ (((s.dropWhile (fun x => x == c)).reverse.takeWhile
          (fun x => x == c))).reverse := by
      simp only [Trim]
      rw [← List.reverse_append, List.takeWhile_append_dropWhile, List.reverse_reverse]
    rw [h3] at h2
    cases ht : Trim s c with
    | nil => rw [ht] at h; simp at h
    | cons a as =>
      rw [ht] at h h2
      simp at h h2
      simp [h] at h2

/-- Claim C21, counterexample: the row `| a ||` yields one cell, not two. The
trailing pipes are removed together, so the empty field between them is never
seen, and the row is rendered with the single cell `a`. -/
theorem c21_adjacent_pipes_removed :
    Split '|' (Trim "| a ||".toList '|') = [" a ".toList] ∧
    dataRows NewWechatConverterFixed ["| a ||".toList] =
      "<tr><td ".toList ++ NewWechatConverterFixed.styles.TableCellStyle ++
        ">a</td></tr>".toList := by
  constructor
  · decide
  · decide!

/-- Claim C21, amended: `convertTable` obtains the cells of a data row by
removing every leading and every trailing pipe of the row and splitting the rest
at the pipes. The row is a run of pipes, the trimmed row, and a run of pipes, and
the trimmed row neither begins nor ends with a pipe. The row is rendered with one
`<td>` for every field of the split, in order, so the number of `<td>` elements is
the number of fields. -/
theorem c21_row_fields (c : WechatConverter) (header line : Str) (before after : List Str) :
    (∃ pre suf, line = pre ++ Trim line '|' ++ suf ∧ (∀ x ∈ pre, x = '|') ∧
      (∀ x ∈ suf, x = '|') ∧ (Trim line '|').head? ≠ some '|' ∧
      (Trim line '|').getLast? ≠ some '|') ∧
    convertTable c (header :: (before ++ line :: after)) =
      "<table ".toList ++ c.styles.TableStyle ++ ">".toList ++ headerRowSpec c header ++
        before.flatMap (dataRowSpec c) ++
        ("<tr>".toList ++
          ((((Split '|' (Trim line '|')).map TrimSpace).enumFrom 0).map
            (fun p => tdElement c p.1 p.2)).flatten ++ "</tr>".toList) ++
        after.flatMap (dataRowSpec c) ++ "</table>".toList ∧
    ((((Split '|' (Trim line '|')).map TrimSpace).enumFrom 0).map
      (fun p => tdElement c p.1 p.2)).length = (Split '|' (Trim line '|')).length := by
  refine ⟨Trim_spec line '|', ?_, by simp⟩
  simp [convertTable, headerRowSpec, dataRowSpec, rowCells, headerCells_eq, dataRows_eq,
    List.flatMap, List.append_assoc]

/-- Claim C22, counterexample: a line of pipes and dashes that holds a tab is
not a separator line, since only the space character is removed before the
characters are checked. -/
theorem c22_tab_is_not_skipped :
    isTableSeparator ['|', '-', '\t', '-', '|'] = false ∧
    isTableSeparator ['|', '-', ' ', '-', '|'] = true := by
  decide

/-- Claim C22, amended: `isTableSeparator` holds of a line exactly when every
character of the line is a pipe, a dash, a colon or the space character, and the
line holds at least one dash and at least one pipe. -/
theorem c22_separator_iff (line : Str) :
    isTableSeparator line = true ↔
      (∀ x ∈ line, x = '|' ∨ x = '-' ∨ x = ':' ∨ x = ' ') ∧ '-' ∈ line ∧ '|' ∈ line :=
  isTableSeparator_iff line

/-! ### Scanning past text without a match -/

theorem replaceAllAuxP_skip (re : Regexp) (repl : List Str → Str) (w s : Str) :
    replaceAllAuxP re repl w.length (w ++ s) = replaceAllAuxP re repl 0 s := by
  induction w with
  | nil => rfl
  | cons c cs ih => simpa [replaceAllAuxP] using ih

theorem replaceAllAuxP_gap (re : Regexp) (repl : List Str → Str) (pre s : Str)
    (h : ∀ a c b, pre = a ++ c :: b → re (c :: b ++ s) = none) :
    replaceAllAuxP re repl 0 (pre ++ s) = pre ++ replaceAllAuxP re repl 0 s := by
  induction pre with
  | nil => rfl
  | cons c b ih =>
    have h0 : re (c :: b ++ s) = none := h [] c b rfl
    have ih2 := ih (fun a c2 b2 e => h (c :: a) c2 b2 (by rw [e]; rfl))
    have h0b : re (c :: (b ++ s)) = none := h0
    show replaceAllAuxP re repl 0 (c :: (b ++ s)) = c :: (b ++ replaceAllAuxP re repl 0 s)
    rw [replaceAllAuxP, h0b, ih2]

theorem replaceAllAuxP_pre (re : Regexp) (repl : List Str → Str) (pre s : Str)
    (h : ∀ c ∈ pre, ∀ cs, re (c :: cs) = none) :
    replaceAllAuxP re repl 0 (pre ++ s) = pre ++ replaceAllAuxP re repl 0 s := by
  apply replaceAllAuxP_gap
  intro a c b e
  exact h c (by rw [e]; simp) _

theorem replaceAllAuxP_match (re : Regexp) (repl : List Str → Str) (c : Char) (w s : Str)
    (g : List Str) (h : re (c :: w ++ s) = some g) (hg : g.headD [] = c :: w) :
    replaceAllAuxP re repl 0 (c :: w ++ s) = repl g ++ replaceAllAuxP re repl 0 s := by
  have hb : re (c :: (w ++ s)) = some g := h
  show replaceAllAuxP re repl 0 (c :: (w ++ s)) = repl g ++ replaceAllAuxP re repl 0 s
  rw [replaceAllAuxP, hb]
  simp only [hg, List.length_cons, Nat.add_sub_cancel, replaceAllAuxP_skip]

theorem boldRegex_eval (x rest : Str) (hx : x ≠ []) (hs : '*' ∉ x) :
    boldRegex ('*' :: '*' :: x ++ ['*', '*'] ++ rest) =
      some ['*' :: '*' :: x ++ ['*', '*'], x] := by
  have hp : ∀ a ∈ x, (fun y : Char => y != '*') a = true := by
    intro a ha
    simp only [bne_iff_ne, ne_eq]
    rintro rfl
    exact hs ha
  have e : '*' :: '*' :: x ++ ['*', '*'] ++ rest = '*' :: '*' :: (x ++ '*' :: ('*' :: rest)) := by
    simp
  rw [e]
  simp only [boldRegex, takeWhile_append_stop _ x '*' _ hp (by decide),
    dropWhile_append_stop _ x '*' _ hp (by decide)]
  simp [hx]

theorem italicRegex_eval (x rest : Str) (hx : x ≠ []) (hs : '*' ∉ x) :
    italicRegex ('*' :: x ++ ['*'] ++ rest) = some ['*' :: x ++ ['*'], x] := by
  have hp : ∀ a ∈ x, (fun y : Char => y != '*') a = true := by
    intro a ha
    simp only [bne_iff_ne, ne_eq]
    rintro rfl
    exact hs ha
  have e : '*' :: x ++ ['*'] ++ rest = '*' :: (x ++ '*' :: rest) := by simp
  rw [e]
  simp only [italicRegex, takeWhile_append_stop _ x '*' _ hp (by decide),
    dropWhile_append_stop _ x '*' _ hp (by decide)]
  simp [hx]

theorem boldRegex_single_star (c : Char) (r : Str) (hc : c ≠ '*') :
    boldRegex ('*' :: c :: r) = none := by
  simp [boldRegex, hc]

theorem regex_none_of_head (re : Regexp) (x : Char)
    (hre : ∀ c cs g, re (c :: cs) = some g → c = x) (pre : Str) (h : x ∉ pre) :
    ∀ c ∈ pre, ∀ cs, re (c :: cs) = none := by
  intro c hc cs
  cases hr : re (c :: cs) with
  | none => rfl
  | some g => exact absurd (hre c cs g hr ▸ hc) h

/-! ### Lines with a marker -/

theorem TrimSpace_cons_space (t : Str) : TrimSpace (' ' :: t) = TrimSpace t := by
  simp [TrimSpace, List.dropWhile, isSpace]

theorem litMarker_append (m t : Str) : litMarker m (m ++ t) = some t := by
  simp [litMarker, HasPrefix_append]

theorem TrimPrefix_append (m t : Str) : TrimPrefix (m ++ t) m = t := by
  simp [TrimPrefix, HasPrefix_append]

theorem footnoteItems_eq (i : Nat) (us : List Str) :
    footnoteItems i us =
      (us.enumFrom (i + 1)).flatMap (fun p =>
        footnoteOpen ++ "[".toList ++ itoa p.1 ++ "] ".toList ++ EscapeString p.2 ++
          "</p>".toList) := by
  induction us generalizing i with
  | nil => rfl
  | cons u rest ih => simp [footnoteItems, ih, List.enumFrom]

theorem convertStages_some (c : WechatConverter) (md : Str) :
    ∃ html c2, convertStages c md = some (html, c2) :=
  ⟨_, _, convertStages_eq c md⟩

/-! ### Text behind leading characters that no stage touches -/

theorem dropWhile_append_cons (p : Char → Bool) (a : Str) (x : Char) (b : Str)
    (hx : p x = false) : (a ++ x :: b).dropWhile p = a.dropWhile p ++ x :: b := by
  induction a with
  | nil => simp [List.dropWhile, hx]
  | cons c cs ih =>
    by_cases hc : p c = true
    · simp [List.dropWhile, hc, ih]
    · simp [List.dropWhile, hc]

theorem TrimSpace_pre (pre s : Str) (hne : pre ≠ []) (hp : ∀ x ∈ pre, isSpace x = false) :
    ∃ r, TrimSpace (pre ++ s) = pre ++ r := by
  obtain ⟨x, xs, rfl⟩ := List.exists_cons_of_ne_nil hne
  obtain ⟨init, y, hy⟩ : ∃ init y, x :: xs = init ++ [y] :=
    ⟨_, _, (List.dropLast_append_getLast (List.cons_ne_nil x xs)).symm⟩
  have hx : isSpace x = false := hp x (List.mem_cons_self _ _)
  have hyp : isSpace y = false := hp y (by rw [hy]; simp)
  refine ⟨(s.reverse.dropWhile isSpace).reverse, ?_⟩
  unfold TrimSpace
  rw [show (x :: xs ++ s).dropWhile isSpace = x :: xs ++ s by simp [List.dropWhile, hx]]
  rw [hy, List.reverse_append, List.reverse_append, List.reverse_singleton,
    List.singleton_append, dropWhile_append_cons _ _ _ _ hyp]
  simp

theorem isOrphanMarker_of_head (x : Char) (s : Str) (hx : isDigit x = false) :
    isOrphanMarker (x :: s) = false := by
  simp [isOrphanMarker, List.takeWhile, hx]

theorem orderedMarker_of_head (x : Char) (s : Str) (hx : isDigit x = false) :
    orderedMarker (x :: s) = none := by
  simp [orderedMarker, List.takeWhile, hx]

theorem litMarker_of_head (x y : Char) (s m : Str) (h : x ≠ y) :
    litMarker (y :: m) (x :: s) = none := by
  simp [litMarker, HasPrefix_cons_ne x y s m h]

theorem renderLinks_gap (style : Str) (n : Nat) (pre s : Str)
    (h : ∀ a c b, pre = a ++ c :: b → linkRegex (c :: b ++ s) = none) :
    renderLinks style 0 n (pre ++ s) = pre ++ renderLinks style 0 n s := by
  induction pre with
  | nil => rfl
  | cons c b ih =>
    have h0 : linkRegex (c :: (b ++ s)) = none := h [] c b rfl
    have ih2 := ih (fun a c2 b2 e => h (c :: a) c2 b2 (by rw [e]; rfl))
    show renderLinks style 0 n (c :: (b ++ s)) = c :: (b ++ renderLinks style 0 n s)
    rw [renderLinks, h0, ih2]

theorem linkURLs_gap (pre s : Str)
    (h : ∀ a c b, pre = a ++ c :: b → linkRegex (c :: b ++ s) = none) :
    linkURLs 0 (pre ++ s) = linkURLs 0 s := by
  induction pre with
  | nil => rfl
  | cons c b ih =>
    have h0 : linkRegex (c :: (b ++ s)) = none := h [] c b rfl
    have ih2 := ih (fun a c2 b2 e => h (c :: a) c2 b2 (by rw [e]; rfl))
    show linkURLs 0 (c :: (b ++ s)) = linkURLs 0 s
    rw [linkURLs, h0, ih2]

theorem gap_of_head (re : Regexp) (x : Char)
    (hre : ∀ c cs g, re (c :: cs) = some g → c = x) (pre s : Str) (h : x ∉ pre) :
    ∀ a c b, pre = a ++ c :: b → re (c :: b ++ s) = none := by
  intro a c b e
  exact regex_none_of_head re x hre pre h c (by rw [e]; simp) _

theorem imageRegex_head (c : Char) (cs : Str) (g : List Str)
    (h : imageRegex (c :: cs) = some g) : c = '!' := by
  unfold imageRegex at h
  split at h
  · rename_i c0 c1 r heq
    split at h
    · rename_i hc
      simp only [List.cons.injEq] at heq
      rw [heq.1]
      exact hc.1
    · simp at h
  · simp at h

/-! ### Documents of links -/

theorem linkRegex_eval (t u rest : Str) (ht : t ≠ []) (ht2 : ']' ∉ t) (hu : u ≠ [])
    (hu2 : ')' ∉ u) : linkRegex (linkText t u ++ rest) = some [linkText t u, t, u] := by
  have hp : ∀ a ∈ t, (fun y : Char => y != ']') a = true := by
    intro a ha
    simp only [bne_iff_ne, ne_eq]
    rintro rfl
    exact ht2 ha
  have hq : ∀ a ∈ u, (fun y : Char => y != ')') a = true := by
    intro a ha
    simp only [bne_iff_ne, ne_eq]
    rintro rfl
    exact hu2 ha
  have e : linkText t u ++ rest = '[' :: (t ++ ']' :: ('(' :: (u ++ ')' :: rest))) := by
    simp [linkText]
  rw [e]
  simp only [linkRegex, takeWhile_append_stop _ t ']' _ hp (by decide),
    dropWhile_append_stop _ t ']' _ hp (by decide),
    takeWhile_append_stop _ u ')' _ hq (by decide),
    dropWhile_append_stop _ u ')' _ hq (by decide)]
  simp [ht, hu, linkText]

theorem linkRegex_decomp (s : Str) (g : List Str) (h : linkRegex s = some g) :
    ∃ t u rest, s = linkText t u ++ rest ∧ t ≠ [] ∧ ']' ∉ t ∧ u ≠ [] ∧ ')' ∉ u := by
  unfold linkRegex at h
  cases s with
  | nil => simp at h
  | cons c r =>
    simp only at h
    split at h
    · rename_i hc
      subst hc
      split at h
      · rename_i c1 c2 r2 hd
        split at h
        · rename_i c3 r3 hd2
          split at h
          · rename_i hcond
            obtain ⟨h1, h2, h3, h4, h5⟩ := hcond
            subst h1 h2 h3
            refine ⟨_, _, r3, ?_, h4, not_mem_takeWhile_ne ']' r, h5,
              not_mem_takeWhile_ne ')' r2⟩
            have e1 := List.takeWhile_append_dropWhile (fun x => x != ']') r
            have e2 := List.takeWhile_append_dropWhile (fun x => x != ')') r2
            rw [hd] at e1
            rw [hd2] at e2
            simp only [linkText, List.cons_append, List.append_assoc, List.nil_append,
              List.cons.injEq, true_and]
            rw [e2]
            exact e1.symm
          · simp at h
        · simp at h
      · simp at h
    · simp at h

theorem renderLinks_skip (style : Str) (n : Nat) (w s : Str) :
    renderLinks style w.length n (w ++ s) = renderLinks style 0 n s := by
  induction w with
  | nil => rfl
  | cons c cs ih => simpa [renderLinks] using ih

theorem linkURLs_skip (w s : Str) : linkURLs w.length (w ++ s) = linkURLs 0 s := by
  induction w with
  | nil => rfl
  | cons c cs ih => simpa [linkURLs] using ih

theorem renderLinks_link (style : Str) (n : Nat) (t u rest : Str) (ht : t ≠ [])
    (ht2 : ']' ∉ t) (hu : u ≠ []) (hu2 : ')' ∉ u) :
    renderLinks style 0 n (linkText t u ++ rest) =
      ("<span ".toList ++ style ++ ">".toList ++ EscapeString t ++
        "</span><sup>[".toList ++ itoa (n + 1) ++ "]</sup>".toList) ++
        renderLinks style 0 (n + 1) rest := by
  have h := linkRegex_eval t u rest ht ht2 hu hu2
  have e : linkText t u ++ rest = '[' :: ((t ++ [']', '('] ++ u ++ [')']) ++ rest) := by
    simp [linkText]
  rw [e] at h ⊢
  rw [renderLinks, h]
  have hl : ((['[' :: t ++ [']', '('] ++ u ++ [')'], t, u] : List Str).headD []).length - 1 =
      (t ++ [']', '('] ++ u ++ [')']).length := by
    simp
  simp only [linkText] at hl ⊢
  rw [hl, renderLinks_skip]
  rfl

theorem linkURLs_link (t u rest : Str) (ht : t ≠ []) (ht2 : ']' ∉ t) (hu : u ≠ [])
    (hu2 : ')' ∉ u) : linkURLs 0 (linkText t u ++ rest) = u :: linkURLs 0 rest := by
  have h := linkRegex_eval t u rest ht ht2 hu hu2
  have e : linkText t u ++ rest = '[' :: ((t ++ [']', '('] ++ u ++ [')']) ++ rest) := by
    simp [linkText]
  rw [e] at h ⊢
  rw [linkURLs, h]
  have hl : ((['[' :: t ++ [']', '('] ++ u ++ [')'], t, u] : List Str).headD []).length - 1 =
      (t ++ [']', '('] ++ u ++ [')']).length := by
    simp
  simp only [linkText] at hl ⊢
  rw [hl, linkURLs_skip]
  rfl

theorem noLinkStart_spec (pre s : Str) (h : noLinkStart pre s = true) :
    ∀ a c b, pre = a ++ c :: b → linkRegex (c :: b ++ s) = none := by
  induction pre with
  | nil =>
    intro a c b e
    simp at e
  | cons x xs ih =>
    simp only [noLinkStart, Bool.and_eq_true, Option.isNone_iff_eq_none] at h
    intro a c b e
    cases a with
    | nil =>
      simp only [List.nil_append, List.cons.injEq] at e
      rw [← e.1, ← e.2]
      exact h.1
    | cons y ys =>
      simp only [List.cons_append, List.cons.injEq] at e
      exact ih h.2 ys c b e.2

theorem links_doc (style : Str) (segs : List (Str × Str × Str)) (last : Str) (n : Nat)
    (h : leftmostLinks segs last = true) :
    renderLinks style 0 n (linksDoc segs last) = linksRendered style n segs last ∧
      linkURLs 0 (linksDoc segs last) = segs.map (fun s => s.2.2) := by
  induction segs generalizing n with
  | nil =>
    have hg := noLinkStart_spec last [] h
    have e1 := renderLinks_gap style n last [] hg
    have e2 := linkURLs_gap last [] hg
    simp only [List.append_nil] at e1 e2
    exact ⟨by simpa [linksDoc, linksRendered, renderLinks] using e1,
      by simpa [linksDoc, linkURLs] using e2⟩
  | cons seg segs ih =>
    obtain ⟨pre, t, u⟩ := seg
    simp only [leftmostLinks, Bool.and_eq_true, decide_eq_true_eq] at h
    obtain ⟨⟨⟨⟨⟨ht, ht2⟩, hu⟩, hu2⟩, hgap⟩, hrest⟩ := h
    have hg := noLinkStart_spec _ _ hgap
    obtain ⟨ih1, ih2⟩ := ih (n + 1) hrest
    constructor
    · simp only [linksDoc, linksRendered]
      rw [List.append_assoc, renderLinks_gap style n pre _ hg,
        renderLinks_link style n t u _ ht ht2 hu hu2, ih1]
      simp only [List.append_assoc]
    · simp only [linksDoc, List.map_cons]
      rw [List.append_assoc, linkURLs_gap pre _ hg, linkURLs_link t u _ ht ht2 hu hu2, ih2]

theorem leftmost_decomp (n : Nat) (text : Str) (hlen : text.length ≤ n) :
    ∃ segs last, text = linksDoc segs last ∧ leftmostLinks segs last = true := by
  induction n generalizing text with
  | zero =>
    have : text = [] := List.length_eq_zero.mp (Nat.le_zero.mp hlen)
    exact ⟨[], [], by rw [this]; rfl, rfl⟩
  | succ n ih =>
    cases text with
    | nil => exact ⟨[], [], rfl, rfl⟩
    | cons c cs =>
      cases hr : linkRegex (c :: cs) with
      | none =>
        obtain ⟨segs, last, e, hl⟩ := ih cs (by simpa using hlen)
        cases segs with
        | nil =>
          refine ⟨[], c :: last, by rw [e]; rfl, ?_⟩
          simp only [linksDoc] at e
          simp only [leftmostLinks, noLinkStart, List.append_nil, Bool.and_eq_true,
            Option.isNone_iff_eq_none]
          exact ⟨by rw [← e]; exact hr, hl⟩
        | cons seg segs =>
          obtain ⟨pre, t, u⟩ := seg
          refine ⟨(c :: pre, t, u) :: segs, last, by rw [e]; simp [linksDoc], ?_⟩
          simp only [leftmostLinks, Bool.and_eq_true, decide_eq_true_eq] at hl ⊢
          obtain ⟨⟨⟨⟨⟨ht, ht2⟩, hu⟩, hu2⟩, hgap⟩, hrest⟩ := hl
          refine ⟨⟨⟨⟨⟨ht, ht2⟩, hu⟩, hu2⟩, ?_⟩, hrest⟩
          simp only [noLinkStart, Bool.and_eq_true, Option.isNone_iff_eq_none]
          refine ⟨?_, hgap⟩
          have e2 : c :: pre ++ (linkText t u ++ linksDoc segs last) = c :: cs := by
            rw [e]
            simp [linksDoc]
          rw [e2]
          exact hr
      | some g =>
        obtain ⟨t, u, rest, e, ht, ht2, hu, hu2⟩ := linkRegex_decomp _ g hr
        have hlen2 : rest.length ≤ n := by
          have := congrArg List.length e
          simp [linkText] at this hlen
          omega
        obtain ⟨segs, last, e3, hl⟩ := ih rest hlen2
        refine ⟨([], t, u) :: segs, last, by rw [e, e3]; simp [linksDoc], ?_⟩
        simp only [leftmostLinks, Bool.and_eq_true, decide_eq_true_eq, noLinkStart]
        exact ⟨⟨⟨⟨⟨ht, ht2⟩, hu⟩, hu2⟩, trivial⟩, hl⟩

/-- Claim C23: every text is a document of its leftmost non-overlapping links
`[t_i](u_i)`, every text `t_i` non-empty without `]` and every address `u_i`
non-empty without `)`. On such a document `processLinks`, started with `n`
footnotes, replaces the `i`-th link by the span with the link style and the
escaped `t_i` followed by the superscript marker `[n + i]`, leaves everything
outside the links unchanged, and appends `u_1 .. u_k` to the footnotes in document
order. Started with no footnotes, the markers are `1 .. k` and the footnotes are
exactly `u_1 .. u_k`. -/
theorem c23_links_in_order (c : WechatConverter) (text : Str) :
    (∃ segs last, text = linksDoc segs last ∧ leftmostLinks segs last = true) ∧
    ∀ segs last, text = linksDoc segs last → leftmostLinks segs last = true →
      processLinks c text =
        some (linksRendered c.styles.LinkStyle c.footnotes.length segs last,
          { c with footnotes := c.footnotes ++ segs.map (fun s => s.2.2) }) ∧
      (c.footnotes = [] →
        processLinks c text =
          some (linksRendered c.styles.LinkStyle 0 segs last,
            { c with footnotes := segs.map (fun s => s.2.2) })) := by
  refine ⟨leftmost_decomp text.length text (Nat.le_refl _), ?_⟩
  intro segs last e hl
  obtain ⟨h1, h2⟩ := links_doc c.styles.LinkStyle segs last c.footnotes.length hl
  have hp : processLinks c text =
      some (linksRendered c.styles.LinkStyle c.footnotes.length segs last,
        { c with footnotes := c.footnotes ++ segs.map (fun s => s.2.2) }) := by
    rw [processLinks_eq, e, h1, h2]
  refine ⟨hp, ?_⟩
  intro h0
  rw [hp, h0]
  rfl

/-! ### Headings -/

theorem matchLine_eq (m : Str) (repl : Str → Str) (l : Str) :
    (match litMarker m l with
      | some (_ :: _) => repl l
      | _ => l) = if HasPrefix l m ∧ m.length < l.length then repl l else l := by
  unfold litMarker
  by_cases h : HasPrefix l m = true
  · simp only [h, if_true, true_and]
    cases hd : l.drop m.length with
    | nil =>
      have := List.drop_eq_nil_iff.mp hd
      simp [Nat.not_lt.mpr this]
    | cons x t =>
      have : m.length < l.length := by
        by_contra hc
        have := List.drop_eq_nil_iff.mpr (Nat.not_lt.mp hc)
        rw [this] at hd
        exact absurd hd (by simp)
      simp [this]
  · simp [h]

theorem not_mem_EscapeString_newline (s : Str) (h : '\n' ∉ s) : '\n' ∉ EscapeString s := by
  intro hm
  rcases mem_EscapeString s '\n' hm with h1 | h1
  · exact h h1
  · revert h1
    decide

theorem not_mem_headingElement (tag style t : Str) (h1 : '\n' ∉ tag) (h2 : '\n' ∉ style)
    (h3 : '\n' ∉ t) : '\n' ∉ headingElement tag style t := by
  have h4 : '\n' ∉ EscapeString (TrimSpace t) :=
    not_mem_EscapeString_newline _ (fun h => h3 (mem_of_mem_TrimSpace _ _ h))
  simp only [headingElement, List.mem_append, not_or]
  refine ⟨⟨⟨⟨⟨⟨⟨⟨?_, h1⟩, ?_⟩, h2⟩, ?_⟩, h4⟩, ?_⟩, h1⟩, ?_⟩ <;> decide

theorem not_mem_drop (n : Nat) (s : Str) (x : Char) (h : x ∉ s) : x ∉ s.drop n :=
  fun hm => h (List.mem_of_mem_drop hm)

theorem headerRepl_eq (hashes tag style l : Str) (h : HasPrefix l (hashes ++ [' ']) = true) :
    "<".toList ++ tag ++ " ".toList ++ style ++ ">".toList ++
      EscapeString (TrimSpace (TrimPrefix l hashes)) ++ "</".toList ++ tag ++ ">".toList =
      headingElement tag style (l.drop (hashes ++ [' ']).length) := by
  obtain ⟨r, rfl⟩ := (HasPrefix_iff _ _).mp h
  have d : (hashes ++ [' '] ++ r).drop (hashes ++ [' ']).length = r := List.drop_left _ _
  have t : TrimPrefix (hashes ++ [' '] ++ r) hashes = ' ' :: r := by
    rw [List.append_assoc]
    exact TrimPrefix_append _ _
  unfold headingElement
  rw [d, t, TrimSpace_cons_space]

theorem headerPass_eq (hashes tag style m opn cls : Str) (hm : m = hashes ++ [' '])
    (ho : opn = "<".toList ++ tag ++ " ".toList) (hc : cls = "</".toList ++ tag ++ ">".toList)
    (l : Str) :
    (match litMarker m l with
      | some (_ :: _) => opn ++ style ++ ">".toList ++
        EscapeString (TrimSpace (TrimPrefix l hashes)) ++ cls
      | _ => l) = headingPass m tag style l := by
  subst hm ho hc
  rw [matchLine_eq _ (fun l => "<".toList ++ tag ++ " ".toList ++ style ++ ">".toList ++
        EscapeString (TrimSpace (TrimPrefix l hashes)) ++ ("</".toList ++ tag ++ ">".toList))]
  unfold headingPass
  by_cases h : HasPrefix l (hashes ++ [' ']) = true ∧ (hashes ++ [' ']).length < l.length
  · rw [if_pos h, if_pos h, ← headerRepl_eq hashes tag style l h.1]
    simp only [List.append_assoc]
  · rw [if_neg h, if_neg h]

theorem not_mem_headingPass (m tag style l : Str) (h1 : '\n' ∉ tag) (h2 : '\n' ∉ style)
    (h3 : '\n' ∉ l) : '\n' ∉ headingPass m tag style l := by
  unfold headingPass
  split
  · exact not_mem_headingElement _ _ _ h1 h2 (not_mem_drop _ _ _ h3)
  · exact h3

theorem headingElement_not_marker (tag style t m : Str) (hm : HasPrefix m ['#'] = true) :
    ¬ (HasPrefix (headingElement tag style t) m = true ∧
      m.length < (headingElement tag style t).length) := by
  rintro ⟨h, _⟩
  obtain ⟨r, hr⟩ := (HasPrefix_iff _ _).mp h
  obtain ⟨r2, rfl⟩ := (HasPrefix_iff _ _).mp hm
  simp [headingElement] at hr

theorem headingPass_element (tag style t m tag2 style2 : Str)
    (hm : HasPrefix m ['#'] = true) :
    headingPass m tag2 style2 (headingElement tag style t) = headingElement tag style t := by
  unfold headingPass
  rw [if_neg (headingElement_not_marker _ _ _ _ hm)]

theorem headingPasses_eq (c : WechatConverter) (l : Str) :
    headingPass "### ".toList "h3".toList c.styles.H3Style
      (headingPass "## ".toList "h2".toList c.styles.H2Style
        (headingPass "# ".toList "h1".toList c.styles.H1Style l)) = headingLine c l := by
  unfold headingLine
  by_cases h1 : HasPrefix l "# ".toList = true ∧ 2 < l.length
  · rw [if_pos h1]
    have e : headingPass "# ".toList "h1".toList c.styles.H1Style l =
        headingElement "h1".toList c.styles.H1Style (l.drop 2) := by
      unfold headingPass
      exact if_pos h1
    rw [e, headingPass_element _ _ _ "## ".toList _ _ rfl,
      headingPass_element _ _ _ "### ".toList _ _ rfl]
  · rw [if_neg h1]
    have e : headingPass "# ".toList "h1".toList c.styles.H1Style l = l := by
      unfold headingPass
      exact if_neg h1
    rw [e]
    by_cases h2 : HasPrefix l "## ".toList = true ∧ 3 < l.length
    · rw [if_pos h2]
      have e2 : headingPass "## ".toList "h2".toList c.styles.H2Style l =
          headingElement "h2".toList c.styles.H2Style (l.drop 3) := by
        unfold headingPass
        exact if_pos h2
      rw [e2, headingPass_element _ _ _ "### ".toList _ _ rfl]
    · rw [if_neg h2]
      have e2 : headingPass "## ".toList "h2".toList c.styles.H2Style l = l := by
        unfold headingPass
        exact if_neg h2
      rw [e2]
      rfl

theorem processHeaders_Join (c : WechatConverter) (ls : List Str) (hne : ls ≠ [])
    (hn : ∀ l ∈ ls, '\n' ∉ l) (hs1 : '\n' ∉ c.styles.H1Style)
    (hs2 : '\n' ∉ c.styles.H2Style) :
    processHeaders c (Join ['\n'] ls) = Join ['\n'] (ls.map (headingLine c)) := by
  have e1 := headerPass_eq "#".toList "h1".toList c.styles.H1Style "# ".toList "<h1 ".toList
    "</h1>".toList rfl rfl rfl
  have e2 := headerPass_eq "##".toList "h2".toList c.styles.H2Style "## ".toList "<h2 ".toList
    "</h2>".toList rfl rfl rfl
  have e3 := headerPass_eq "###".toList "h3".toList c.styles.H3Style "### ".toList
    "<h3 ".toList "</h3>".toList rfl rfl rfl
  have p1 : replaceLines (litMarker "# ".toList) (fun m =>
      "<h1 ".toList ++ c.styles.H1Style ++ ">".toList ++
        EscapeString (TrimSpace (TrimPrefix m "#".toList)) ++ "</h1>".toList) (Join ['\n'] ls) =
      Join ['\n'] (ls.map (headingPass "# ".toList "h1".toList c.styles.H1Style)) := by
    rw [replaceLines_Join _ _ ls hne hn]
    congr 1
    apply List.map_congr_left
    intro l _
    exact e1 l
  have n1 : ∀ l ∈ ls.map (headingPass "# ".toList "h1".toList c.styles.H1Style), '\n' ∉ l := by
    intro l hl
    obtain ⟨a, ha, rfl⟩ := List.mem_map.mp hl
    exact not_mem_headingPass _ _ _ _ (by decide) hs1 (hn a ha)
  have p2 : ∀ ls2 : List Str, ls2 ≠ [] → (∀ l ∈ ls2, '\n' ∉ l) →
      replaceLines (litMarker "## ".toList) (fun m =>
      "<h2 ".toList ++ c.styles.H2Style ++ ">".toList ++
        EscapeString (TrimSpace (TrimPrefix m "##".toList)) ++ "</h2>".toList)
        (Join ['\n'] ls2) =
      Join ['\n'] (ls2.map (headingPass "## ".toList "h2".toList c.styles.H2Style)) := by
    intro ls2 hne2 hn2
    rw [replaceLines_Join _ _ ls2 hne2 hn2]
    congr 1
    apply List.map_congr_left
    intro l _
    exact e2 l
  have p3 : ∀ ls2 : List Str, ls2 ≠ [] → (∀ l ∈ ls2, '\n' ∉ l) →
      replaceLines (litMarker "### ".toList) (fun m =>
      "<h3 ".toList ++ c.styles.H3Style ++ ">".toList ++
        EscapeString (TrimSpace (TrimPrefix m "###".toList)) ++ "</h3>".toList)
        (Join ['\n'] ls2) =
      Join ['\n'] (ls2.map (headingPass "### ".toList "h3".toList c.styles.H3Style)) := by
    intro ls2 hne2 hn2
    rw [replaceLines_Join _ _ ls2 hne2 hn2]
    congr 1
    apply List.map_congr_left
    intro l _
    exact e3 l
  unfold processHeaders
  simp only []
  rw [p1, p2 _ (by simpa using hne) n1, p3 _ (by simpa using hne)
    (by
      intro l hl
      obtain ⟨a, ha, rfl⟩ := List.mem_map.mp hl
      exact not_mem_headingPass _ _ _ _ (by decide) hs2 (n1 a ha)),
    List.map_map, List.map_map]
  congr 1
  apply List.map_congr_left
  intro l _
  exact headingPasses_eq c l

/-! ### A line of hashes -/

theorem replaceLines_single (marker : Str → Option Str) (repl : Str → Str) (l : Str)
    (hn : '\n' ∉ l) (h : marker l = none) : replaceLines marker repl l = l := by
  have := replaceLines_none marker repl [l] (by simp) (by simpa using hn) (by simpa using h)
  simpa [Join] using this

theorem processHeaders_four (c : WechatConverter) (t : Str) (hn : '\n' ∉ t) :
    processHeaders c ('#' :: '#' :: '#' :: '#' :: t) = '#' :: '#' :: '#' :: '#' :: t := by
  have hl : '\n' ∉ '#' :: '#' :: '#' :: '#' :: t := by
    simp only [List.mem_cons, not_or]
    exact ⟨by decide, by decide, by decide, by decide, hn⟩
  unfold processHeaders
  simp only []
  rw [replaceLines_single _ _ _ hl (by simp [litMarker, HasPrefix]),
    replaceLines_single _ _ _ hl (by simp [litMarker, HasPrefix]),
    replaceLines_single _ _ _ hl (by simp [litMarker, HasPrefix])]

theorem processQuotes_hash (c : WechatConverter) (t : Str) (hn : '\n' ∉ t) :
    processQuotes c ('#' :: t) = '#' :: t := by
  have hl : '\n' ∉ '#' :: t := by
    simp only [List.mem_cons, not_or]
    exact ⟨by decide, hn⟩
  unfold processQuotes
  exact replaceLines_single _ _ _ hl (litMarker_of_head _ _ _ _ (by decide))

theorem processLists_hash (c : WechatConverter) (t : Str) (hn : '\n' ∉ t) :
    processLists c ('#' :: t) = '#' :: t := by
  have hl : '\n' ∉ '#' :: t := by
    simp only [List.mem_cons, not_or]
    exact ⟨by decide, hn⟩
  have hu : unorderedMarker ('#' :: t) = none := by
    cases t <;> simp [unorderedMarker]
  have hb : litMarker "•".toList ('#' :: t) = none := litMarker_of_head '#' '•' t [] (by decide)
  unfold processLists
  simp only []
  rw [replaceLines_single _ _ _ hl hb,
    replaceLines_single _ _ _ hl hu,
    replaceLines_single _ _ _ hl (orderedMarker_of_head _ _ (by decide))]

theorem processTables_single (c : WechatConverter) (l : Str) (hn : '\n' ∉ l) :
    processTables c l = TrimSpace l := by
  simp [processTables, Split_of_not_mem _ _ hn, tablesLoop, Join]

theorem codeBlockRegex_newline (s : Str) (g : List Str) (h : codeBlockRegex s = some g) :
    '\n' ∈ s := by
  obtain ⟨lang, code, rest, _, hs, _⟩ := codeBlockRegex_some s g h
  rw [hs]
  simp

theorem codeBlockRegex_none_of_line (s : Str) (hn : '\n' ∉ s) :
    ∀ c cs, (c :: cs) <:+ s → codeBlockRegex (c :: cs) = none := by
  intro c cs hs
  cases hr : codeBlockRegex (c :: cs) with
  | none => rfl
  | some g => exact absurd (hs.subset (codeBlockRegex_newline _ g hr)) hn

theorem linkStageText_hashes (c : WechatConverter) (t : Str) (hn : '\n' ∉ t) :
    linkStageText c ('#' :: '#' :: '#' :: '#' :: t) = TrimSpace ('#' :: '#' :: '#' :: '#' :: t) ∧
      extractEntries c.styles.CodeBlockStyle 0 0
        (preprocessText ('#' :: '#' :: '#' :: '#' :: t)) = [] := by
  have hl : '\n' ∉ '#' :: '#' :: '#' :: '#' :: t := by
    simp only [List.mem_cons, not_or]
    exact ⟨by decide, by decide, by decide, by decide, hn⟩
  obtain ⟨r, hr⟩ := TrimSpace_pre ['#', '#', '#', '#'] t (by simp) (by decide)
  have hr2 : TrimSpace ('#' :: '#' :: '#' :: '#' :: t) = '#' :: '#' :: '#' :: '#' :: r := hr
  have hpre : preprocessText ('#' :: '#' :: '#' :: '#' :: t) = '#' :: '#' :: '#' :: '#' :: t := by
    have := preprocessText_Join ['#' :: '#' :: '#' :: '#' :: t] (by simp)
      (by simpa using hl)
      (by
        intro l hl2
        rw [List.mem_singleton.mp hl2, hr2]
        exact ⟨by simp, isOrphanMarker_of_head _ _ (by decide)⟩)
    simpa [Join] using this
  have hnr : '\n' ∉ '#' :: '#' :: '#' :: r := by
    intro hm
    have h2 : '\n' ∈ TrimSpace ('#' :: '#' :: '#' :: '#' :: t) := by
      rw [hr2]
      exact List.mem_cons_of_mem _ hm
    exact hl (mem_of_mem_TrimSpace _ _ h2)
  refine ⟨?_, ?_⟩
  · unfold linkStageText
    rw [hpre, extractText_none 0 _ (codeBlockRegex_none_of_line _ hl),
      processHeaders_four c t hn, processQuotes_hash c _ (fun hm => hl (List.mem_cons_of_mem _ hm)),
      processTables_single c _ hl, hr2, processLists_hash c _ hnr]
  · rw [hpre, extractEntries_none _ 0 _ (codeBlockRegex_none_of_line _ hl)]

/-! ### Stages that keep a line a line -/

theorem mem_of_mem_takeWhile (p : Char → Bool) (s : Str) (x : Char)
    (h : x ∈ s.takeWhile p) : x ∈ s :=
  (List.takeWhile_prefix p).subset h

theorem linkRegex_group (s : Str) (g : List Str) (h : linkRegex s = some g) :
    ∀ x ∈ g.getD 1 [], x ∈ s := by
  obtain ⟨t, u, rest, e, ht, ht2, hu, hu2⟩ := linkRegex_decomp s g h
  rw [e, linkRegex_eval t u rest ht ht2 hu hu2] at h
  simp only [Option.some.injEq] at h
  rw [← h, e]
  intro x hx
  simp only [List.getD_cons_succ, List.getD_cons_zero] at hx
  simp [linkText, hx]

theorem imageRegex_group (s : Str) (g : List Str) (h : imageRegex s = some g) :
    (∀ x ∈ g.getD 1 [], x ∈ s) ∧ (∀ x ∈ g.getD 2 [], x ∈ s) := by
  unfold imageRegex at h
  split at h
  · rename_i c0 c r
    split at h
    · split at h
      · rename_i c1 c2 r2 hd
        split at h
        · simp only at h
          split at h
          · simp only [Option.some.injEq] at h
            rw [← h]
            have h2 : ∀ x ∈ r2, x ∈ r := by
              intro x hx
              apply mem_of_mem_dropWhile (fun x => x != ']') r
              rw [hd]
              exact List.mem_cons_of_mem _ (List.mem_cons_of_mem _ hx)
            constructor
            · intro x hx
              simp only [List.getD_cons_succ, List.getD_cons_zero] at hx
              exact List.mem_cons_of_mem _ (List.mem_cons_of_mem _ (mem_of_mem_takeWhile _ _ _ hx))
            · intro x hx
              simp only [List.getD_cons_succ, List.getD_cons_zero] at hx
              exact List.mem_cons_of_mem _ (List.mem_cons_of_mem _
                (h2 x (mem_of_mem_takeWhile _ _ _ hx)))
          · simp at h
        · simp at h
      · simp at h
    · simp at h
  · simp at h

theorem inlineCodeRegex_group (s : Str) (g : List Str) (h : inlineCodeRegex s = some g) :
    ∀ x ∈ g.headD [], x ∈ s := by
  unfold inlineCodeRegex at h
  cases s with
  | nil => simp at h
  | cons c r =>
    simp only at h
    split at h
    · rename_i hc
      split at h
      · rename_i d r2 hd
        split at h
        · simp only [Option.some.injEq] at h
          rw [← h]
          intro x hx
          simp only [List.headD_cons, List.cons_append, List.mem_cons, List.mem_append,
            List.mem_singleton, List.not_mem_nil, or_false] at hx
          rcases hx with hx | hx | hx
          · rw [hx, hc]
            exact List.mem_cons_self _ _
          · exact List.mem_cons_of_mem _ (mem_of_mem_takeWhile _ _ _ hx)
          · rw [hx, ← hc]
            exact List.mem_cons_self _ _
        · simp at h
      · simp at h
    · simp at h

theorem boldRegex_group (s : Str) (g : List Str) (h : boldRegex s = some g) :
    ∀ x ∈ g.getD 1 [], x ∈ s := by
  unfold boldRegex at h
  split at h
  · rename_i c0 c r
    split at h
    · split at h
      · simp only at h
        split at h
        · simp only [Option.some.injEq] at h
          rw [← h]
          intro x hx
          simp only [List.getD_cons_succ, List.getD_cons_zero] at hx
          exact List.mem_cons_of_mem _ (List.mem_cons_of_mem _ (mem_of_mem_takeWhile _ _ _ hx))
        · simp at h
      · simp at h
    · simp at h
  · simp at h

theorem italicRegex_group (s : Str) (g : List Str) (h : italicRegex s = some g) :
    ∀ x ∈ g.getD 1 [], x ∈ s := by
  unfold italicRegex at h
  cases s with
  | nil => simp at h
  | cons c r =>
    simp only at h
    split at h
    · split at h
      · split at h
        · simp only [Option.some.injEq] at h
          rw [← h]
          intro x hx
          simp only [List.getD_cons_succ, List.getD_cons_zero] at hx
          exact List.mem_cons_of_mem _ (mem_of_mem_takeWhile _ _ _ hx)
        · simp at h
      · simp at h
    · simp at h

theorem replaceAllAuxP_not_mem (re : Regexp) (repl : List Str → Str) (x : Char) (s : Str)
    (k : Nat) (h : ∀ t g, x ∉ t → re t = some g → x ∉ repl g) (hs : x ∉ s) :
    x ∉ replaceAllAuxP re repl k s := by
  induction s generalizing k with
  | nil => simp [replaceAllAuxP]
  | cons c cs ih =>
    have hcs : x ∉ cs := fun hm => hs (List.mem_cons_of_mem _ hm)
    cases k with
    | succ k =>
      simp only [replaceAllAuxP]
      exact ih k hcs
    | zero =>
      simp only [replaceAllAuxP]
      cases hr : re (c :: cs) with
      | none =>
        simp only [List.mem_cons, not_or]
        exact ⟨fun e => hs (e ▸ List.mem_cons_self _ _), ih 0 hcs⟩
      | some g =>
        simp only [List.mem_append, not_or]
        exact ⟨h _ g hs hr, ih _ hcs⟩

theorem not_mem_toDigitsCore_newline (fuel n : Nat) (ds : Str) (h : '\n' ∉ ds) :
    '\n' ∉ Nat.toDigitsCore 10 fuel n ds := by
  induction fuel generalizing n ds with
  | zero => simpa [Nat.toDigitsCore] using h
  | succ fuel ih =>
    have hd : '\n' ≠ Nat.digitChar (n % 10) := by
      have hlt : n % 10 < 10 := Nat.mod_lt _ (by decide)
      generalize n % 10 = d at hlt
      interval_cases d <;> decide
    have hcons : '\n' ∉ Nat.digitChar (n % 10) :: ds := by
      simp only [List.mem_cons, not_or]
      exact ⟨hd, h⟩
    simp only [Nat.toDigitsCore]
    split
    · exact hcons
    · exact ih _ _ hcons

theorem not_mem_itoa_newline (n : Nat) : '\n' ∉ itoa n :=
  not_mem_toDigitsCore_newline _ _ _ (by simp)

theorem renderLinks_not_mem (style : Str) (s : Str) (k n : Nat) (hst : '\n' ∉ style)
    (hs : '\n' ∉ s) : '\n' ∉ renderLinks style k n s := by
  induction s generalizing k n with
  | nil => simp [renderLinks]
  | cons c cs ih =>
    have hcs : '\n' ∉ cs := fun hm => hs (List.mem_cons_of_mem _ hm)
    cases k with
    | succ k =>
      simp only [renderLinks]
      exact ih k n hcs
    | zero =>
      simp only [renderLinks]
      cases hr : linkRegex (c :: cs) with
      | none =>
        simp only [List.mem_cons, not_or]
        exact ⟨fun e => hs (e ▸ List.mem_cons_self _ _), ih 0 n hcs⟩
      | some g =>
        have hg : '\n' ∉ EscapeString (g.getD 1 []) :=
          not_mem_EscapeString_newline _ (fun hm => hs (linkRegex_group _ g hr _ hm))
        simp only [List.mem_append, not_or]
        refine ⟨⟨⟨⟨⟨⟨⟨?_, hst⟩, ?_⟩, hg⟩, ?_⟩, not_mem_itoa_newline _⟩, ?_⟩, ih _ _ hcs⟩ <;>
          decide

theorem mem_of_mem_Trim (s : Str) (c x : Char) (h : x ∈ Trim s c) : x ∈ s := by
  unfold Trim at h
  rw [List.mem_reverse] at h
  have h2 := mem_of_mem_dropWhile _ _ _ h
  rw [List.mem_reverse] at h2
  exact mem_of_mem_dropWhile _ _ _ h2

theorem renderImages_not_mem (style s : Str) (k : Nat) (hst : '\n' ∉ style) (hs : '\n' ∉ s) :
    '\n' ∉ renderImages style k s := by
  unfold renderImages
  apply replaceAllAuxP_not_mem _ _ _ _ _ _ hs
  intro t g ht hr
  obtain ⟨g1, g2⟩ := imageRegex_group t g hr
  have h1 : '\n' ∉ EscapeString (g.getD 1 []) :=
    not_mem_EscapeString_newline _ (fun hm => ht (g1 _ hm))
  have h2 : '\n' ∉ g.getD 2 [] := fun hm => ht (g2 _ hm)
  simp only [List.mem_append, not_or]
  refine ⟨⟨⟨⟨⟨⟨?_, hst⟩, ?_⟩, h2⟩, ?_⟩, h1⟩, ?_⟩ <;> decide

theorem processInlineCode_not_mem (c : WechatConverter) (s : Str)
    (hst : '\n' ∉ c.styles.InlineCodeStyle) (hs : '\n' ∉ s) :
    '\n' ∉ processInlineCode c s := by
  unfold processInlineCode ReplaceAllStringFunc
  apply replaceAllAuxP_not_mem _ _ _ _ _ _ hs
  intro t g ht hr
  have h1 : '\n' ∉ EscapeString (Trim (g.headD []) backtick) :=
    not_mem_EscapeString_newline _
      (fun hm => ht (inlineCodeRegex_group t g hr _ (mem_of_mem_Trim _ _ _ hm)))
  simp only [List.mem_append, not_or]
  refine ⟨⟨⟨⟨?_, hst⟩, ?_⟩, h1⟩, ?_⟩ <;> decide

theorem processBoldItalic_not_mem (s : Str) (hs : '\n' ∉ s) : '\n' ∉ processBoldItalic s := by
  unfold processBoldItalic ReplaceAllString1
  simp only []
  apply replaceAllAuxP_not_mem
  · intro t g ht hr
    have h1 : '\n' ∉ g.getD 1 [] := fun hm => ht (italicRegex_group t g hr _ hm)
    simp only [List.mem_append, not_or]
    refine ⟨⟨?_, h1⟩, ?_⟩ <;> decide
  · apply replaceAllAuxP_not_mem _ _ _ _ _ _ hs
    intro t g ht hr
    have h1 : '\n' ∉ g.getD 1 [] := fun hm => ht (boldRegex_group t g hr _ hm)
    simp only [List.mem_append, not_or]
    refine ⟨⟨?_, h1⟩, ?_⟩ <;> decide

theorem processParagraphs_line (c : WechatConverter) (l : Str) (hn : '\n' ∉ l)
    (hne : TrimSpace l ≠ []) (hlt : HasPrefix (TrimSpace l) ['<'] = false) :
    processParagraphs c l =
      "<p ".toList ++ c.styles.ParagraphStyle ++ ">".toList ++ TrimSpace l ++ "</p>".toList := by
  simp [processParagraphs, Split_of_not_mem _ _ hn, hne, hlt, Join]

theorem afterLinks_line (c : WechatConverter) (pre s : Str) (hne : pre ≠ [])
    (hp : ∀ x ∈ pre, x = '#') (hs : '\n' ∉ s) (h1 : '\n' ∉ c.styles.LinkStyle)
    (h2 : '\n' ∉ c.styles.ImageStyle) (h3 : '\n' ∉ c.styles.InlineCodeStyle) :
    ∃ r, '\n' ∉ r ∧ afterLinks c (pre ++ s) =
      "<p ".toList ++ c.styles.ParagraphStyle ++ ">".toList ++ pre ++ r ++ "</p>".toList := by
  have hnot : ∀ y : Char, y ≠ '#' → y ∉ pre := fun y hy hm => hy (hp y hm)
  have e1 : renderLinks c.styles.LinkStyle 0 0 (pre ++ s) =
      pre ++ renderLinks c.styles.LinkStyle 0 0 s :=
    renderLinks_gap _ _ _ _ (gap_of_head linkRegex '[' linkRegex_head pre s (hnot _ (by decide)))
  have n1 := renderLinks_not_mem c.styles.LinkStyle s 0 0 h1 hs
  generalize renderLinks c.styles.LinkStyle 0 0 s = R1 at e1 n1
  have e2 : renderImages c.styles.ImageStyle 0 (pre ++ R1) =
      pre ++ renderImages c.styles.ImageStyle 0 R1 := by
    unfold renderImages
    exact replaceAllAuxP_pre _ _ _ _
      (regex_none_of_head imageRegex '!' imageRegex_head pre (hnot _ (by decide)))
  have n2 := renderImages_not_mem c.styles.ImageStyle R1 0 h2 n1
  generalize renderImages c.styles.ImageStyle 0 R1 = R2 at e2 n2
  have e3 : processInlineCode c (pre ++ R2) = pre ++ processInlineCode c R2 := by
    unfold processInlineCode ReplaceAllStringFunc
    exact replaceAllAuxP_pre _ _ _ _
      (regex_none_of_head inlineCodeRegex backtick inlineCodeRegex_head pre (hnot _ (by decide)))
  have n3 := processInlineCode_not_mem c R2 h3 n2
  generalize processInlineCode c R2 = R3 at e3 n3
  have e4 : processBoldItalic (pre ++ R3) = pre ++ processBoldItalic R3 := by
    unfold processBoldItalic ReplaceAllString1
    simp only []
    rw [replaceAllAuxP_pre _ _ _ _
      (regex_none_of_head boldRegex '*' boldRegex_head pre (hnot _ (by decide))),
      replaceAllAuxP_pre _ _ _ _
      (regex_none_of_head italicRegex '*' italicRegex_head pre (hnot _ (by decide)))]
  have n4 := processBoldItalic_not_mem R3 n3
  generalize processBoldItalic R3 = R4 at e4 n4
  obtain ⟨r, hr⟩ := TrimSpace_pre pre R4 hne (fun x hx => by rw [hp x hx]; decide)
  have hn : '\n' ∉ pre ++ R4 := by
    simp only [List.mem_append, not_or]
    exact ⟨hnot _ (by decide), n4⟩
  obtain ⟨x, xs, rfl⟩ := List.exists_cons_of_ne_nil hne
  have hx : x = '#' := hp x (List.mem_cons_self _ _)
  refine ⟨r, ?_, ?_⟩
  · intro hm
    have : '\n' ∈ TrimSpace (x :: xs ++ R4) := by
      rw [hr]
      exact List.mem_append_right _ hm
    exact hn (mem_of_mem_TrimSpace _ _ this)
  · unfold afterLinks
    rw [e1, e2, e3, e4, processParagraphs_line c _ hn (by rw [hr]; simp)
      (by rw [hr]; exact HasPrefix_cons_ne _ _ _ _ (by rw [hx]; decide)), hr]
    simp only [List.append_assoc]

/-- Claim C24: in a document of lines, with heading styles that hold no newline,
`processHeaders` works line by line. A line of one, two or three hashes, one
space and a non-empty text `t` becomes the heading element of that level, with the
style of the level and the escaped, trimmed `t`; every other line is left
unchanged. The result of the three passes together is the element of the one
matching level, so a line converted by one pass is not altered by the others. -/
theorem c24_heading_lines (c : WechatConverter) (ls : List Str) (hne : ls ≠ [])
    (hn : ∀ l ∈ ls, '\n' ∉ l) (hs1 : '\n' ∉ c.styles.H1Style)
    (hs2 : '\n' ∉ c.styles.H2Style) :
    processHeaders c (Join ['\n'] ls) = Join ['\n'] (ls.map (headingLine c)) ∧
    (∀ t : Str, t ≠ [] →
      headingLine c ("# ".toList ++ t) =
        "<h1 ".toList ++ c.styles.H1Style ++ ">".toList ++ EscapeString (TrimSpace t) ++
          "</h1>".toList ∧
      headingLine c ("## ".toList ++ t) =
        "<h2 ".toList ++ c.styles.H2Style ++ ">".toList ++ EscapeString (TrimSpace t) ++
          "</h2>".toList ∧
      headingLine c ("### ".toList ++ t) =
        "<h3 ".toList ++ c.styles.H3Style ++ ">".toList ++ EscapeString (TrimSpace t) ++
          "</h3>".toList) ∧
    (∀ l : Str, (∀ t : Str, t ≠ [] →
        l ≠ "# ".toList ++ t ∧ l ≠ "## ".toList ++ t ∧ l ≠ "### ".toList ++ t) →
      headingLine c l = l) := by
  refine ⟨processHeaders_Join c ls hne hn hs1 hs2, ?_, ?_⟩
  · intro t ht
    obtain ⟨x, xs, rfl⟩ := List.exists_cons_of_ne_nil ht
    refine ⟨?_, ?_, ?_⟩ <;>
      simp [headingLine, headingElement, HasPrefix]
  · intro l hl
    have key : ∀ m : Str, ¬ (HasPrefix l m = true ∧ m.length < l.length) ∨
        ∃ t, t ≠ [] ∧ l = m ++ t := by
      intro m
      by_cases h : HasPrefix l m = true ∧ m.length < l.length
      · right
        obtain ⟨r, hr⟩ := (HasPrefix_iff _ _).mp h.1
        refine ⟨r, ?_, hr⟩
        rintro rfl
        rw [hr] at h
        simp at h
      · exact Or.inl h
    unfold headingLine
    rcases key "# ".toList with h1 | ⟨t, ht, e⟩
    · rcases key "## ".toList with h2 | ⟨t, ht, e⟩
      · rcases key "### ".toList with h3 | ⟨t, ht, e⟩
        · have h1b : ¬ (HasPrefix l "# ".toList = true ∧ 2 < l.length) := h1
          have h2b : ¬ (HasPrefix l "## ".toList = true ∧ 3 < l.length) := h2
          have h3b : ¬ (HasPrefix l "### ".toList = true ∧ 4 < l.length) := h3
          rw [if_neg h1b, if_neg h2b, if_neg h3b]
        · exact absurd e (hl t ht).2.2
      · exact absurd e (hl t ht).2.1
    · exact absurd e (hl t ht).1

theorem c24_heading_lines_witness :
    processHeaders NewWechatConverterFixed
        (Join ['\n'] ["# A & b ".toList, "#### d".toList, "### c".toList]) =
      Join ['\n'] (["# A & b ".toList, "#### d".toList, "### c".toList].map
        (headingLine NewWechatConverterFixed)) ∧
    (∀ t : Str, t ≠ [] →
      headingLine NewWechatConverterFixed ("# ".toList ++ t) =
        "<h1 ".toList ++ NewWechatConverterFixed.styles.H1Style ++ ">".toList ++
          EscapeString (TrimSpace t) ++ "</h1>".toList ∧
      headingLine NewWechatConverterFixed ("## ".toList ++ t) =
        "<h2 ".toList ++ NewWechatConverterFixed.styles.H2Style ++ ">".toList ++
          EscapeString (TrimSpace t) ++ "</h2>".toList ∧
      headingLine NewWechatConverterFixed ("### ".toList ++ t) =
        "<h3 ".toList ++ NewWechatConverterFixed.styles.H3Style ++ ">".toList ++
          EscapeString (TrimSpace t) ++ "</h3>".toList) ∧
    (∀ l : Str, (∀ t : Str, t ≠ [] →
        l ≠ "# ".toList ++ t ∧ l ≠ "## ".toList ++ t ∧ l ≠ "### ".toList ++ t) →
      headingLine NewWechatConverterFixed l = l) :=
  c24_heading_lines NewWechatConverterFixed
    ["# A & b ".toList, "#### d".toList, "### c".toList] (by decide) (by decide) (by decide)
    (by decide)

theorem headingLine_four (c : WechatConverter) (t : Str) :
    headingLine c ('#' :: '#' :: '#' :: '#' :: t) = '#' :: '#' :: '#' :: '#' :: t := by
  simp [headingLine, HasPrefix]

/-- Claim C25, counterexample: a line of four hashes that does not become a
paragraph. After the orphaned marker line `1.` the line `#### x` is joined to
the marker and becomes the text of an ordered-list item; before the separator
line `|---|` the line `#### a | b` becomes the header row of a table. -/
theorem c25_four_hashes_in_list_or_table :
    ConvertMarkdownToWechat MapOrder.insertion NewWechatConverterFixed "1.\n#### x".toList =
      some ("<ol ".toList ++ getDefaultStyles.ListStyle ++ ">".toList ++ liOpen ++
          "#### x</li></ol>".toList, NewWechatConverterFixed) ∧
    ConvertMarkdownToWechat MapOrder.insertion NewWechatConverterFixed
        "#### a | b\n|---|".toList =
      some ("<table ".toList ++ getDefaultStyles.TableStyle ++ "><tr><th ".toList ++
          getDefaultStyles.TableHeaderStyle ++ ">#### a</th><th ".toList ++
          getDefaultStyles.TableHeaderStyle ++ ">b</th></tr></table>\n<p ".toList ++
          getDefaultStyles.ParagraphStyle ++ ">|---|</p>".toList, NewWechatConverterFixed) := by
  have h1 : convertStages NewWechatConverterFixed "1.\n#### x".toList =
      some ("<ol ".toList ++ getDefaultStyles.ListStyle ++ ">".toList ++ liOpen ++
          "#### x</li></ol>".toList, NewWechatConverterFixed) := by
    decide!
  have h2 : convertStages NewWechatConverterFixed "#### a | b\n|---|".toList =
      some ("<table ".toList ++ getDefaultStyles.TableStyle ++ "><tr><th ".toList ++
          getDefaultStyles.TableHeaderStyle ++ ">#### a</th><th ".toList ++
          getDefaultStyles.TableHeaderStyle ++ ">b</th></tr></table>\n<p ".toList ++
          getDefaultStyles.ParagraphStyle ++ ">|---|</p>".toList, NewWechatConverterFixed) := by
    decide!
  constructor
  · rw [ConvertMarkdownToWechat_eq, h1, Option.map, convertFinish_nil _ _ _ rfl]
    decide!
  · rw [ConvertMarkdownToWechat_eq, h2, Option.map, convertFinish_nil _ _ _ rfl]
    decide!

/-- Claim C25, amended: a line that begins with four or more hashes is returned
unchanged by `processHeaders`, alone and as a line of any document of lines (with
heading styles that hold no newline), so no heading element is produced for it;
and `ConvertMarkdownToWechat` on a fresh converter, given the document that
consists of that line alone, emits one paragraph element whose text begins with
the same hashes and holds no newline, followed by the references section of the
links of the line, if there are any. -/
theorem c25_four_hashes_stay (ord : MapOrder) (k : Nat) (rest : Str) (hn : '\n' ∉ rest) :
    (∀ c : WechatConverter, processHeaders c (List.replicate (k + 4) '#' ++ rest) =
      List.replicate (k + 4) '#' ++ rest) ∧
    (∀ (c : WechatConverter) (pre post : List Str), (∀ l ∈ pre ++ post, '\n' ∉ l) →
      '\n' ∉ c.styles.H1Style → '\n' ∉ c.styles.H2Style →
      processHeaders c (Join ['\n'] (pre ++ (List.replicate (k + 4) '#' ++ rest) :: post)) =
        Join ['\n'] (pre.map (headingLine c) ++
          (List.replicate (k + 4) '#' ++ rest) :: post.map (headingLine c))) ∧
    ∃ r c2, '\n' ∉ r ∧
      ConvertMarkdownToWechat ord NewWechatConverterFixed
          (List.replicate (k + 4) '#' ++ rest) =
        some ("<p ".toList ++ NewWechatConverterFixed.styles.ParagraphStyle ++ ">".toList ++
          List.replicate (k + 4) '#' ++ r ++ "</p>".toList ++ generateFootnotes c2, c2) := by
  have e : ∀ r : Str, List.replicate (k + 4) '#' ++ r =
      '#' :: '#' :: '#' :: '#' :: (List.replicate k '#' ++ r) := by
    intro r
    have : k + 4 = 4 + k := Nat.add_comm _ _
    rw [this, List.replicate_add]
    rfl
  have hn2 : '\n' ∉ List.replicate k '#' ++ rest := by
    simp only [List.mem_append, not_or]
    exact ⟨fun h => absurd (List.eq_of_mem_replicate h) (by decide), hn⟩
  refine ⟨?_, ?_, ?_⟩
  · intro c
    rw [e]
    exact processHeaders_four c _ hn2
  · intro c pre post hl hs1 hs2
    have hall : ∀ l ∈ pre ++ (List.replicate (k + 4) '#' ++ rest) :: post, '\n' ∉ l := by
      intro l hmem
      rcases List.mem_append.mp hmem with h | h
      · exact hl l (List.mem_append_left _ h)
      · rcases List.mem_cons.mp h with h | h
        · rw [h, e]
          simp only [List.mem_cons, not_or]
          exact ⟨by decide, by decide, by decide, by decide, hn2⟩
        · exact hl l (List.mem_append_right _ h)
    rw [processHeaders_Join c _ (by simp) hall hs1 hs2, List.map_append, List.map_cons,
      e, headingLine_four]
  · obtain ⟨hlst, hent⟩ := linkStageText_hashes NewWechatConverterFixed _ hn2
    rw [← e rest] at hlst hent
    obtain ⟨r2, hr2⟩ := TrimSpace_pre (List.replicate (k + 4) '#') rest (by simp)
      (fun x hx => by rw [List.eq_of_mem_replicate hx]; decide)
    have hnr2 : '\n' ∉ r2 := by
      intro hm
      have h2 : '\n' ∈ TrimSpace (List.replicate (k + 4) '#' ++ rest) := by
        rw [hr2]
        exact List.mem_append_right _ hm
      have h3 := mem_of_mem_TrimSpace _ _ h2
      rw [e] at h3
      simp only [List.mem_cons] at h3
      rcases h3 with h3 | h3 | h3 | h3 | h3
      · exact absurd h3 (by decide)
      · exact absurd h3 (by decide)
      · exact absurd h3 (by decide)
      · exact absurd h3 (by decide)
      · exact hn2 h3
    obtain ⟨r, hnr, hb⟩ := afterLinks_line NewWechatConverterFixed
      (List.replicate (k + 4) '#') r2 (by simp) (fun x hx => List.eq_of_mem_replicate hx) hnr2
      (by decide) (by decide) (by decide)
    have hfresh : freshState NewWechatConverterFixed = NewWechatConverterFixed := rfl
    have hst : convertStages NewWechatConverterFixed (List.replicate (k + 4) '#' ++ rest) =
        some ("<p ".toList ++ NewWechatConverterFixed.styles.ParagraphStyle ++ ">".toList ++
          List.replicate (k + 4) '#' ++ r ++ "</p>".toList,
          { NewWechatConverterFixed with
            footnotes := linkURLs 0 (List.replicate (k + 4) '#' ++ r2) }) := by
      rw [convertStages_eq, hfresh, hlst, hr2, hb, hent]
      rfl
    refine ⟨r, { NewWechatConverterFixed with
      footnotes := linkURLs 0 (List.replicate (k + 4) '#' ++ r2) }, hnr, ?_⟩
    rw [ConvertMarkdownToWechat_eq, hst]
    simp only [Option.map]
    rw [convertFinish_nil _ _ _ rfl]
    by_cases hf : (linkURLs 0 (List.replicate (k + 4) '#' ++ r2)).length > 0
    · rw [if_pos hf]
    · rw [if_neg hf]
      have hz : (linkURLs 0 (List.replicate (k + 4) '#' ++ r2)).length = 0 := by omega
      have hg : generateFootnotes { NewWechatConverterFixed with
          footnotes := linkURLs 0 (List.replicate (k + 4) '#' ++ r2) } = [] := by
        unfold generateFootnotes
        exact if_pos hz
      rw [hg, List.append_nil]

/-- Witness of claim C25, amended: the line `#### x`. -/
theorem c25_four_hashes_stay_witness :
    (∀ c : WechatConverter, processHeaders c (List.replicate (0 + 4) '#' ++ " x".toList) =
      List.replicate (0 + 4) '#' ++ " x".toList) ∧
    (∀ (c : WechatConverter) (pre post : List Str), (∀ l ∈ pre ++ post, '\n' ∉ l) →
      '\n' ∉ c.styles.H1Style → '\n' ∉ c.styles.H2Style →
      processHeaders c (Join ['\n'] (pre ++ (List.replicate (0 + 4) '#' ++ " x".toList) :: post)) =
        Join ['\n'] (pre.map (headingLine c) ++
          (List.replicate (0 + 4) '#' ++ " x".toList) :: post.map (headingLine c))) ∧
    ∃ r c2, '\n' ∉ r ∧
      ConvertMarkdownToWechat MapOrder.insertion NewWechatConverterFixed
          (List.replicate (0 + 4) '#' ++ " x".toList) =
        some ("<p ".toList ++ NewWechatConverterFixed.styles.ParagraphStyle ++ ">".toList ++
          List.replicate (0 + 4) '#' ++ r ++ "</p>".toList ++ generateFootnotes c2, c2) :=
  c25_four_hashes_stay MapOrder.insertion 0 " x".toList (by decide)

/-- Claim C26: `processQuotes` applied to `n` consecutive lines `> t_1`, ...,
`> t_n`, with `n` at least one and every `t_i` non-empty and without a newline,
returns `n` elements joined by newlines, the `i`-th being the blockquote element
with the quote style and the escaped, trimmed text `t_i`. Every quote line has
its own element. -/
theorem c26_quote_lines (c : WechatConverter) (ts : List Str) (hne : ts ≠ [])
    (h : ∀ t ∈ ts, t ≠ [] ∧ '\n' ∉ t) :
    processQuotes c (Join ['\n'] (ts.map (fun t => "> ".toList ++ t))) =
      Join ['\n'] (ts.map (fun t =>
        "<blockquote ".toList ++ c.styles.QuoteStyle ++ ">".toList ++
          EscapeString (TrimSpace t) ++ "</blockquote>".toList)) ∧
    (ts.map (fun t =>
        "<blockquote ".toList ++ c.styles.QuoteStyle ++ ">".toList ++
          EscapeString (TrimSpace t) ++ "</blockquote>".toList)).length = ts.length := by
  refine ⟨?_, by simp⟩
  unfold processQuotes
  rw [replaceLines_all]
  · rw [List.map_map]
    congr 1
  · simpa using hne
  · intro l hl
    obtain ⟨t, ht, rfl⟩ := List.mem_map.mp hl
    have := (h t ht).2
    simp only [List.mem_append, not_or]
    exact ⟨by decide, this⟩
  · intro l hl
    obtain ⟨t, ht, rfl⟩ := List.mem_map.mp hl
    exact ⟨t, litMarker_append _ _, (h t ht).1⟩

theorem c26_quote_lines_witness :
    processQuotes NewWechatConverterFixed "> a\n> b <c>".toList =
      Join ['\n'] (["a".toList, "b <c>".toList].map (fun t =>
        "<blockquote ".toList ++ NewWechatConverterFixed.styles.QuoteStyle ++ ">".toList ++
          EscapeString (TrimSpace t) ++ "</blockquote>".toList)) ∧
    (["a".toList, "b <c>".toList].map (fun t =>
        "<blockquote ".toList ++ NewWechatConverterFixed.styles.QuoteStyle ++ ">".toList ++
          EscapeString (TrimSpace t) ++ "</blockquote>".toList)).length = 2 :=
  c26_quote_lines NewWechatConverterFixed ["a".toList, "b <c>".toList] (by decide) (by decide)

/-- Claim C27: `processParagraphs` returns the newline-joined sequence obtained
from the lines of the text, in order, by trimming every line, dropping the lines
that are then empty, passing on unchanged every remaining line that starts with
`<`, and wrapping every other remaining line `l` as `<p ParagraphStyle>l</p>`. -/
theorem c27_paragraph_lines (c : WechatConverter) (text : Str) :
    processParagraphs c text =
      Join ['\n'] ((((Split '\n' text).map TrimSpace).filter (fun l => l ≠ [])).map (fun l =>
        if HasPrefix l ['<'] then l
        else "<p ".toList ++ c.styles.ParagraphStyle ++ ">".toList ++ l ++ "</p>".toList)) := by
  unfold processParagraphs
  congr 1
  induction Split '\n' text with
  | nil => rfl
  | cons l ls ih =>
    simp only [List.filterMap_cons, List.map_cons, List.filter_cons, ih]
    by_cases h1 : TrimSpace l = []
    · simp [h1]
    · by_cases h2 : HasPrefix (TrimSpace l) ['<'] = true
      · simp [h1, h2]
      · simp [h1, h2]

/-- Claim C28: `generateFootnotes` returns the empty string for an empty
footnotes sequence, and for a sequence `u_1 .. u_k` with `k` at least one it
returns the horizontal rule, the heading with the text `参考`, and one paragraph
for every footnote in sequence order, the `i`-th with the text `[i] ` followed by
the escaped `u_i`, counted from one. `ConvertMarkdownToWechat` always returns, and
its result is the converted body followed by that section when the footnotes
recorded by the call are not empty, and the converted body alone when they are. -/
theorem c28_references_section (ord : MapOrder) (c : WechatConverter) (md : Str) :
    generateFootnotes c =
      (if c.footnotes = [] then []
       else footnoteRule ++ footnoteHeading ++
        (c.footnotes.enumFrom 1).flatMap (fun p =>
          footnoteOpen ++ "[".toList ++ itoa p.1 ++ "] ".toList ++ EscapeString p.2 ++
            "</p>".toList)) ∧
    (((c.footnotes.enumFrom 1).map (fun p =>
          footnoteOpen ++ "[".toList ++ itoa p.1 ++ "] ".toList ++ EscapeString p.2 ++
            "</p>".toList)).length = c.footnotes.length) ∧
    (∃ t, footnoteHeading = t ++ ">参考</h2>".toList) ∧
    (generateFootnotes c = [] ↔ c.footnotes = []) ∧
    (∃ html c2, convertStages c md = some (html, c2) ∧
      ConvertMarkdownToWechat ord c md =
        some (if c2.footnotes = [] then restoreCodeBlocks ord c2 html
              else restoreCodeBlocks ord c2 html ++ generateFootnotes c2, c2)) := by
  have hgen : generateFootnotes c =
      (if c.footnotes = [] then []
       else footnoteRule ++ footnoteHeading ++
        (c.footnotes.enumFrom 1).flatMap (fun p =>
          footnoteOpen ++ "[".toList ++ itoa p.1 ++ "] ".toList ++ EscapeString p.2 ++
            "</p>".toList)) := by
    unfold generateFootnotes
    rw [footnoteItems_eq]
    simp only [List.length_eq_zero]
  refine ⟨hgen, by simp, ⟨"<h2 style=\"display: table; ".toList ++ fontStack ++
    " font-size: 14px; font-weight: bold; margin: 3em 0 0.6em 0; padding-left: 0.2em;\"".toList,
    by simp [footnoteHeading]⟩, ?_, ?_⟩
  · constructor
    · intro h
      by_contra hne
      rw [hgen, if_neg hne] at h
      have := congrArg List.length h
      simp [footnoteRule] at this
    · intro h
      rw [hgen, if_pos h]
  · obtain ⟨html, c2, hs⟩ := convertStages_some c md
    refine ⟨html, c2, hs, ?_⟩
    rw [ConvertMarkdownToWechat_eq, hs]
    simp only [Option.map, convertFinish]
    by_cases h : c2.footnotes = []
    · simp [h]
    · have : c2.footnotes.length > 0 := List.length_pos.mpr h
      simp [h, this]

/-! ### The loop of `preprocessText` -/

theorem set_getD_nil (l : List Str) (k j : Nat) :
    (l.set k []).getD j [] = if j = k then [] else l.getD j [] := by
  simp only [List.getD_eq_getElem?_getD, List.getElem?_set]
  by_cases h : k = j
  · subst h
    by_cases h2 : k < l.length <;> simp [h2]
  · have h3 : ¬ j = k := fun e => h e.symm
    simp [h, h3]

theorem blankLines_length (m k : Nat) (l : List Str) :
    (blankLines m k l).length = l.length := by
  induction m generalizing k l with
  | zero => rfl
  | succ m ih => simp [blankLines, ih]

theorem blankLines_getD (m k : Nat) (l : List Str) (j : Nat) :
    (blankLines m k l).getD j [] = if k ≤ j ∧ j < k + m then [] else l.getD j [] := by
  induction m generalizing k l with
  | zero =>
    have : ¬ (k ≤ j ∧ j < k + 0) := by omega
    rw [if_neg this]
    rfl
  | succ m ih =>
    simp only [blankLines, ih, set_getD_nil]
    by_cases h1 : k + 1 ≤ j ∧ j < k + 1 + m
    · have h2 : k ≤ j ∧ j < k + (m + 1) := by omega
      simp [h1, h2]
    · by_cases h3 : j = k
      · have h2 : k ≤ j ∧ j < k + (m + 1) := by omega
        simp [h1, h2, h3]
      · have h2 : ¬ (k ≤ j ∧ j < k + (m + 1)) := by omega
        simp [h1, h2, h3]

theorem blankLines_drop (m k : Nat) (l : List Str) :
    (blankLines m k l).drop (k + m) = l.drop (k + m) := by
  induction m generalizing k l with
  | zero => rfl
  | succ m ih =>
    have e : k + (m + 1) = k + 1 + m := by omega
    rw [blankLines, e, ih, List.drop_set_of_lt _ _ (by omega)]

theorem joinMarkers_skip (k : Nat) (l : List Str) :
    joinMarkers k l = joinMarkers 0 (l.drop k) := by
  induction k generalizing l with
  | zero => rfl
  | succ k ih =>
    cases l with
    | nil => rfl
    | cons x xs => simpa [joinMarkers] using ih xs

theorem firstContent_lt (l : List Str) (j : Nat) (content : Str)
    (h : firstContent l = some (j, content)) :
    j < l.length ∧ content = TrimSpace (l.getD j []) ∧ content ≠ [] := by
  induction l generalizing j content with
  | nil => simp [firstContent] at h
  | cons x xs ih =>
    simp only [firstContent] at h
    by_cases hx : TrimSpace x ≠ []
    · rw [if_pos hx] at h
      simp only [Option.some.injEq, Prod.mk.injEq] at h
      rw [← h.1, ← h.2]
      exact ⟨by simp, by simp, hx⟩
    · rw [if_neg hx] at h
      cases hf : firstContent xs with
      | none => simp [hf] at h
      | some p =>
        obtain ⟨j2, c2⟩ := p
        simp only [hf, Option.map, Option.some.injEq, Prod.mk.injEq] at h
        obtain ⟨h1, h2, h3⟩ := ih j2 c2 hf
        rw [← h.1, ← h.2]
        exact ⟨by simpa using h1, by simpa using h2, h3⟩

theorem nextContent_eq (n j0 : Nat) (lines : List Str) (hlen : lines.length = j0 + n) :
    nextContent lines n j0 = (firstContent (lines.drop j0)).map (fun p => (j0 + p.1, p.2)) := by
  induction n generalizing j0 with
  | zero =>
    have : lines.drop j0 = [] := List.drop_eq_nil_iff.mpr (by omega)
    simp [nextContent, this, firstContent]
  | succ n ih =>
    have hlt : j0 < lines.length := by omega
    have hd : lines.drop j0 = lines.getD j0 [] :: lines.drop (j0 + 1) := by
      rw [List.drop_eq_getElem_cons hlt, List.getD_eq_getElem _ _ hlt]
    rw [hd]
    simp only [nextContent, firstContent]
    by_cases hx : TrimSpace (lines.getD j0 []) ≠ []
    · rw [if_pos hx, if_pos hx]
      rfl
    · rw [if_neg hx, if_neg hx, ih (j0 + 1) (by omega)]
      cases firstContent (lines.drop (j0 + 1)) with
      | none => rfl
      | some p => simp [Option.map]; omega

theorem preprocessLoop_eq (n i : Nat) (lines result : List Str) (k : Nat)
    (hlen : lines.length = i + n) (hk : ∀ j, j < k → lines.getD (i + j) [] = []) :
    preprocessLoop n i lines result = result ++ joinMarkers k (lines.drop i) := by
  induction n generalizing i lines result k with
  | zero =>
    have : lines.drop i = [] := List.drop_eq_nil_iff.mpr (by omega)
    cases k <;> simp [preprocessLoop, this, joinMarkers]
  | succ n ih =>
    have hlt : i < lines.length := by omega
    have hd : lines.drop i = lines.getD i [] :: lines.drop (i + 1) := by
      rw [List.drop_eq_getElem_cons hlt, List.getD_eq_getElem _ _ hlt]
    rw [hd]
    cases k with
    | succ k =>
      have h0 : lines.getD i [] = [] := by simpa using hk 0 (by omega)
      have hm : isOrphanMarker (TrimSpace ([] : Str)) = false := by decide
      simp only [preprocessLoop, h0, hm, joinMarkers]
      simp only [Bool.false_eq_true, if_false, ne_eq, not_true_eq_false]
      exact ih (i + 1) lines result k (by omega)
        (fun j hj => by
          have := hk (j + 1) (by omega)
          rwa [show i + (j + 1) = i + 1 + j by omega] at this)
    | zero =>
      simp only [preprocessLoop, joinMarkers]
      by_cases hmk : isOrphanMarker (TrimSpace (lines.getD i [])) = true
      · rw [if_pos hmk, if_pos hmk, nextContent_eq n (i + 1) lines (by omega)]
        cases hf : firstContent (lines.drop (i + 1)) with
        | none =>
          simp only [Option.map]
          exact ih (i + 1) lines result 0 (by omega) (fun j hj => absurd hj (by omega))
        | some p =>
          obtain ⟨j, content⟩ := p
          simp only [Option.map]
          have e1 : i + 1 + j - i = j + 1 := by omega
          rw [e1, ih (i + 1) (blankLines (j + 1) (i + 1) lines) _ (j + 1)
            (by rw [blankLines_length]; omega)
            (fun j2 hj2 => by
              rw [blankLines_getD]
              have : i + 1 ≤ i + 1 + j2 ∧ i + 1 + j2 < i + 1 + (j + 1) := by omega
              simp [this])]
          rw [joinMarkers_skip (j + 1) (List.drop _ (blankLines _ _ _)),
            joinMarkers_skip (j + 1) (List.drop _ lines), List.drop_drop, List.drop_drop]
          rw [blankLines_drop]
          simp
      · rw [if_neg hmk, if_neg hmk]
        by_cases hne : lines.getD i [] ≠ []
        · rw [if_pos hne, if_pos hne, ih (i + 1) lines _ 0 (by omega)
            (fun j hj => absurd hj (by omega))]
          simp
        · rw [if_neg hne, if_neg hne]
          exact ih (i + 1) lines result 0 (by omega) (fun j hj => absurd hj (by omega))

theorem preprocessLoop_lines (lines : List Str) :
    preprocessLoop lines.length 0 lines [] = joinMarkers 0 lines := by
  have := preprocessLoop_eq lines.length 0 lines [] 0 (by simp) (fun j hj => absurd hj (by omega))
  simpa using this

theorem firstContent_append (xs rest : List Str) (p : Nat × Str)
    (h : firstContent xs = some p) : firstContent (xs ++ rest) = some p := by
  induction xs generalizing p with
  | nil => simp [firstContent] at h
  | cons x xs ih =>
    simp only [List.cons_append, firstContent, List.append_eq] at h ⊢
    by_cases hx : TrimSpace x ≠ []
    · rw [if_pos hx] at h ⊢
      exact h
    · rw [if_neg hx] at h ⊢
      cases hf : firstContent xs with
      | none => simp [hf] at h
      | some q =>
        rw [hf] at h
        rw [ih q hf]
        exact h

theorem firstContent_blank (ws : List Str) (c : Str) (post : List Str)
    (hws : ∀ w ∈ ws, TrimSpace w = []) (hc : TrimSpace c ≠ []) :
    firstContent (ws ++ c :: post) = some (ws.length, TrimSpace c) := by
  induction ws with
  | nil => simp [firstContent, hc]
  | cons w ws ih =>
    have hw : TrimSpace w = [] := hws w (List.mem_cons_self _ _)
    simp [firstContent, hw, ih (fun v hv => hws v (List.mem_cons_of_mem _ hv))]

theorem joinMarkers_append (pre rest : List Str) (k : Nat) (hj : markersJoined pre = true)
    (hk : k ≤ pre.length) :
    joinMarkers k (pre ++ rest) = joinMarkers k pre ++ joinMarkers 0 rest := by
  induction pre generalizing k with
  | nil =>
    have : k = 0 := by simpa using hk
    subst this
    simp [joinMarkers]
  | cons x xs ih =>
    simp only [markersJoined, Bool.and_eq_true, Bool.or_eq_true, Bool.not_eq_true'] at hj
    obtain ⟨hx, hxs⟩ := hj
    cases k with
    | succ k =>
      simp only [List.cons_append, joinMarkers, List.append_eq]
      exact ih k hxs (by simpa using hk)
    | zero =>
      simp only [List.cons_append, joinMarkers, List.append_eq]
      by_cases hmk : isOrphanMarker (TrimSpace x) = true
      · rw [if_pos hmk, if_pos hmk]
        rcases hx with hx | hx
        · rw [hx] at hmk
          exact absurd hmk (by simp)
        · obtain ⟨p, hp⟩ := Option.isSome_iff_exists.mp hx
          obtain ⟨j, content⟩ := p
          rw [firstContent_append xs rest _ hp, hp]
          simp only
          rw [ih (j + 1) hxs (firstContent_lt xs j content hp).1]
          rfl
      · rw [if_neg hmk, if_neg hmk]
        by_cases hne : x ≠ []
        · rw [if_pos hne, if_pos hne, ih 0 hxs (Nat.zero_le _)]
          rfl
        · rw [if_neg hne, if_neg hne]
          exact ih 0 hxs (Nat.zero_le _)

theorem joinMarkers_marker (m : Str) (ws : List Str) (c : Str) (post : List Str)
    (hm : isOrphanMarker (TrimSpace m) = true) (hws : ∀ w ∈ ws, TrimSpace w = [])
    (hc : TrimSpace c ≠ []) :
    joinMarkers 0 (m :: (ws ++ c :: post)) =
      (TrimSpace m ++ [' '] ++ TrimSpace c) :: joinMarkers 0 post := by
  simp only [joinMarkers]
  rw [if_pos hm, firstContent_blank ws c post hws hc]
  simp only
  rw [joinMarkers_skip]
  have : (ws ++ c :: post).drop (ws.length + 1) = post := by
    rw [show ws ++ c :: post = (ws ++ [c]) ++ post by simp]
    exact List.drop_left' (by simp)
  rw [this]

/-! ### A marker that waits for its content -/

theorem blank_of_firstContent_none (ws : List Str) (h : firstContent ws = none) :
    ∀ w ∈ ws, TrimSpace w = [] := by
  induction ws with
  | nil => simp
  | cons w ws ih =>
    simp only [firstContent] at h
    by_cases hw : TrimSpace w ≠ []
    · rw [if_pos hw] at h
      exact absurd h (by simp)
    · rw [if_neg hw] at h
      have h2 : firstContent ws = none := by
        cases hf : firstContent ws with
        | none => rfl
        | some p => simp [hf] at h
      intro v hv
      rcases List.mem_cons.mp hv with e | e
      · rw [e]
        exact not_not.mp hw
      · exact ih h2 v e

theorem joinMarkers_append_free (pre rest : List Str) (k : Nat)
    (hp : markerPending k pre = false) (hk : k ≤ pre.length) :
    joinMarkers k (pre ++ rest) = joinMarkers k pre ++ joinMarkers 0 rest := by
  induction pre generalizing k with
  | nil =>
    have : k = 0 := by simpa using hk
    subst this
    simp [joinMarkers]
  | cons x xs ih =>
    cases k with
    | succ k =>
      simp only [markerPending] at hp
      simp only [List.cons_append, joinMarkers, List.append_eq]
      exact ih k hp (by simpa using hk)
    | zero =>
      simp only [markerPending] at hp
      simp only [List.cons_append, joinMarkers, List.append_eq]
      by_cases hmk : isOrphanMarker (TrimSpace x) = true
      · rw [if_pos hmk] at hp
        rw [if_pos hmk, if_pos hmk]
        cases hf : firstContent xs with
        | none => simp [hf] at hp
        | some p =>
          obtain ⟨j, content⟩ := p
          rw [hf] at hp
          simp only at hp
          rw [firstContent_append xs rest _ hf]
          simp only
          rw [ih (j + 1) hp (firstContent_lt xs j content hf).1]
          rfl
      · rw [if_neg hmk] at hp
        rw [if_neg hmk, if_neg hmk]
        by_cases hne : x ≠ []
        · rw [if_pos hne, if_pos hne, ih 0 hp (Nat.zero_le _)]
          rfl
        · rw [if_neg hne, if_neg hne]
          exact ih 0 hp (Nat.zero_le _)

theorem markerPending_of_joined (pre : List Str) (k : Nat) (hj : markersJoined pre = true) :
    markerPending k pre = false := by
  induction pre generalizing k with
  | nil => cases k <;> rfl
  | cons x xs ih =>
    simp only [markersJoined, Bool.and_eq_true, Bool.or_eq_true, Bool.not_eq_true'] at hj
    obtain ⟨hx, hxs⟩ := hj
    cases k with
    | succ k =>
      simp only [markerPending]
      exact ih k hxs
    | zero =>
      simp only [markerPending]
      by_cases hmk : isOrphanMarker (TrimSpace x) = true
      · rw [if_pos hmk]
        rcases hx with hx | hx
        · rw [hx] at hmk
          exact absurd hmk (by simp)
        · obtain ⟨p, hp⟩ := Option.isSome_iff_exists.mp hx
          rw [hp]
          exact ih _ hxs
      · rw [if_neg hmk]
        exact ih 0 hxs

theorem markerPending_split (pre : List Str) (k : Nat)
    (hp : markerPending k pre = true) (hk : k ≤ pre.length) :
    ∃ a d bs, pre = a ++ d :: bs ∧ k ≤ a.length ∧ markerPending k a = false ∧
      isOrphanMarker (TrimSpace d) = true ∧ ∀ b ∈ bs, TrimSpace b = [] := by
  induction pre generalizing k with
  | nil => simp [markerPending] at hp
  | cons x xs ih =>
    cases k with
    | succ k =>
      simp only [markerPending] at hp
      obtain ⟨a, d, bs, e, hka, hfa, hd, hbs⟩ := ih k hp (by simpa using hk)
      refine ⟨x :: a, d, bs, by rw [e]; rfl, by simpa using hka, ?_, hd, hbs⟩
      simp only [markerPending]
      exact hfa
    | zero =>
      simp only [markerPending] at hp
      by_cases hmk : isOrphanMarker (TrimSpace x) = true
      · rw [if_pos hmk] at hp
        cases hf : firstContent xs with
        | none =>
          exact ⟨[], x, xs, rfl, Nat.le_refl _, rfl, hmk, blank_of_firstContent_none xs hf⟩
        | some p =>
          obtain ⟨j, content⟩ := p
          rw [hf] at hp
          simp only at hp
          obtain ⟨a, d, bs, e, hka, hfa, hd, hbs⟩ :=
            ih (j + 1) hp (firstContent_lt xs j content hf).1
          have hdne : TrimSpace d ≠ [] := by
            intro h0
            rw [h0] at hd
            exact absurd hd (by decide)
          have hfa2 : firstContent a = some (j, content) := by
            cases hfc : firstContent a with
            | none =>
              have hb := blank_of_firstContent_none a hfc
              have e2 := firstContent_blank a d bs hb hdne
              rw [← e, hf] at e2
              have : j = a.length := by
                have := Option.some.inj e2
                exact congrArg Prod.fst this
              omega
            | some q =>
              have e2 := firstContent_append a (d :: bs) q hfc
              rw [← e, hf] at e2
              exact e2.symm
          refine ⟨x :: a, d, bs, by rw [e]; rfl, Nat.zero_le _, ?_, hd, hbs⟩
          simp only [markerPending]
          rw [if_pos hmk, hfa2]
          exact hfa
      · rw [if_neg hmk] at hp
        obtain ⟨a, d, bs, e, _, hfa, hd, hbs⟩ := ih 0 hp (Nat.zero_le _)
        refine ⟨x :: a, d, bs, by rw [e]; rfl, Nat.zero_le _, ?_, hd, hbs⟩
        simp only [markerPending]
        rw [if_neg hmk]
        exact hfa

theorem joinMarkers_pending (a bs rest : List Str) (d m : Str)
    (hfa : markerPending 0 a = false) (hd : isOrphanMarker (TrimSpace d) = true)
    (hbs : ∀ b ∈ bs, TrimSpace b = []) (hm : TrimSpace m ≠ []) :
    joinMarkers 0 ((a ++ d :: bs) ++ m :: rest) =
      joinMarkers 0 a ++ [TrimSpace d ++ [' '] ++ TrimSpace m] ++ joinMarkers 0 rest := by
  rw [show (a ++ d :: bs) ++ m :: rest = a ++ d :: (bs ++ m :: rest) by simp,
    joinMarkers_append_free a _ 0 hfa (Nat.zero_le _), joinMarkers_marker d bs m rest hd hbs hm]
  simp

theorem marker_not_blank (m : Str) (hm : isOrphanMarker (TrimSpace m) = true) :
    TrimSpace m ≠ [] := by
  intro h0
  rw [h0] at hm
  exact absurd hm (by decide)

/-- Claim C29, counterexample: the marker line `2.` is followed by the line `x`,
but it is itself the content of the marker line `1.` before it. The result has
the lines `1. 2.` and `x`: no line `2. x` is emitted, and `x` stays alone. -/
theorem c29_marker_taken_as_content :
    preprocessText "1.\n2.\nx".toList = "1. 2.\nx".toList := by
  decide

/-- Claim C29, amended: take the lines `pre`, then an orphaned marker line `m`,
then zero or more blank or whitespace-only lines `ws`, then a line `c` with
content, then the lines `post`. Exactly one of two things happens. (1) When the
loop, having run over `pre`, has no marker waiting for its content
(`markerPending 0 pre = false`), `preprocessText` emits for `m`, `ws` and `c`
the single line of the trimmed marker, one space and the trimmed `c`; the line
`c` is not emitted again; and `pre` and `post` are preprocessed on their own, in
order. (2) Otherwise `pre` ends with an orphaned marker line `d` and blank or
whitespace-only lines after it, with no marker waiting before `d`; then `m` is
consumed as the content of `d`: the line emitted is the trimmed `d`, one space
and the trimmed `m`, no line joins `m` and `c`, and the lines `ws`, `c` and
`post` are preprocessed on their own after it. -/
theorem c29_marker_joined (pre ws post : List Str) (m c : Str)
    (hm : isOrphanMarker (TrimSpace m) = true)
    (hws : ∀ w ∈ ws, TrimSpace w = []) (hc : TrimSpace c ≠ [])
    (hn : ∀ l ∈ pre ++ m :: (ws ++ c :: post), '\n' ∉ l) :
    (markerPending 0 pre = false →
      preprocessLoop (pre ++ m :: (ws ++ c :: post)).length 0
          (pre ++ m :: (ws ++ c :: post)) [] =
        preprocessLoop pre.length 0 pre [] ++ [TrimSpace m ++ " ".toList ++ TrimSpace c] ++
          preprocessLoop post.length 0 post [] ∧
      preprocessText (Join ['\n'] (pre ++ m :: (ws ++ c :: post))) =
        Join ['\n'] (preprocessLoop pre.length 0 pre [] ++
          [TrimSpace m ++ " ".toList ++ TrimSpace c] ++ preprocessLoop post.length 0 post [])) ∧
    (markerPending 0 pre = true →
      ∃ a d bs, pre = a ++ d :: bs ∧ markerPending 0 a = false ∧
        isOrphanMarker (TrimSpace d) = true ∧ (∀ b ∈ bs, TrimSpace b = []) ∧
        preprocessLoop (pre ++ m :: (ws ++ c :: post)).length 0
            (pre ++ m :: (ws ++ c :: post)) [] =
          preprocessLoop a.length 0 a [] ++ [TrimSpace d ++ " ".toList ++ TrimSpace m] ++
            preprocessLoop (ws ++ c :: post).length 0 (ws ++ c :: post) [] ∧
        preprocessText (Join ['\n'] (pre ++ m :: (ws ++ c :: post))) =
          Join ['\n'] (preprocessLoop a.length 0 a [] ++
            [TrimSpace d ++ " ".toList ++ TrimSpace m] ++
            preprocessLoop (ws ++ c :: post).length 0 (ws ++ c :: post) [])) := by
  have ht : preprocessText (Join ['\n'] (pre ++ m :: (ws ++ c :: post))) =
      Join ['\n'] (preprocessLoop (pre ++ m :: (ws ++ c :: post)).length 0
        (pre ++ m :: (ws ++ c :: post)) []) := by
    unfold preprocessText
    simp only []
    rw [Split_Join '\n' _ (by simp) hn]
  constructor
  · intro hfree
    have h1 : preprocessLoop (pre ++ m :: (ws ++ c :: post)).length 0
        (pre ++ m :: (ws ++ c :: post)) [] =
        preprocessLoop pre.length 0 pre [] ++ [TrimSpace m ++ " ".toList ++ TrimSpace c] ++
          preprocessLoop post.length 0 post [] := by
      rw [preprocessLoop_lines, preprocessLoop_lines, preprocessLoop_lines,
        joinMarkers_append_free pre _ 0 hfree (Nat.zero_le _),
        joinMarkers_marker m ws c post hm hws hc]
      simp
    exact ⟨h1, by rw [ht, h1]⟩
  · intro hpend
    obtain ⟨a, d, bs, e, _, hfa, hd, hbs⟩ := markerPending_split pre 0 hpend (Nat.zero_le _)
    have h1 : preprocessLoop (pre ++ m :: (ws ++ c :: post)).length 0
        (pre ++ m :: (ws ++ c :: post)) [] =
        preprocessLoop a.length 0 a [] ++ [TrimSpace d ++ " ".toList ++ TrimSpace m] ++
          preprocessLoop (ws ++ c :: post).length 0 (ws ++ c :: post) [] := by
      rw [preprocessLoop_lines, preprocessLoop_lines, preprocessLoop_lines, e,
        joinMarkers_pending a bs (ws ++ c :: post) d m hfa hd hbs (marker_not_blank m hm)]
      rfl
    exact ⟨a, d, bs, e, hfa, hd, hbs, h1, by rw [ht, h1]⟩

/-- Witness of claim C29, amended: in the lines `1.`, `2.`, `3.`, `x` the marker
`3.` is reached with no marker waiting, and it is joined with `x`; in the lines
`1.`, `2.`, `x` the marker `1.` waits, `2.` is consumed as its content, and `x`
stays alone. -/
theorem c29_marker_joined_witness :
    preprocessText "1.\n2.\n3.\nx".toList = "1. 2.\n3. x".toList ∧
    preprocessText "1.\n2.\nx".toList = "1. 2.\nx".toList := by
  have h := (c29_marker_joined ["1.".toList, "2.".toList] [] [] "3.".toList "x".toList
    (by decide) (by decide) (by decide) (by decide)).1 (by decide)
  obtain ⟨a, d, bs, e, _, _, _, _, h2⟩ :=
    (c29_marker_joined ["1.".toList] [] [] "2.".toList "x".toList
      (by decide) (by decide) (by decide) (by decide)).2 (by decide)
  refine ⟨h.2.trans (by decide), ?_⟩
  cases a with
  | nil =>
    obtain ⟨rfl, rfl⟩ := List.cons.inj e
    exact h2.trans (by decide)
  | cons y ys =>
    have := (List.cons.inj e).2
    simp at this

/-- Claim C30: for every text `x` that is not empty and holds no asterisk,
`processBoldItalic` turns `**x**` into `<strong>x</strong>` and `*x*` into
`<em>x</em>`. -/
theorem c30_bold_and_italic (x : Str) (hx : x ≠ []) (hs : '*' ∉ x) :
    processBoldItalic ("**".toList ++ x ++ "**".toList) =
      "<strong>".toList ++ x ++ "</strong>".toList ∧
    processBoldItalic ("*".toList ++ x ++ "*".toList) =
      "<em>".toList ++ x ++ "</em>".toList := by
  constructor
  · have h1 : ReplaceAllString1 boldRegex "<strong>".toList "</strong>".toList
        ("**".toList ++ x ++ "**".toList) = "<strong>".toList ++ x ++ "</strong>".toList := by
      unfold ReplaceAllString1
      have e := replaceAllAuxP_match boldRegex
        (fun g => "<strong>".toList ++ g.getD 1 [] ++ "</strong>".toList) '*'
        ('*' :: x ++ ['*', '*']) [] _ (boldRegex_eval x [] hx hs) rfl
      simp only [List.append_nil] at e
      exact e.trans (by simp [replaceAllAuxP])
    have h2 : '*' ∉ "<strong>".toList ++ x ++ "</strong>".toList := by
      simp only [List.mem_append, not_or]
      exact ⟨⟨by decide, hs⟩, by decide⟩
    have h3 := processBoldItalic_id _ h2
    unfold processBoldItalic at h3 ⊢
    rw [h1]
    have h4 : ReplaceAllString1 boldRegex "<strong>".toList "</strong>".toList
        ("<strong>".toList ++ x ++ "</strong>".toList) =
        "<strong>".toList ++ x ++ "</strong>".toList := by
      unfold ReplaceAllString1
      apply replaceAllAuxP_id
      intro d ds hsuf
      exact regex_none_of_head boldRegex '*' boldRegex_head _ h2 d
        (hsuf.subset (List.mem_cons_self _ _)) ds
    simp only [h4] at h3
    exact h3
  · obtain ⟨x0, x1, rfl⟩ := List.exists_cons_of_ne_nil hx
    have hx0 : x0 ≠ '*' := fun e => hs (e ▸ List.mem_cons_self _ _)
    have h1 : ReplaceAllString1 boldRegex "<strong>".toList "</strong>".toList
        ("*".toList ++ (x0 :: x1) ++ "*".toList) = "*".toList ++ (x0 :: x1) ++ "*".toList := by
      unfold ReplaceAllString1
      have e1 := replaceAllAuxP_pre boldRegex
        (fun g => "<strong>".toList ++ g.getD 1 [] ++ "</strong>".toList) (x0 :: x1) ['*']
        (regex_none_of_head boldRegex '*' boldRegex_head _ hs)
      show replaceAllAuxP boldRegex _ 0 ('*' :: x0 :: (x1 ++ ['*'])) = '*' :: x0 :: (x1 ++ ['*'])
      rw [replaceAllAuxP, boldRegex_single_star x0 _ hx0]
      exact congrArg (List.cons '*') (e1.trans (by simp [replaceAllAuxP, boldRegex]))
    have e := replaceAllAuxP_match italicRegex
      (fun g => "<em>".toList ++ g.getD 1 [] ++ "</em>".toList) '*'
      ((x0 :: x1) ++ ['*']) [] _ (italicRegex_eval (x0 :: x1) [] hx hs) rfl
    simp only [List.append_nil] at e
    unfold processBoldItalic
    rw [h1]
    exact e.trans (by simp [replaceAllAuxP])

theorem c30_bold_and_italic_witness :
    processBoldItalic "**ab**".toList = "<strong>ab</strong>".toList ∧
    processBoldItalic "*ab*".toList = "<em>ab</em>".toList :=
  c30_bold_and_italic "ab".toList (by decide) (by decide)

/-! ### Lines of a text -/

theorem Split_ne_nil (sep : Char) (s : Str) : Split sep s ≠ [] := by
  induction s with
  | nil => simp [Split]
  | cons c cs ih =>
    by_cases hc : c = sep
    · simp [Split, hc]
    · cases h : Split sep cs with
      | nil => exact absurd h ih
      | cons l ls => simp [Split, hc, h]

theorem Join_Split (sep : Char) (s : Str) : Join [sep] (Split sep s) = s := by
  induction s with
  | nil => rfl
  | cons c cs ih =>
    by_cases hc : c = sep
    · cases h : Split sep cs with
      | nil => exact absurd h (Split_ne_nil sep cs)
      | cons l ls =>
        rw [h] at ih
        simp only [Split, hc, if_true, h, Join]
        rw [ih]
        rfl
    · cases h : Split sep cs with
      | nil => exact absurd h (Split_ne_nil sep cs)
      | cons l ls =>
        rw [h] at ih
        cases ls with
        | nil =>
          simp only [Join] at ih
          simp [Split, hc, h, Join, ih]
        | cons l2 ls2 =>
          simp only [Join] at ih
          simp [Split, hc, h, Join, ih]

theorem mem_Split (sep : Char) (s : Str) :
    ∀ l ∈ Split sep s, sep ∉ l ∧ ∀ x ∈ l, x ∈ s := by
  induction s with
  | nil =>
    intro l hl
    simp only [Split, List.mem_singleton] at hl
    subst hl
    simp
  | cons c cs ih =>
    intro l hl
    by_cases hc : c = sep
    · simp only [Split, hc, if_true, List.mem_cons] at hl
      rcases hl with hl | hl
      · subst hl
        simp
      · obtain ⟨h1, h2⟩ := ih l hl
        exact ⟨h1, fun x hx => List.mem_cons_of_mem _ (h2 x hx)⟩
    · cases h : Split sep cs with
      | nil => exact absurd h (Split_ne_nil sep cs)
      | cons l0 ls =>
        simp only [Split, hc, if_false, h, List.mem_cons] at hl
        rcases hl with hl | hl
        · obtain ⟨h1, h2⟩ := ih l0 (by rw [h]; exact List.mem_cons_self _ _)
          subst hl
          refine ⟨?_, ?_⟩
          · simp only [List.mem_cons, not_or]
            exact ⟨fun e => hc e.symm, h1⟩
          · intro x hx
            rcases List.mem_cons.mp hx with hx | hx
            · exact hx ▸ List.mem_cons_self _ _
            · exact List.mem_cons_of_mem _ (h2 x hx)
        · obtain ⟨h1, h2⟩ := ih l (by rw [h]; exact List.mem_cons_of_mem _ hl)
          exact ⟨h1, fun x hx => List.mem_cons_of_mem _ (h2 x hx)⟩

theorem TrimSpace_facts (s : Str) :
    TrimSpace s = [] ∨ ∃ x m init y, TrimSpace s = x :: m ∧ x :: m = init ++ [y] ∧
      isSpace x = false ∧ isSpace y = false := by
  cases hb : (s.dropWhile isSpace).reverse.dropWhile isSpace with
  | nil => exact Or.inl (by simp [TrimSpace, hb])
  | cons y b =>
    right
    have hy : isSpace y = false := dropWhile_head_false _ _ y b hb
    have ht : TrimSpace s = b.reverse ++ [y] := by simp [TrimSpace, hb]
    have hpre : ∃ rest, s.dropWhile isSpace = (b.reverse ++ [y]) ++ rest := by
      have e := List.takeWhile_append_dropWhile isSpace (s.dropWhile isSpace).reverse
      rw [hb] at e
      refine ⟨(((s.dropWhile isSpace).reverse.takeWhile isSpace)).reverse, ?_⟩
      have e2 := congrArg List.reverse e
      simp only [List.reverse_append, List.reverse_cons, List.reverse_reverse] at e2
      exact e2.symm
    obtain ⟨rest, hrest⟩ := hpre
    cases hbr : b.reverse ++ [y] with
    | nil => simp at hbr
    | cons x m =>
      refine ⟨x, m, b.reverse, y, by rw [ht, hbr], hbr.symm, ?_, hy⟩
      rw [hbr] at hrest
      exact dropWhile_head_false _ _ x (m ++ rest) hrest

theorem TrimSpace_idem (s : Str) : TrimSpace (TrimSpace s) = TrimSpace s := by
  rcases TrimSpace_facts s with h | ⟨x, m, init, y, h1, h2, h3, h4⟩
  · rw [h]
    rfl
  · rw [h1]
    exact TrimSpace_id x m init y h2 h3 h4

/-! ### Escaped text -/

theorem escapeChar_safe (c x : Char) (h : x ∈ escapeChar c) :
    x ≠ '<' ∧ x ≠ '>' ∧ x ≠ Char.ofNat 34 ∧ x ≠ Char.ofNat 39 := by
  unfold escapeChar at h
  split at h
  · revert h; revert x; decide
  · split at h
    · revert h; revert x; decide
    · split at h
      · revert h; revert x; decide
      · split at h
        · revert h; revert x; decide
        · split at h
          · revert h; revert x; decide
          · rename_i h1 h2 h3 h4 h5
            rw [List.mem_singleton] at h
            subst h
            exact ⟨h3, h4, h5, h2⟩

theorem EscapeString_safe (s : Str) :
    '<' ∉ EscapeString s ∧ '>' ∉ EscapeString s ∧ Char.ofNat 34 ∉ EscapeString s ∧
      Char.ofNat 39 ∉ EscapeString s := by
  have h : ∀ x ∈ EscapeString s, x ≠ '<' ∧ x ≠ '>' ∧ x ≠ Char.ofNat 34 ∧ x ≠ Char.ofNat 39 := by
    intro x hx
    unfold EscapeString at hx
    obtain ⟨c, _, hc⟩ := List.mem_flatMap.mp hx
    exact escapeChar_safe c x hc
  exact ⟨fun hm => (h _ hm).1 rfl, fun hm => (h _ hm).2.1 rfl, fun hm => (h _ hm).2.2.1 rfl,
    fun hm => (h _ hm).2.2.2 rfl⟩

theorem entity_split (ent a r : Str) (hent : '&' ∉ ent) (h : '&' :: ent = a ++ '&' :: r) :
    a = [] ∧ r = ent := by
  cases a with
  | nil =>
    simp only [List.nil_append, List.cons.injEq, true_and] at h
    exact ⟨rfl, h.symm⟩
  | cons x xs =>
    simp only [List.cons_append, List.cons.injEq] at h
    exact absurd (h.2 ▸ (by simp : '&' ∈ xs ++ '&' :: r)) hent

theorem escapeChar_amp (c : Char) (a r : Str) (h : escapeChar c = a ++ '&' :: r) :
    a = [] ∧ r ∈ ["amp;".toList, "lt;".toList, "gt;".toList, "#34;".toList, "#39;".toList] := by
  unfold escapeChar at h
  split at h
  · obtain ⟨h1, h2⟩ := entity_split "amp;".toList a r (by decide) h
    exact ⟨h1, by rw [h2]; decide⟩
  · split at h
    · obtain ⟨h1, h2⟩ := entity_split "#39;".toList a r (by decide) h
      exact ⟨h1, by rw [h2]; decide⟩
    · split at h
      · obtain ⟨h1, h2⟩ := entity_split "lt;".toList a r (by decide) h
        exact ⟨h1, by rw [h2]; decide⟩
      · split at h
        · obtain ⟨h1, h2⟩ := entity_split "gt;".toList a r (by decide) h
          exact ⟨h1, by rw [h2]; decide⟩
        · split at h
          · obtain ⟨h1, h2⟩ := entity_split "#34;".toList a r (by decide) h
            exact ⟨h1, by rw [h2]; decide⟩
          · rename_i h1 _ _ _ _
            cases a with
            | nil =>
              simp only [List.nil_append, List.cons.injEq] at h
              exact absurd h.1 h1
            | cons x xs =>
              have := congrArg List.length h
              simp at this

theorem EscapeString_amp (s a r : Str) (h : EscapeString s = a ++ '&' :: r) :
    ∃ ent ∈ ["amp;".toList, "lt;".toList, "gt;".toList, "#34;".toList, "#39;".toList],
      ∃ r2, r = ent ++ r2 := by
  induction s generalizing a with
  | nil => simp [EscapeString] at h
  | cons c cs ih =>
    have e : EscapeString (c :: cs) = escapeChar c ++ EscapeString cs := by
      simp [EscapeString]
    rw [e] at h
    rcases List.append_eq_append_iff.mp h with ⟨a2, _, h2⟩ | ⟨c2, h1, h2⟩
    · exact ih a2 h2
    · cases c2 with
      | nil =>
        simp only [List.nil_append] at h2
        exact ih [] h2.symm
      | cons y ys =>
        simp only [List.cons_append, List.cons.injEq] at h2
        rw [← h2.1] at h1
        obtain ⟨_, hent⟩ := escapeChar_amp c a ys h1
        exact ⟨ys, hent, EscapeString cs, h2.2⟩

theorem EscapeString_append (s t : Str) :
    EscapeString (s ++ t) = EscapeString s ++ EscapeString t := by
  simp [EscapeString]

theorem EscapeString_single (x : Char) :
    EscapeString [x] =
      if x = '&' then "&amp;".toList
      else if x = Char.ofNat 39 then "&#39;".toList
      else if x = '<' then "&lt;".toList
      else if x = '>' then "&gt;".toList
      else if x = Char.ofNat 34 then "&#34;".toList
      else [x] := by
  simp [EscapeString, escapeChar]

/-! ### One construct at a time -/

theorem replaceLines_line (marker : Str → Option Str) (repl : Str → Str) (l : Str)
    (hn : '\n' ∉ l) (h : ∃ r, marker l = some r ∧ r ≠ []) :
    replaceLines marker repl l = repl l := by
  have := replaceLines_all marker repl [l] (by simp) (by simpa using hn) (by simpa using h)
  simpa [Join] using this

theorem processHeaders_line (c : WechatConverter) (hs1 : '\n' ∉ c.styles.H1Style)
    (hs2 : '\n' ∉ c.styles.H2Style) (l : Str) (hn : '\n' ∉ l) :
    processHeaders c l = headingLine c l := by
  have := processHeaders_Join c [l] (by simp) (by simpa using hn) hs1 hs2
  simpa [Join] using this

theorem not_mem_cons_append (x : Char) (pre t : Str) (h1 : x ∉ pre) (h2 : x ∉ t) :
    x ∉ pre ++ t := by
  simp only [List.mem_append, not_or]
  exact ⟨h1, h2⟩

theorem processQuotes_line (c : WechatConverter) (t : Str) (ht : t ≠ []) (hn : '\n' ∉ t) :
    processQuotes c ("> ".toList ++ t) =
      "<blockquote ".toList ++ c.styles.QuoteStyle ++ ">".toList ++
        EscapeString (TrimSpace t) ++ "</blockquote>".toList := by
  unfold processQuotes
  rw [replaceLines_line _ _ _ (not_mem_cons_append _ _ _ (by decide) hn)
    ⟨t, litMarker_append _ _, ht⟩]
  show _ ++ EscapeString (TrimSpace (TrimPrefix (">".toList ++ (' ' :: t)) ">".toList)) ++ _ = _
  rw [TrimPrefix_append, TrimSpace_cons_space]

theorem listElement_line (tag : Char) (style t : Str) (hs : '\n' ∉ style) (ht : '\n' ∉ t) :
    '\n' ∉ '<' :: tag :: 'l' :: ' ' :: (style ++ ">".toList ++ liOpen ++ EscapeString t ++
      '<' :: '/' :: 'l' :: 'i' :: '>' :: '<' :: '/' :: tag :: 'l' :: ['>']) ∨ tag = '\n' := by
  by_cases htag : tag = '\n'
  · exact Or.inr htag
  · left
    have he := not_mem_EscapeString_newline t ht
    simp only [List.mem_cons, List.mem_append, not_or, List.mem_singleton, List.not_mem_nil,
      or_false]
    refine ⟨by decide, fun e => htag e.symm, by decide, by decide,
      ⟨⟨⟨hs, by decide⟩, by decide⟩, he⟩, by decide, by decide, by decide, by decide, by decide,
      by decide, by decide, fun e => htag e.symm, by decide, by decide⟩

theorem processLists_bullet (c : WechatConverter) (hs : '\n' ∉ c.styles.ListStyle) (t : Str)
    (ht : t ≠ []) (hn : '\n' ∉ t) :
    processLists c ("•".toList ++ t) =
      "<ul ".toList ++ c.styles.ListStyle ++ ">".toList ++ liOpen ++
        EscapeString (TrimSpace t) ++ "</li></ul>".toList := by
  have hl : '\n' ∉ "•".toList ++ t := not_mem_cons_append _ _ _ (by decide) hn
  have hel : '\n' ∉ "<ul ".toList ++ c.styles.ListStyle ++ ">".toList ++ liOpen ++
      EscapeString (TrimSpace t) ++ "</li></ul>".toList := by
    rcases listElement_line 'u' c.styles.ListStyle (TrimSpace t) hs
      (fun h => hn (mem_of_mem_TrimSpace _ _ h)) with h | h
    · simpa using h
    · exact absurd h (by decide)
  unfold processLists
  simp only []
  rw [replaceLines_line _ _ _ hl ⟨t, litMarker_append _ _, ht⟩, TrimPrefix_append,
    replaceLines_single _ _ _ hel (by show unorderedMarker ('<' :: 'u' :: _) = none; rfl),
    replaceLines_single _ _ _ hel (orderedMarker_of_head '<' _ (by decide))]

theorem processLists_dash (c : WechatConverter) (hs : '\n' ∉ c.styles.ListStyle) (t : Str)
    (ht : t ≠ []) (hn : '\n' ∉ t) :
    processLists c ("- ".toList ++ t) =
      "<ul ".toList ++ c.styles.ListStyle ++ ">".toList ++ liOpen ++
        EscapeString t ++ "</li></ul>".toList := by
  have hl : '\n' ∉ "- ".toList ++ t := not_mem_cons_append _ _ _ (by decide) hn
  have hel : '\n' ∉ "<ul ".toList ++ c.styles.ListStyle ++ ">".toList ++ liOpen ++
      EscapeString t ++ "</li></ul>".toList := by
    rcases listElement_line 'u' c.styles.ListStyle t hs hn with h | h
    · simpa using h
    · exact absurd h (by decide)
  have hb : litMarker "•".toList ("- ".toList ++ t) = none :=
    litMarker_of_head '-' '•' _ [] (by decide)
  have hu : unorderedMarker ("- ".toList ++ t) = some t := by
    show unorderedMarker ('-' :: ' ' :: t) = some t
    simp [unorderedMarker]
  unfold processLists
  simp only []
  rw [replaceLines_single _ _ _ hl hb, replaceLines_line _ _ _ hl ⟨t, hu, ht⟩]
  simp only [stripMarker, hu, Option.getD_some]
  rw [replaceLines_single _ _ _ hel (orderedMarker_of_head '<' _ (by decide))]

theorem processLists_number (c : WechatConverter) (t : Str) (ht : t ≠ []) (hn : '\n' ∉ t) :
    processLists c ("1.".toList ++ t) =
      "<ol ".toList ++ c.styles.ListStyle ++ ">".toList ++ liOpen ++
        EscapeString (TrimSpace t) ++ "</li></ol>".toList := by
  have hl : '\n' ∉ "1.".toList ++ t := not_mem_cons_append _ _ _ (by decide) hn
  have hb : litMarker "•".toList ("1.".toList ++ t) = none :=
    litMarker_of_head '1' '•' _ [] (by decide)
  have hu : unorderedMarker ("1.".toList ++ t) = none := by
    show unorderedMarker ('1' :: '.' :: t) = none
    simp [unorderedMarker]
  have ho : orderedMarker ("1.".toList ++ t) = some t := by
    show orderedMarker ('1' :: '.' :: t) = some t
    have h1 : isDigit '1' = true := by decide
    have h2 : isDigit '.' = false := by decide
    simp [orderedMarker, List.takeWhile, List.dropWhile, h1, h2]
  unfold processLists
  simp only []
  rw [replaceLines_single _ _ _ hl hb, replaceLines_single _ _ _ hl hu,
    replaceLines_line _ _ _ hl ⟨t, ho, ht⟩]
  simp only [stripMarker, ho, Option.getD_some]

theorem processLinks_link (c : WechatConverter) (t u : Str) (ht : t ≠ []) (ht2 : ']' ∉ t)
    (hu : u ≠ []) (hu2 : ')' ∉ u) :
    processLinks c (linkText t u) =
      some ("<span ".toList ++ c.styles.LinkStyle ++ ">".toList ++ EscapeString t ++
          "</span><sup>[".toList ++ itoa (c.footnotes.length + 1) ++ "]</sup>".toList,
        { c with footnotes := c.footnotes ++ [u] }) := by
  have e1 := renderLinks_link c.styles.LinkStyle c.footnotes.length t u [] ht ht2 hu hu2
  have e2 := linkURLs_link t u [] ht ht2 hu hu2
  rw [List.append_nil] at e1 e2
  rw [processLinks_eq, e1, e2]
  simp [renderLinks, linkURLs]

theorem inlineCodeRegex_eval (x rest : Str) (hx : x ≠ []) (hb : backtick ∉ x) :
    inlineCodeRegex (backtick :: x ++ [backtick] ++ rest) = some [backtick :: x ++ [backtick], x] := by
  have hp : ∀ a ∈ x, (fun y : Char => y != backtick) a = true := by
    intro a ha
    simp only [bne_iff_ne, ne_eq]
    rintro rfl
    exact hb ha
  have e : backtick :: x ++ [backtick] ++ rest = backtick :: (x ++ backtick :: rest) := by simp
  rw [e]
  simp only [inlineCodeRegex, takeWhile_append_stop _ x backtick _ hp (by decide),
    dropWhile_append_stop _ x backtick _ hp (by decide)]
  simp [hx]

theorem Trim_wrapped (x : Str) (q : Char) (hx : x ≠ []) (hq : q ∉ x) :
    Trim (q :: x ++ [q]) q = x := by
  obtain ⟨x0, xs, rfl⟩ := List.exists_cons_of_ne_nil hx
  obtain ⟨init, y, hy⟩ : ∃ init y, x0 :: xs = init ++ [y] :=
    ⟨_, _, (List.dropLast_append_getLast (List.cons_ne_nil x0 xs)).symm⟩
  have h0 : x0 ≠ q := fun e => hq (e ▸ List.mem_cons_self _ _)
  have hyq : y ≠ q := fun e => hq (by rw [hy, ← e]; simp)
  have hb0 : (x0 == q) = false := by simp [h0]
  have hby : (y == q) = false := by simp [hyq]
  have e1 : (q :: (x0 :: xs) ++ [q]).dropWhile (fun z => z == q) = (x0 :: xs) ++ [q] := by
    simp [List.dropWhile, hb0]
  unfold Trim
  rw [e1, hy]
  simp [List.dropWhile, hby]

theorem processInlineCode_span (c : WechatConverter) (x : Str) (hx : x ≠ []) (hb : backtick ∉ x) :
    processInlineCode c (backtick :: x ++ [backtick]) =
      "<code ".toList ++ c.styles.InlineCodeStyle ++ ">".toList ++ EscapeString x ++
        "</code>".toList := by
  have e := replaceAllAuxP_match inlineCodeRegex
    (fun g => "<code ".toList ++ c.styles.InlineCodeStyle ++ ">".toList ++
      EscapeString (Trim (g.headD []) backtick) ++ "</code>".toList) backtick
    (x ++ [backtick]) [] _ (inlineCodeRegex_eval x [] hx hb) rfl
  simp only [List.append_nil] at e
  unfold processInlineCode ReplaceAllStringFunc
  refine e.trans ?_
  simp only [List.headD_cons, replaceAllAuxP, List.append_nil]
  rw [Trim_wrapped x backtick hx hb]

/-- Claim C31: `EscapeString` works character by character and replaces `&`,
`<`, `>`, the double quote and the apostrophe by `&amp;`, `&lt;`, `&gt;`, `&#34;`
and `&#39;`; for every text its result holds no `<`, no `>` and no quote
character, and every `&` of the result begins one of the five entities. With the
default styles, the heading, blockquote, list, table, link, inline-code and
footnote stages put into their element the escaped source text: the trimmed text
of a heading, of a quote and of a bulleted or numbered item, the text of a dashed
item, the cell of a table, the text of a link, the contents of a code span, and
the address of a footnote. -/
theorem c31_escaped_text (c : WechatConverter) (hc : c.styles = getDefaultStyles) :
    (∀ s t : Str, EscapeString (s ++ t) = EscapeString s ++ EscapeString t) ∧
    (∀ x : Char, EscapeString [x] =
      if x = '&' then "&amp;".toList
      else if x = Char.ofNat 39 then "&#39;".toList
      else if x = '<' then "&lt;".toList
      else if x = '>' then "&gt;".toList
      else if x = Char.ofNat 34 then "&#34;".toList
      else [x]) ∧
    (∀ s : Str, '<' ∉ EscapeString s ∧ '>' ∉ EscapeString s ∧
      Char.ofNat 34 ∉ EscapeString s ∧ Char.ofNat 39 ∉ EscapeString s) ∧
    (∀ s a r : Str, EscapeString s = a ++ '&' :: r →
      ∃ ent ∈ ["amp;".toList, "lt;".toList, "gt;".toList, "#34;".toList, "#39;".toList],
        ∃ r2, r = ent ++ r2) ∧
    (∀ t : Str, t ≠ [] → '\n' ∉ t →
      processHeaders c ("# ".toList ++ t) =
        "<h1 ".toList ++ c.styles.H1Style ++ ">".toList ++ EscapeString (TrimSpace t) ++
          "</h1>".toList ∧
      processHeaders c ("## ".toList ++ t) =
        "<h2 ".toList ++ c.styles.H2Style ++ ">".toList ++ EscapeString (TrimSpace t) ++
          "</h2>".toList ∧
      processHeaders c ("### ".toList ++ t) =
        "<h3 ".toList ++ c.styles.H3Style ++ ">".toList ++ EscapeString (TrimSpace t) ++
          "</h3>".toList ∧
      processQuotes c ("> ".toList ++ t) =
        "<blockquote ".toList ++ c.styles.QuoteStyle ++ ">".toList ++
          EscapeString (TrimSpace t) ++ "</blockquote>".toList ∧
      processLists c ("•".toList ++ t) =
        "<ul ".toList ++ c.styles.ListStyle ++ ">".toList ++ liOpen ++
          EscapeString (TrimSpace t) ++ "</li></ul>".toList ∧
      processLists c ("- ".toList ++ t) =
        "<ul ".toList ++ c.styles.ListStyle ++ ">".toList ++ liOpen ++
          EscapeString t ++ "</li></ul>".toList ∧
      processLists c ("1.".toList ++ t) =
        "<ol ".toList ++ c.styles.ListStyle ++ ">".toList ++ liOpen ++
          EscapeString (TrimSpace t) ++ "</li></ol>".toList) ∧
    (∀ (header : Str) (rows : List Str),
      convertTable c (header :: rows) = tableSpec c header rows) ∧
    (∀ cell : Str, thElement c cell =
      "<th ".toList ++ c.styles.TableHeaderStyle ++ ">".toList ++ EscapeString cell ++
        "</th>".toList) ∧
    (∀ (j : Nat) (cell : Str), tdElement c j cell =
      "<td ".toList ++ cellStyleOf c j cell ++ ">".toList ++ EscapeString cell ++
        "</td>".toList) ∧
    (∀ t u : Str, t ≠ [] → ']' ∉ t → u ≠ [] → ')' ∉ u →
      processLinks c (linkText t u) =
        some ("<span ".toList ++ c.styles.LinkStyle ++ ">".toList ++ EscapeString t ++
            "</span><sup>[".toList ++ itoa (c.footnotes.length + 1) ++ "]</sup>".toList,
          { c with footnotes := c.footnotes ++ [u] })) ∧
    (∀ x : Str, x ≠ [] → backtick ∉ x →
      processInlineCode c (backtick :: x ++ [backtick]) =
        "<code ".toList ++ c.styles.InlineCodeStyle ++ ">".toList ++ EscapeString x ++
          "</code>".toList) ∧
    (∀ u : Str, generateFootnotes { c with footnotes := [u] } =
      footnoteRule ++ footnoteHeading ++
        (footnoteOpen ++ "[1] ".toList ++ EscapeString u ++ "</p>".toList)) := by
  have hs1 : '\n' ∉ c.styles.H1Style := by rw [hc]; decide
  have hs2 : '\n' ∉ c.styles.H2Style := by rw [hc]; decide
  have hsl : '\n' ∉ c.styles.ListStyle := by rw [hc]; decide
  refine ⟨EscapeString_append, EscapeString_single, EscapeString_safe, EscapeString_amp,
    ?_, ?_, fun _ => rfl, fun _ _ => rfl, processLinks_link c, processInlineCode_span c, ?_⟩
  · intro t ht hn
    obtain ⟨x, xs, rfl⟩ := List.exists_cons_of_ne_nil ht
    refine ⟨?_, ?_, ?_, processQuotes_line c _ ht hn, processLists_bullet c hsl _ ht hn,
      processLists_dash c hsl _ ht hn, processLists_number c _ ht hn⟩
    · rw [processHeaders_line c hs1 hs2 _ (not_mem_cons_append _ _ _ (by decide) hn)]
      simp [headingLine, headingElement, HasPrefix]
    · rw [processHeaders_line c hs1 hs2 _ (not_mem_cons_append _ _ _ (by decide) hn)]
      simp [headingLine, headingElement, HasPrefix]
    · rw [processHeaders_line c hs1 hs2 _ (not_mem_cons_append _ _ _ (by decide) hn)]
      simp [headingLine, headingElement, HasPrefix]
  · intro header rows
    simp [convertTable, tableSpec, headerRowSpec, rowCells, headerCells_eq, dataRows_eq]
  · intro u
    have h1 : itoa (0 + 1) = ['1'] := by decide
    simp [generateFootnotes, footnoteItems, h1]

theorem c31_escaped_text_witness :
    (∀ s t : Str, EscapeString (s ++ t) = EscapeString s ++ EscapeString t) ∧
    (∀ x : Char, EscapeString [x] =
      if x = '&' then "&amp;".toList
      else if x = Char.ofNat 39 then "&#39;".toList
      else if x = '<' then "&lt;".toList
      else if x = '>' then "&gt;".toList
      else if x = Char.ofNat 34 then "&#34;".toList
      else [x]) ∧
    (∀ s : Str, '<' ∉ EscapeString s ∧ '>' ∉ EscapeString s ∧
      Char.ofNat 34 ∉ EscapeString s ∧ Char.ofNat 39 ∉ EscapeString s) ∧
    (∀ s a r : Str, EscapeString s = a ++ '&' :: r →
      ∃ ent ∈ ["amp;".toList, "lt;".toList, "gt;".toList, "#34;".toList, "#39;".toList],
        ∃ r2, r = ent ++ r2) ∧
    (∀ t : Str, t ≠ [] → '\n' ∉ t →
      processHeaders NewWechatConverterFixed ("# ".toList ++ t) =
        "<h1 ".toList ++ NewWechatConverterFixed.styles.H1Style ++ ">".toList ++
          EscapeString (TrimSpace t) ++ "</h1>".toList ∧
      processHeaders NewWechatConverterFixed ("## ".toList ++ t) =
        "<h2 ".toList ++ NewWechatConverterFixed.styles.H2Style ++ ">".toList ++
          EscapeString (TrimSpace t) ++ "</h2>".toList ∧
      processHeaders NewWechatConverterFixed ("### ".toList ++ t) =
        "<h3 ".toList ++ NewWechatConverterFixed.styles.H3Style ++ ">".toList ++
          EscapeString (TrimSpace t) ++ "</h3>".toList ∧
      processQuotes NewWechatConverterFixed ("> ".toList ++ t) =
        "<blockquote ".toList ++ NewWechatConverterFixed.styles.QuoteStyle ++ ">".toList ++
          EscapeString (TrimSpace t) ++ "</blockquote>".toList ∧
      processLists NewWechatConverterFixed ("•".toList ++ t) =
        "<ul ".toList ++ NewWechatConverterFixed.styles.ListStyle ++ ">".toList ++ liOpen ++
          EscapeString (TrimSpace t) ++ "</li></ul>".toList ∧
      processLists NewWechatConverterFixed ("- ".toList ++ t) =
        "<ul ".toList ++ NewWechatConverterFixed.styles.ListStyle ++ ">".toList ++ liOpen ++
          EscapeString t ++ "</li></ul>".toList ∧
      processLists NewWechatConverterFixed ("1.".toList ++ t) =
        "<ol ".toList ++ NewWechatConverterFixed.styles.ListStyle ++ ">".toList ++ liOpen ++
          EscapeString (TrimSpace t) ++ "</li></ol>".toList) ∧
    (∀ (header : Str) (rows : List Str),
      convertTable NewWechatConverterFixed (header :: rows) =
        tableSpec NewWechatConverterFixed header rows) ∧
    (∀ cell : Str, thElement NewWechatConverterFixed cell =
      "<th ".toList ++ NewWechatConverterFixed.styles.TableHeaderStyle ++ ">".toList ++
        EscapeString cell ++ "</th>".toList) ∧
    (∀ (j : Nat) (cell : Str), tdElement NewWechatConverterFixed j cell =
      "<td ".toList ++ cellStyleOf NewWechatConverterFixed j cell ++ ">".toList ++
        EscapeString cell ++ "</td>".toList) ∧
    (∀ t u : Str, t ≠ [] → ']' ∉ t → u ≠ [] → ')' ∉ u →
      processLinks NewWechatConverterFixed (linkText t u) =
        some ("<span ".toList ++ NewWechatConverterFixed.styles.LinkStyle ++ ">".toList ++
            EscapeString t ++ "</span><sup>[".toList ++
            itoa (NewWechatConverterFixed.footnotes.length + 1) ++ "]</sup>".toList,
          { NewWechatConverterFixed with
            footnotes := NewWechatConverterFixed.footnotes ++ [u] })) ∧
    (∀ x : Str, x ≠ [] → backtick ∉ x →
      processInlineCode NewWechatConverterFixed (backtick :: x ++ [backtick]) =
        "<code ".toList ++ NewWechatConverterFixed.styles.InlineCodeStyle ++ ">".toList ++
          EscapeString x ++ "</code>".toList) ∧
    (∀ u : Str, generateFootnotes { NewWechatConverterFixed with footnotes := [u] } =
      footnoteRule ++ footnoteHeading ++
        (footnoteOpen ++ "[1] ".toList ++ EscapeString u ++ "</p>".toList)) :=
  c31_escaped_text NewWechatConverterFixed rfl

/-! ### Replacing one placeholder -/

theorem mem_of_Contains (s : Str) (x : Char) (sub : Str)
    (h : Contains s (x :: sub) = true) : x ∈ s := by
  induction s with
  | nil => simp [Contains, HasPrefix] at h
  | cons c cs ih =>
    simp only [Contains, Bool.or_eq_true] at h
    rcases h with h | h
    · obtain ⟨r, hr⟩ := (HasPrefix_iff _ _).mp h
      simp only [List.cons_append, List.cons.injEq] at hr
      rw [hr.1]
      exact List.mem_cons_self _ _
    · exact List.mem_cons_of_mem _ (ih h)

theorem replaceAllAux_skip (old new w s : Str) :
    replaceAllAux old new w.length (w ++ s) = replaceAllAux old new 0 s := by
  induction w with
  | nil => rfl
  | cons c cs ih => simpa [replaceAllAux] using ih

theorem replaceAllAux_pre (o : Char) (os new pre s : Str) (hp : o ∉ pre) :
    replaceAllAux (o :: os) new 0 (pre ++ s) = pre ++ replaceAllAux (o :: os) new 0 s := by
  induction pre with
  | nil => rfl
  | cons c cs ih =>
    have hc : c ≠ o := fun e => hp (e ▸ List.mem_cons_self _ _)
    have ih2 := ih (fun hm => hp (List.mem_cons_of_mem _ hm))
    show replaceAllAux (o :: os) new 0 (c :: (cs ++ s)) = c :: (cs ++ replaceAllAux (o :: os) new 0 s)
    rw [replaceAllAux, HasPrefix_cons_ne c o _ _ hc, ih2]
    rfl

theorem replaceAllAux_match (o : Char) (os new s : Str) :
    replaceAllAux (o :: os) new 0 ((o :: os) ++ s) =
      new ++ replaceAllAux (o :: os) new 0 s := by
  have h : HasPrefix (o :: (os ++ s)) (o :: os) = true := HasPrefix_append (o :: os) s
  show replaceAllAux (o :: os) new 0 (o :: (os ++ s)) = _
  rw [replaceAllAux, h]
  simp only [if_true, List.length_cons, Nat.add_sub_cancel, replaceAllAux_skip]

theorem ReplaceAll_once (o : Char) (os new pre post : Str) (h1 : o ∉ pre) (h2 : o ∉ post) :
    ReplaceAll (pre ++ (o :: os) ++ post) (o :: os) new = pre ++ new ++ post := by
  have e := replaceAllAux_pre o os new post [] h2
  simp only [List.append_nil] at e
  have e0 : replaceAllAux (o :: os) new 0 [] = [] := rfl
  rw [e0, List.append_nil] at e
  unfold ReplaceAll
  simp only []
  rw [List.append_assoc, replaceAllAux_pre o os new pre _ h1, replaceAllAux_match, e,
    List.append_assoc]

/-- Claim C32: for every language tag without a newline and every body without
a backtick, such that preprocessing leaves the document unchanged, converting
with a new converter the document that is only the fenced block of the tag and
the body returns the `<section>` of the code-block style with the escaped body,
inside a paragraph element. The tag is discarded, and the block is wrapped as a
paragraph because its placeholder line does not start with `<`. -/
theorem c32_block_inside_paragraph (ord : MapOrder) (tag b : Str) (ht : '\n' ∉ tag)
    (hb : backtick ∉ b) (hpre : preprocessText (fencedBlock tag b) = fencedBlock tag b) :
    ConvertMarkdownToWechat ord NewWechatConverterFixed (fencedBlock tag b) =
      some ("<p ".toList ++ NewWechatConverterFixed.styles.ParagraphStyle ++ ">".toList ++
        ("<section ".toList ++ NewWechatConverterFixed.styles.CodeBlockStyle ++ ">".toList ++
          EscapeString b ++ "</section>".toList) ++ "</p>".toList,
        { NewWechatConverterFixed with
          codeBlocks := [(placeholder 0,
            "<section ".toList ++ NewWechatConverterFixed.styles.CodeBlockStyle ++ ">".toList ++
              EscapeString b ++ "</section>".toList)] }) := by
  have hproper : properBlock tag b = true := by
    have h1 : tag.all (fun x => x != '\n') = true := by
      rw [List.all_eq_true]
      intro x hx
      simp only [bne_iff_ne, ne_eq]
      rintro rfl
      exact ht hx
    have h2 : Contains b fence = false := by
      cases hc : Contains b fence with
      | false => rfl
      | true => exact absurd (mem_of_Contains b backtick [backtick, backtick] hc) hb
    have h3 : (b.getLast? == some backtick) = false := by
      cases hl : b.getLast? with
      | none => rfl
      | some y =>
        have hy : y ∈ b := List.mem_of_getLast?_eq_some hl
        have : y ≠ backtick := fun e => hb (e ▸ hy)
        simp [this]
    simp [properBlock, h1, h2, h3]
  have hdoc : fencedBlock tag b = blocksDoc [([], tag, b)] [] := by simp [blocksDoc]
  obtain ⟨hx1, hx2⟩ := extract_blocks NewWechatConverterFixed.styles.CodeBlockStyle 0
    [([], tag, b)] [] (by simpa using hproper) (by simp)
  rw [← hdoc] at hx1 hx2
  have hfresh : freshState NewWechatConverterFixed = NewWechatConverterFixed := rfl
  have hl : linkStageText NewWechatConverterFixed (fencedBlock tag b) = placeholder 0 := by
    unfold linkStageText
    have hrep : blocksReplaced 0 [([], tag, b)] [] = placeholder 0 := by
      simp [blocksReplaced]
    rw [hpre, hx1, hrep]
    decide!
  have ha : afterLinks NewWechatConverterFixed (placeholder 0) =
      "<p ".toList ++ NewWechatConverterFixed.styles.ParagraphStyle ++ ">".toList ++
        placeholder 0 ++ "</p>".toList := by
    decide!
  have hst : convertStages NewWechatConverterFixed (fencedBlock tag b) =
      some ("<p ".toList ++ NewWechatConverterFixed.styles.ParagraphStyle ++ ">".toList ++
        placeholder 0 ++ "</p>".toList,
        { NewWechatConverterFixed with
          codeBlocks := [(placeholder 0,
            "<section ".toList ++ NewWechatConverterFixed.styles.CodeBlockStyle ++ ">".toList ++
              EscapeString b ++ "</section>".toList)] }) := by
    rw [convertStages_eq, hfresh, hl, ha, hpre, hx2]
    rfl
  rw [ConvertMarkdownToWechat_eq, hst]
  simp only [Option.map]
  rw [convertFinish_singleton ord _ _ _ _ rfl]
  have hr := ReplaceAll_once '_' "_CODE_BLOCK_0__".toList
    ("<section ".toList ++ NewWechatConverterFixed.styles.CodeBlockStyle ++ ">".toList ++
      EscapeString b ++ "</section>".toList)
    ("<p ".toList ++ NewWechatConverterFixed.styles.ParagraphStyle ++ ">".toList)
    "</p>".toList (by decide) (by decide)
  have hph : placeholder 0 = '_' :: "_CODE_BLOCK_0__".toList := by decide
  rw [hph]
  rw [if_neg (by show ¬ (([] : List Str).length > 0); decide)]
  rw [hr]

theorem c32_block_inside_paragraph_witness :
    ConvertMarkdownToWechat MapOrder.insertion NewWechatConverterFixed
        (fencedBlock "go".toList "x < y\n".toList) =
      some ("<p ".toList ++ NewWechatConverterFixed.styles.ParagraphStyle ++ ">".toList ++
        ("<section ".toList ++ NewWechatConverterFixed.styles.CodeBlockStyle ++ ">".toList ++
          EscapeString "x < y\n".toList ++ "</section>".toList) ++ "</p>".toList,
        { NewWechatConverterFixed with
          codeBlocks := [(placeholder 0,
            "<section ".toList ++ NewWechatConverterFixed.styles.CodeBlockStyle ++ ">".toList ++
              EscapeString "x < y\n".toList ++ "</section>".toList)] }) :=
  c32_block_inside_paragraph MapOrder.insertion "go".toList "x < y\n".toList (by decide)
    (by decide) (by decide)

/-! ### The lines `preprocessText` emits -/

theorem isSpace_of_isDigit (x : Char) (h : isDigit x = true) : isSpace x = false := by
  simp only [isDigit, Bool.and_eq_true, decide_eq_true_eq] at h
  simp only [isSpace, Bool.or_eq_false_iff, Bool.and_eq_false_iff, decide_eq_false_iff_not]
  omega

theorem marker_shape (d : Str) (h : isOrphanMarker d = true) :
    ∃ ds, ds ≠ [] ∧ (∀ x ∈ ds, isDigit x = true) ∧ d = ds ++ ['.'] := by
  unfold isOrphanMarker at h
  have e := List.takeWhile_append_dropWhile isDigit d
  split at h
  · rename_i a as c ht hd
    simp only [decide_eq_true_eq] at h
    refine ⟨a :: as, by simp, ?_, ?_⟩
    · rw [← ht]
      exact takeWhile_all isDigit d
    · rw [ht, hd, h] at e
      exact e.symm
  · simp at h

theorem joined_not_marker (d c : Str) (hd : isOrphanMarker d = true) (hc : TrimSpace c ≠ []) :
    (d ++ [' '] ++ TrimSpace c) ≠ [] ∧
      isOrphanMarker (TrimSpace (d ++ [' '] ++ TrimSpace c)) = false := by
  obtain ⟨ds, hne, hds, rfl⟩ := marker_shape d hd
  obtain ⟨x, xs, rfl⟩ := List.exists_cons_of_ne_nil hne
  rcases TrimSpace_facts c with h | ⟨y0, m, init, y, h1, h2, _, h4⟩
  · exact absurd h hc
  · have hx : isSpace x = false := isSpace_of_isDigit x (hds x (List.mem_cons_self _ _))
    have e : x :: xs ++ ['.'] ++ [' '] ++ TrimSpace c =
        x :: (xs ++ ['.'] ++ [' '] ++ init ++ [y]) := by
      rw [h1, h2]
      simp
    have e2 : x :: (xs ++ ['.'] ++ [' '] ++ init ++ [y]) =
        (x :: xs ++ ['.'] ++ [' '] ++ init) ++ [y] := by simp
    refine ⟨by simp, ?_⟩
    rw [e, TrimSpace_id x _ _ y e2 hx h4]
    have e3 : x :: (xs ++ ['.'] ++ [' '] ++ init ++ [y]) =
        (x :: xs) ++ '.' :: (' ' :: (init ++ [y])) := by simp
    rw [e3]
    unfold isOrphanMarker
    rw [takeWhile_append_stop isDigit (x :: xs) '.' _ hds (by decide),
      dropWhile_append_stop isDigit (x :: xs) '.' _ hds (by decide)]

theorem joinMarkers_lines (k : Nat) (lines : List Str) (hn : ∀ l ∈ lines, '\n' ∉ l) :
    ∀ l ∈ joinMarkers k lines,
      '\n' ∉ l ∧ l ≠ [] ∧ isOrphanMarker (TrimSpace l) = false := by
  induction lines generalizing k with
  | nil =>
    intro l hl
    cases k <;> simp [joinMarkers] at hl
  | cons x xs ih =>
    have hxs : ∀ l ∈ xs, '\n' ∉ l := fun l hl => hn l (List.mem_cons_of_mem _ hl)
    have hx : '\n' ∉ x := hn x (List.mem_cons_self _ _)
    cases k with
    | succ k =>
      simp only [joinMarkers]
      exact ih k hxs
    | zero =>
      simp only [joinMarkers]
      by_cases hm : isOrphanMarker (TrimSpace x) = true
      · rw [if_pos hm]
        cases hf : firstContent xs with
        | none => exact ih 0 hxs
        | some p =>
          obtain ⟨j, content⟩ := p
          simp only
          intro l hl
          rcases List.mem_cons.mp hl with hl | hl
          · obtain ⟨hj, hc, hcne⟩ := firstContent_lt xs j content hf
            have hmem : xs.getD j [] ∈ xs := by
              rw [List.getD_eq_getElem _ _ hj]
              exact List.getElem_mem _
            subst hl
            rw [hc] at hcne ⊢
            obtain ⟨h1, h2⟩ := joined_not_marker (TrimSpace x) (xs.getD j []) hm hcne
            refine ⟨?_, h1, h2⟩
            simp only [List.mem_append, not_or]
            exact ⟨⟨fun h => hx (mem_of_mem_TrimSpace _ _ h), by decide⟩,
              fun h => hxs _ hmem (mem_of_mem_TrimSpace _ _ h)⟩
          · exact ih _ hxs l hl
      · rw [if_neg hm]
        by_cases hne : x ≠ []
        · rw [if_pos hne]
          intro l hl
          rcases List.mem_cons.mp hl with hl | hl
          · subst hl
            exact ⟨hx, hne, by simpa using hm⟩
          · exact ih 0 hxs l hl
        · rw [if_neg hne]
          exact ih 0 hxs

theorem preprocessText_eq (text : Str) :
    preprocessText text = Join ['\n'] (joinMarkers 0 (Split '\n' text)) := by
  unfold preprocessText
  simp only []
  rw [preprocessLoop_lines]

theorem firstContent_none (ws : List Str) (hws : ∀ w ∈ ws, TrimSpace w = []) :
    firstContent ws = none := by
  induction ws with
  | nil => rfl
  | cons w ws ih =>
    simp [firstContent, hws w (List.mem_cons_self _ _),
      ih (fun v hv => hws v (List.mem_cons_of_mem _ hv))]

theorem joinMarkers_blank (ws : List Str) (hws : ∀ w ∈ ws, TrimSpace w = []) :
    joinMarkers 0 ws = ws.filter (fun w => w ≠ []) := by
  induction ws with
  | nil => rfl
  | cons w ws ih =>
    have hw : TrimSpace w = [] := hws w (List.mem_cons_self _ _)
    have hm : isOrphanMarker (TrimSpace w) = false := by
      rw [hw]
      rfl
    have ih2 := ih (fun v hv => hws v (List.mem_cons_of_mem _ hv))
    by_cases hne : w ≠ []
    · simp [joinMarkers, hm, hne, ih2, List.filter_cons]
    · simp [joinMarkers, hm, hne, ih2, List.filter_cons]

theorem markersJoined_blank (ws : List Str) (hws : ∀ w ∈ ws, TrimSpace w = []) :
    markersJoined ws = true := by
  induction ws with
  | nil => rfl
  | cons w ws ih =>
    have hw : TrimSpace w = [] := hws w (List.mem_cons_self _ _)
    have hm : isOrphanMarker (TrimSpace w) = false := by
      rw [hw]
      rfl
    simp [markersJoined, hm, ih (fun v hv => hws v (List.mem_cons_of_mem _ hv))]

/-- Claim C33, counterexample: the marker line `2.` is followed by no line with
content, but it is the content of the marker line `1.` before it, and it is
emitted as part of the joined line. -/
theorem c33_marker_kept_as_content :
    preprocessText "1.\n2.".toList = "1. 2.".toList := by
  decide

/-- Claim C33, amended: take the lines `pre`, then an orphaned marker line `m`
that is followed by no line with content, only by the blank or whitespace-only
lines `ws`. Exactly one of two things happens. (1) When the loop, having run
over `pre`, has no marker waiting for its content (`markerPending 0 pre = false`),
`preprocessText` drops the marker line: `pre` is preprocessed on its own, the
lines of `ws` are kept unless they are empty, and the result is that of the
document without the marker line. (2) Otherwise `pre` ends with an orphaned
marker line `d` and blank or whitespace-only lines after it, with no marker
waiting before `d`; then `m` is not dropped: it is emitted as the content of
`d`, in the line of the trimmed `d`, one space and the trimmed `m`. So
`preprocessText("text\n1.")` is `text` and `preprocessText("1.")` is empty. -/
theorem c33_marker_dropped (pre ws : List Str) (m : Str)
    (hm : isOrphanMarker (TrimSpace m) = true)
    (hws : ∀ w ∈ ws, TrimSpace w = []) (hn : ∀ l ∈ pre ++ m :: ws, '\n' ∉ l) :
    (markerPending 0 pre = false →
      preprocessLoop (pre ++ m :: ws).length 0 (pre ++ m :: ws) [] =
        preprocessLoop pre.length 0 pre [] ++ ws.filter (fun w => w ≠ []) ∧
      preprocessLoop (pre ++ m :: ws).length 0 (pre ++ m :: ws) [] =
        preprocessLoop (pre ++ ws).length 0 (pre ++ ws) [] ∧
      preprocessText (Join ['\n'] (pre ++ m :: ws)) =
        Join ['\n'] (preprocessLoop pre.length 0 pre [] ++ ws.filter (fun w => w ≠ []))) ∧
    (markerPending 0 pre = true →
      ∃ a d bs, pre = a ++ d :: bs ∧ markerPending 0 a = false ∧
        isOrphanMarker (TrimSpace d) = true ∧ (∀ b ∈ bs, TrimSpace b = []) ∧
        preprocessLoop (pre ++ m :: ws).length 0 (pre ++ m :: ws) [] =
          preprocessLoop a.length 0 a [] ++ [TrimSpace d ++ " ".toList ++ TrimSpace m] ++
            ws.filter (fun w => w ≠ []) ∧
        preprocessText (Join ['\n'] (pre ++ m :: ws)) =
          Join ['\n'] (preprocessLoop a.length 0 a [] ++
            [TrimSpace d ++ " ".toList ++ TrimSpace m] ++ ws.filter (fun w => w ≠ []))) ∧
    preprocessText "text\n1.".toList = "text".toList ∧
    preprocessText "1.".toList = [] := by
  have ht : preprocessText (Join ['\n'] (pre ++ m :: ws)) =
      Join ['\n'] (preprocessLoop (pre ++ m :: ws).length 0 (pre ++ m :: ws) []) := by
    unfold preprocessText
    simp only []
    rw [Split_Join '\n' _ (by simp) hn]
  refine ⟨?_, ?_, by decide, by decide⟩
  · intro hfree
    have h0 : joinMarkers 0 (m :: ws) = ws.filter (fun w => w ≠ []) := by
      simp only [joinMarkers]
      rw [if_pos hm, firstContent_none ws hws]
      exact joinMarkers_blank ws hws
    have h1 : preprocessLoop (pre ++ m :: ws).length 0 (pre ++ m :: ws) [] =
        preprocessLoop pre.length 0 pre [] ++ ws.filter (fun w => w ≠ []) := by
      rw [preprocessLoop_lines, preprocessLoop_lines,
        joinMarkers_append_free pre _ 0 hfree (Nat.zero_le _), h0]
    refine ⟨h1, ?_, by rw [ht, h1]⟩
    rw [h1, preprocessLoop_lines, preprocessLoop_lines,
      joinMarkers_append_free pre _ 0 hfree (Nat.zero_le _), joinMarkers_blank ws hws]
  · intro hpend
    obtain ⟨a, d, bs, e, _, hfa, hd, hbs⟩ := markerPending_split pre 0 hpend (Nat.zero_le _)
    have h1 : preprocessLoop (pre ++ m :: ws).length 0 (pre ++ m :: ws) [] =
        preprocessLoop a.length 0 a [] ++ [TrimSpace d ++ " ".toList ++ TrimSpace m] ++
          ws.filter (fun w => w ≠ []) := by
      rw [preprocessLoop_lines, preprocessLoop_lines, e,
        joinMarkers_pending a bs ws d m hfa hd hbs (marker_not_blank m hm),
        joinMarkers_blank ws hws]
      rfl
    exact ⟨a, d, bs, e, hfa, hd, hbs, h1, by rw [ht, h1]⟩

/-- Witness of claim C33, amended: in the lines `1.`, `2.`, `3.` the marker `3.`
is reached with no marker waiting, and it is dropped; in the lines `1.`, `2.` the
marker `1.` waits, and `2.` is emitted as its content. -/
theorem c33_marker_dropped_witness :
    preprocessText "1.\n2.\n3.".toList = "1. 2.".toList ∧
    preprocessText "1.\n2.".toList = "1. 2.".toList := by
  have h := (c33_marker_dropped ["1.".toList, "2.".toList] [] "3.".toList
    (by decide) (by decide) (by decide)).1 (by decide)
  obtain ⟨a, d, bs, e, _, _, _, _, h2⟩ :=
    (c33_marker_dropped ["1.".toList] [] "2.".toList
      (by decide) (by decide) (by decide)).2.1 (by decide)
  refine ⟨h.2.2.trans (by decide), ?_⟩
  cases a with
  | nil =>
    obtain ⟨rfl, rfl⟩ := List.cons.inj e
    exact h2.trans (by decide)
  | cons y ys =>
    have := (List.cons.inj e).2
    simp at this

/-- Claim C34: `preprocessText` is idempotent, and when its output is not empty
no line of the output is empty and no line of it is, after trimming, an orphaned
marker of digits and a dot. -/
theorem c34_preprocess_idempotent (text : Str) :
    preprocessText (preprocessText text) = preprocessText text ∧
    (preprocessText text ≠ [] →
      ∀ l ∈ Split '\n' (preprocessText text),
        l ≠ [] ∧ isOrphanMarker (TrimSpace l) = false) := by
  have hf := joinMarkers_lines 0 (Split '\n' text) (fun l hl => (mem_Split '\n' text l hl).1)
  rw [preprocessText_eq text]
  generalize joinMarkers 0 (Split '\n' text) = R at hf ⊢
  by_cases hR : R = []
  · subst hR
    constructor
    · decide
    · intro h
      exact absurd rfl h
  · refine ⟨preprocessText_Join R hR (fun l hl => (hf l hl).1) (fun l hl => (hf l hl).2), ?_⟩
    intro _ l hl
    rw [Split_Join '\n' R hR (fun l hl => (hf l hl).1)] at hl
    exact (hf l hl).2

/-! ### Paragraph lines -/

theorem paragraph_lines (c : WechatConverter) (hs : '\n' ∉ c.styles.ParagraphStyle)
    (ls : List Str) (hn : ∀ l ∈ ls, '\n' ∉ l) :
    ∀ l ∈ ls.filterMap (fun line =>
        let line := TrimSpace line
        if line = [] then none
        else if HasPrefix line ['<'] then some line
        else some ("<p ".toList ++ c.styles.ParagraphStyle ++ ">".toList ++ line ++
          "</p>".toList)),
      '\n' ∉ l ∧ (TrimSpace l = l ∧ l ≠ [] ∧ HasPrefix l ['<'] = true) := by
  intro l hl
  obtain ⟨x, hx, hf⟩ := List.mem_filterMap.mp hl
  have hnx : '\n' ∉ TrimSpace x := fun hm => hn x hx (mem_of_mem_TrimSpace _ _ hm)
  simp only at hf
  split at hf
  · simp at hf
  · rename_i hne
    split at hf
    · rename_i hp
      simp only [Option.some.injEq] at hf
      subst hf
      exact ⟨hnx, TrimSpace_idem x, hne, hp⟩
    · simp only [Option.some.injEq] at hf
      subst hf
      refine ⟨?_, ?_, by simp, rfl⟩
      · simp only [List.mem_append, not_or]
        refine ⟨⟨⟨⟨?_, hs⟩, ?_⟩, hnx⟩, ?_⟩ <;> decide
      · exact TrimSpace_id '<' _
          ("<p ".toList ++ c.styles.ParagraphStyle ++ ">".toList ++ TrimSpace x ++ "</p".toList)
          '>' (by simp) (by decide) (by decide)

/-- Claim C35: `processParagraphs` is idempotent, and when its output is not
empty every line of the output is non-empty and starts with `<`. The paragraph
style holds no newline, as the default style does. -/
theorem c35_paragraphs_idempotent (c : WechatConverter) (text : Str)
    (hs : '\n' ∉ c.styles.ParagraphStyle) :
    processParagraphs c (processParagraphs c text) = processParagraphs c text ∧
    (processParagraphs c text ≠ [] →
      ∀ l ∈ Split '\n' (processParagraphs c text), l ≠ [] ∧ HasPrefix l ['<'] = true) := by
  have hf := paragraph_lines c hs (Split '\n' text) (fun l hl => (mem_Split '\n' text l hl).1)
  unfold processParagraphs at hf ⊢
  generalize (Split '\n' text).filterMap (fun line =>
        let line := TrimSpace line
        if line = [] then none
        else if HasPrefix line ['<'] then some line
        else some ("<p ".toList ++ c.styles.ParagraphStyle ++ ">".toList ++ line ++
          "</p>".toList)) = R at hf ⊢
  by_cases hR : R = []
  · subst hR
    constructor
    · simp [Join, Split, TrimSpace]
    · intro h
      exact absurd rfl h
  · have h1 := processParagraphs_Join c R hR (fun l hl => (hf l hl).1) (fun l hl => (hf l hl).2)
    unfold processParagraphs at h1
    refine ⟨h1, ?_⟩
    intro _ l hl
    rw [Split_Join '\n' R hR (fun l hl => (hf l hl).1)] at hl
    exact ⟨(hf l hl).2.2.1, (hf l hl).2.2.2⟩

theorem c35_paragraphs_idempotent_witness :
    processParagraphs NewWechatConverterFixed
        (processParagraphs NewWechatConverterFixed " a \n\n<b>".toList) =
      processParagraphs NewWechatConverterFixed " a \n\n<b>".toList ∧
    (processParagraphs NewWechatConverterFixed " a \n\n<b>".toList ≠ [] →
      ∀ l ∈ Split '\n' (processParagraphs NewWechatConverterFixed " a \n\n<b>".toList),
        l ≠ [] ∧ HasPrefix l ['<'] = true) :=
  c35_paragraphs_idempotent NewWechatConverterFixed " a \n\n<b>".toList (by decide)

/-! ### Texts of whitespace -/

theorem TrimSpace_of_space (l : Str) (h : ∀ x ∈ l, isSpace x = true) : TrimSpace l = [] := by
  have : l.dropWhile isSpace = [] := List.dropWhile_eq_nil_iff.mpr h
  simp [TrimSpace, this]

theorem not_mem_of_space (s : Str) (h : ∀ x ∈ s, isSpace x = true) (y : Char)
    (hy : isSpace y = false) : y ∉ s := by
  intro hm
  rw [h y hm] at hy
  exact absurd hy (by simp)

theorem replaceLines_of_none (marker : Str → Option Str) (repl : Str → Str) (text : Str)
    (h : ∀ l ∈ Split '\n' text, marker l = none) : replaceLines marker repl text = text := by
  unfold replaceLines
  have e : (Split '\n' text).map (fun l =>
      match marker l with
      | some (_ :: _) => repl l
      | _ => l) = Split '\n' text := by
    conv => rhs; rw [← List.map_id (Split '\n' text)]
    apply List.map_congr_left
    intro l hl
    rw [h l hl]
    rfl
  rw [e, Join_Split]

theorem litMarker_of_space (m0 : Char) (m l : Str) (hm : isSpace m0 = false)
    (h : ∀ x ∈ l, isSpace x = true) : litMarker (m0 :: m) l = none := by
  cases l with
  | nil => simp [litMarker, HasPrefix]
  | cons x xs =>
    have hx : x ≠ m0 := by
      rintro rfl
      rw [h x (List.mem_cons_self _ _)] at hm
      exact absurd hm (by simp)
    exact litMarker_of_head x m0 xs m hx

theorem unorderedMarker_of_space (l : Str) (h : ∀ x ∈ l, isSpace x = true) :
    unorderedMarker l = none := by
  cases l with
  | nil => rfl
  | cons x xs =>
    have hx := h x (List.mem_cons_self _ _)
    have h1 : x ≠ '-' := by rintro rfl; exact absurd hx (by decide)
    have h2 : x ≠ '*' := by rintro rfl; exact absurd hx (by decide)
    have h3 : x ≠ '+' := by rintro rfl; exact absurd hx (by decide)
    cases xs <;> simp [unorderedMarker, h1, h2, h3]

theorem orderedMarker_of_space (l : Str) (h : ∀ x ∈ l, isSpace x = true) :
    orderedMarker l = none := by
  cases l with
  | nil => rfl
  | cons x xs =>
    have hx := h x (List.mem_cons_self _ _)
    have hd : isDigit x = false := by
      cases hdx : isDigit x with
      | false => rfl
      | true =>
        rw [isSpace_of_isDigit x hdx] at hx
        exact absurd hx (by simp)
    exact orderedMarker_of_head x xs hd

theorem space_lines (text : Str) (h : ∀ x ∈ text, isSpace x = true) :
    ∀ l ∈ Split '\n' text, ∀ x ∈ l, isSpace x = true :=
  fun l hl x hx => h x ((mem_Split '\n' text l hl).2 x hx)

theorem processHeaders_space (c : WechatConverter) (text : Str)
    (h : ∀ x ∈ text, isSpace x = true) : processHeaders c text = text := by
  have hl := space_lines text h
  have h1 : ∀ l ∈ Split '\n' text, litMarker "# ".toList l = none :=
    fun l hm => litMarker_of_space '#' [' '] l (by decide) (hl l hm)
  have h2 : ∀ l ∈ Split '\n' text, litMarker "## ".toList l = none :=
    fun l hm => litMarker_of_space '#' ['#', ' '] l (by decide) (hl l hm)
  have h3 : ∀ l ∈ Split '\n' text, litMarker "### ".toList l = none :=
    fun l hm => litMarker_of_space '#' ['#', '#', ' '] l (by decide) (hl l hm)
  unfold processHeaders
  simp only []
  rw [replaceLines_of_none _ _ text h1, replaceLines_of_none _ _ text h2,
    replaceLines_of_none _ _ text h3]

theorem processQuotes_space (c : WechatConverter) (text : Str)
    (h : ∀ x ∈ text, isSpace x = true) : processQuotes c text = text := by
  have h1 : ∀ l ∈ Split '\n' text, litMarker "> ".toList l = none :=
    fun l hm => litMarker_of_space '>' [' '] l (by decide) (space_lines text h l hm)
  unfold processQuotes
  exact replaceLines_of_none _ _ text h1

theorem processLists_space (c : WechatConverter) (text : Str)
    (h : ∀ x ∈ text, isSpace x = true) : processLists c text = text := by
  have hl := space_lines text h
  have h1 : ∀ l ∈ Split '\n' text, litMarker "•".toList l = none :=
    fun l hm => litMarker_of_space '•' [] l (by decide) (hl l hm)
  unfold processLists
  simp only []
  rw [replaceLines_of_none _ _ text h1,
    replaceLines_of_none _ _ text (fun l hm => unorderedMarker_of_space l (hl l hm)),
    replaceLines_of_none _ _ text (fun l hm => orderedMarker_of_space l (hl l hm))]

theorem space_Join (ls : List Str) (h : ∀ l ∈ ls, ∀ x ∈ l, isSpace x = true) :
    ∀ x ∈ Join ['\n'] ls, isSpace x = true := by
  intro x hx
  rcases mem_Join _ _ _ hx with h1 | ⟨l, hl, hxl⟩
  · have : x = '\n' := by simpa using h1
    rw [this]
    decide
  · exact h l hl x hxl

theorem preprocessText_space (text : Str) (h : ∀ x ∈ text, isSpace x = true) :
    ∀ x ∈ preprocessText text, isSpace x = true := by
  rw [preprocessText_eq, joinMarkers_blank _
    (fun w hw => TrimSpace_of_space w (space_lines text h w hw))]
  apply space_Join
  intro l hl
  exact space_lines text h l (List.mem_filter.mp hl).1

theorem processTables_space (c : WechatConverter) (text : Str)
    (h : ∀ x ∈ text, isSpace x = true) : ∀ x ∈ processTables c text, isSpace x = true := by
  have hp : '|' ∉ text := not_mem_of_space text h '|' (by decide)
  have hl : ∀ l ∈ Split '\n' text, '|' ∉ l :=
    fun l hl hm => hp ((mem_Split '\n' text l hl).2 _ hm)
  unfold processTables
  rw [tablesLoop_no_pipe c _ [] [] hl]
  simp only [Bool.false_eq_true, false_and, if_false, List.nil_append]
  apply space_Join
  intro l hl2 x hx
  obtain ⟨l0, hl0, rfl⟩ := List.mem_map.mp hl2
  rw [TrimSpace_of_space l0 (space_lines text h l0 hl0)] at hx
  simp at hx

theorem processParagraphs_space (c : WechatConverter) (text : Str)
    (h : ∀ x ∈ text, isSpace x = true) : processParagraphs c text = [] := by
  unfold processParagraphs
  have e : (Split '\n' text).filterMap (fun line =>
        let line := TrimSpace line
        if line = [] then none
        else if HasPrefix line ['<'] then some line
        else some ("<p ".toList ++ c.styles.ParagraphStyle ++ ">".toList ++ line ++
          "</p>".toList)) = [] := by
    rw [List.filterMap_eq_nil_iff]
    intro l hl
    simp [TrimSpace_of_space l (space_lines text h l hl)]
  rw [e]
  rfl

theorem restore_nil (ord : MapOrder) (c : WechatConverter)
    (hk : ∀ e ∈ c.codeBlocks, e.1 ≠ []) : restoreCodeBlocks ord c [] = [] := by
  unfold restoreCodeBlocks
  have hv : ∀ e ∈ ord.visit c.codeBlocks, e.1 ≠ [] :=
    fun e he => hk e ((ord.perm c.codeBlocks).subset he)
  generalize ord.visit c.codeBlocks = es at hv
  induction es with
  | nil => rfl
  | cons e es ih =>
    have h1 : ReplaceAll [] e.1 e.2 = [] := by
      cases hk1 : e.1 with
      | nil => exact absurd hk1 (hv e (List.mem_cons_self _ _))
      | cons k ks => rfl
    simp only [List.foldl_cons, h1]
    exact ih (fun x hx => hv x (List.mem_cons_of_mem _ hx))

/-- Claim C36: for every input of whitespace characters only, the empty input
included, `ConvertMarkdownToWechat` returns the empty string and leaves the
converter with no footnote, whatever footnotes and placeholder entries the
converter held before the call. The keys of the placeholder map are not empty, as
the placeholders the converter writes are. -/
theorem c36_whitespace_input (ord : MapOrder) (c : WechatConverter) (text : Str)
    (hw : ∀ x ∈ text, isSpace x = true) (hk : ∀ e ∈ c.codeBlocks, e.1 ≠ []) :
    ConvertMarkdownToWechat ord c text = some ([], { c with footnotes := [] }) := by
  have h1 := preprocessText_space text hw
  have hbt : backtick ∉ preprocessText text := not_mem_of_space _ h1 backtick (by decide)
  have hst : convertStages c text = some ([], { c with footnotes := [] }) := by
    rw [convertStages_eq]
    have e1 : linkStageText (freshState c) text =
        processTables (freshState c) (preprocessText text) := by
      unfold linkStageText
      rw [extractText_id 0 _ hbt, processHeaders_space _ _ h1, processQuotes_space _ _ h1,
        processLists_space _ _ (processTables_space _ _ h1)]
    have h2 := processTables_space (freshState c) _ h1
    rw [e1, extractEntries_nil _ 0 _ hbt]
    generalize processTables (freshState c) (preprocessText text) = t at h2
    have e2 : afterLinks (freshState c) t = [] := by
      unfold afterLinks
      rw [renderLinks_id _ _ _ (not_mem_of_space t h2 '[' (by decide)),
        renderImages_id _ _ (not_mem_of_space t h2 '[' (by decide)),
        processInlineCode_id _ _ (not_mem_of_space t h2 backtick (by decide)),
        processBoldItalic_id _ (not_mem_of_space t h2 '*' (by decide)),
        processParagraphs_space _ _ h2]
    rw [e2, linkURLs_nil _ (not_mem_of_space t h2 '[' (by decide))]
    rfl
  rw [ConvertMarkdownToWechat_eq, hst]
  simp only [Option.map, convertFinish, List.length_nil, gt_iff_lt, Nat.lt_irrefl, if_false]
  rw [restore_nil ord { c with footnotes := [] } hk]

theorem c36_whitespace_input_witness :
    ConvertMarkdownToWechat MapOrder.insertion
        { NewWechatConverterFixed with
          footnotes := ["u".toList], codeBlocks := [(placeholder 0, "<x>".toList)] }
        " \t\n\n \r".toList =
      some ([], { ({ NewWechatConverterFixed with
          footnotes := ["u".toList], codeBlocks := [(placeholder 0, "<x>".toList)] } :
            WechatConverter) with footnotes := [] }) :=
  c36_whitespace_input MapOrder.insertion
    { NewWechatConverterFixed with
      footnotes := ["u".toList], codeBlocks := [(placeholder 0, "<x>".toList)] }
    " \t\n\n \r".toList (by decide) (by decide)

/-- Claim C37: for every text without a pipe, `processTables` returns the lines
of the text, in the same order and number, every one trimmed, joined by newlines.
No line is dropped and nothing is added: every character of the result is a
character of the text. -/
theorem c37_no_pipe_no_table (c : WechatConverter) (text : Str) (h : '|' ∉ text) :
    processTables c text = Join ['\n'] ((Split '\n' text).map TrimSpace) ∧
    ((Split '\n' text).map TrimSpace).length = (Split '\n' text).length ∧
    ∀ x ∈ processTables c text, x ∈ text := by
  have hl : ∀ l ∈ Split '\n' text, '|' ∉ l :=
    fun l hl hm => h ((mem_Split '\n' text l hl).2 _ hm)
  have e : processTables c text = Join ['\n'] ((Split '\n' text).map TrimSpace) := by
    unfold processTables
    rw [tablesLoop_no_pipe c _ [] [] hl]
    simp
  refine ⟨e, by simp, ?_⟩
  intro x hx
  rw [e] at hx
  rcases mem_Join _ _ _ hx with h1 | ⟨l, hl1, hl2⟩
  · have hx1 : x = '\n' := by simpa using h1
    subst hx1
    by_contra hn
    rw [Split_of_not_mem _ _ hn] at hx
    simp only [List.map_cons, List.map_nil, Join] at hx
    exact hn (mem_of_mem_TrimSpace _ _ hx)
  · obtain ⟨l0, hl0, rfl⟩ := List.mem_map.mp hl1
    exact (mem_Split '\n' text l0 hl0).2 _ (mem_of_mem_TrimSpace _ _ hl2)

theorem c37_no_pipe_no_table_witness :
    processTables NewWechatConverterFixed " a \n\n<b> ".toList =
      Join ['\n'] ((Split '\n' " a \n\n<b> ".toList).map TrimSpace) ∧
    ((Split '\n' " a \n\n<b> ".toList).map TrimSpace).length =
      (Split '\n' " a \n\n<b> ".toList).length ∧
    ∀ x ∈ processTables NewWechatConverterFixed " a \n\n<b> ".toList, x ∈ " a \n\n<b> ".toList :=
  c37_no_pipe_no_table NewWechatConverterFixed " a \n\n<b> ".toList (by decide)

/-! ### Placeholders inside placeholders -/

theorem mem_toDigitsCore_digit (fuel n : Nat) (ds : Str) (x : Char)
    (h : x ∈ Nat.toDigitsCore 10 fuel n ds) : x ∈ ds ∨ isDigit x = true := by
  induction fuel generalizing n ds with
  | zero => exact Or.inl (by simpa [Nat.toDigitsCore] using h)
  | succ fuel ih =>
    have hd : isDigit (Nat.digitChar (n % 10)) = true := by
      have hlt : n % 10 < 10 := Nat.mod_lt _ (by decide)
      generalize n % 10 = d at hlt
      interval_cases d <;> decide
    have hcons : ∀ y, y ∈ Nat.digitChar (n % 10) :: ds → y ∈ ds ∨ isDigit y = true := by
      intro y hy
      rcases List.mem_cons.mp hy with e | e
      · exact Or.inr (e ▸ hd)
      · exact Or.inl e
    simp only [Nat.toDigitsCore] at h
    split at h
    · exact hcons x h
    · rcases ih _ _ h with h2 | h2
      · exact hcons x h2
      · exact Or.inr h2

theorem mem_itoa_digit (n : Nat) (x : Char) (h : x ∈ itoa n) : isDigit x = true := by
  rcases mem_toDigitsCore_digit _ _ _ x h with h2 | h2
  · simp at h2
  · exact h2

theorem itoa_ne_nil (n : Nat) : itoa n ≠ [] := by
  intro h
  have h0 := digitsValue_itoa n
  have h1 := digitsValue_itoa (n + 1)
  have e : itoa (n + 1) ≠ [] := by
    intro h2
    rw [h2] at h1
    simp [digitsValue] at h1
  by_cases hn : n = 0
  · subst hn
    revert h
    decide
  · rw [h] at h0
    simp [digitsValue] at h0
    exact hn h0.symm

theorem Contains_pre (o : Char) (os pre s : Str) (h : o ∉ pre) :
    Contains (pre ++ s) (o :: os) = Contains s (o :: os) := by
  induction pre with
  | nil => rfl
  | cons c cs ih =>
    have hc : c ≠ o := fun e => h (e ▸ List.mem_cons_self _ _)
    show Contains (c :: (cs ++ s)) (o :: os) = _
    rw [Contains, HasPrefix_cons_ne c o _ _ hc, Bool.false_or,
      ih (fun hm => h (List.mem_cons_of_mem _ hm))]

theorem Contains_cons_false (c : Char) (s sub : Str) (h1 : HasPrefix (c :: s) sub = false)
    (h2 : Contains s sub = false) : Contains (c :: s) sub = false := by
  rw [Contains, h1, h2]
  rfl

theorem placeholder_not_contained (i j : Nat) (h : i ≠ j) :
    Contains (placeholder j) (placeholder i) = false := by
  have hdj : ∀ x ∈ itoa j, isDigit x = true := mem_itoa_digit j
  have hdi : ∀ x ∈ itoa i, isDigit x = true := mem_itoa_digit i
  have hu : '_' ∉ itoa j := fun hm => absurd (hdj _ hm) (by decide)
  obtain ⟨d, ds, hd⟩ := List.exists_cons_of_ne_nil (itoa_ne_nil j)
  have hd0 : d ≠ '_' := by
    intro e
    apply hu
    rw [hd, e]
    exact List.mem_cons_self _ _
  have hpre : HasPrefix (placeholder j) (placeholder i) = false := by
    cases hp : HasPrefix (placeholder j) (placeholder i) with
    | false => rfl
    | true =>
      obtain ⟨r, hr⟩ := (HasPrefix_iff _ _).mp hp
      unfold placeholder at hr
      rw [List.append_assoc, List.append_assoc, List.append_assoc] at hr
      have hr2 := List.append_cancel_left hr
      have e1 : (itoa j ++ "__".toList).takeWhile isDigit = itoa j :=
        takeWhile_append_stop isDigit (itoa j) '_' ['_'] hdj (by decide)
      have e2 : (itoa i ++ ("__".toList ++ r)).takeWhile isDigit = itoa i :=
        takeWhile_append_stop isDigit (itoa i) '_' ('_' :: r) hdi (by decide)
      rw [hr2, e2] at e1
      exact absurd (itoa_injective i j e1) h
  have htail : Contains (itoa j ++ "__".toList) (placeholder i) = false := by
    unfold placeholder
    rw [show "__CODE_BLOCK_".toList ++ itoa i ++ "__".toList =
      '_' :: ("_CODE_BLOCK_".toList ++ itoa i ++ "__".toList) from rfl, Contains_pre _ _ _ _ hu]
    simp [Contains, HasPrefix]
  have e : placeholder j = '_' :: '_' :: 'C' :: 'O' :: 'D' :: 'E' :: '_' :: 'B' :: 'L' :: 'O' ::
      'C' :: 'K' :: '_' :: (itoa j ++ "__".toList) := by
    simp [placeholder]
  have ei : placeholder i = '_' :: '_' :: ("CODE_BLOCK_".toList ++ itoa i ++ "__".toList) := by
    simp [placeholder]
  rw [e] at hpre ⊢
  refine Contains_cons_false _ _ _ hpre ?_
  refine Contains_cons_false _ _ _ (by rw [ei]; simp [HasPrefix]) ?_
  refine Contains_cons_false _ _ _ (by rw [ei]; simp [HasPrefix]) ?_
  refine Contains_cons_false _ _ _ (by rw [ei]; simp [HasPrefix]) ?_
  refine Contains_cons_false _ _ _ (by rw [ei]; simp [HasPrefix]) ?_
  refine Contains_cons_false _ _ _ (by rw [ei]; simp [HasPrefix]) ?_
  refine Contains_cons_false _ _ _ (by rw [ei]; simp [HasPrefix]) ?_
  refine Contains_cons_false _ _ _ (by rw [ei]; simp [HasPrefix]) ?_
  refine Contains_cons_false _ _ _ (by rw [ei]; simp [HasPrefix]) ?_
  refine Contains_cons_false _ _ _ (by rw [ei]; simp [HasPrefix]) ?_
  refine Contains_cons_false _ _ _ (by rw [ei]; simp [HasPrefix]) ?_
  refine Contains_cons_false _ _ _ (by rw [ei]; simp [HasPrefix]) ?_
  refine Contains_cons_false _ _ _ (by rw [ei, hd]; simp [HasPrefix, hd0]) ?_
  exact htail

/-- Claim C38, the failing input: two fenced blocks and then the line
`__CODE_BLOCK_0__CODE_BLOCK_1__`, in which the two placeholders of the document
overlap in `__`. No placeholder is contained in another one, and no stored
`<section>` holds a placeholder, yet the result of `ConvertMarkdownToWechat`
depends on the order in which `restoreCodeBlocks` visits the map: in the order of
insertion the last paragraph is the first block followed by `CODE_BLOCK_1__`, in
the reverse order it is `__CODE_BLOCK_0` followed by the second block. -/
theorem c38_restore_depends_on_order :
    (∀ i j : Nat, i ≠ j → Contains (placeholder j) (placeholder i) = false) ∧
    (∀ (k : Nat) (body : Str), '_' ∉ body →
      Contains ("<section ".toList ++ getDefaultStyles.CodeBlockStyle ++ ">".toList ++
        EscapeString body ++ "</section>".toList) (placeholder k) = false) ∧
    ConvertMarkdownToWechat MapOrder.insertion NewWechatConverterFixed
        (fencedBlock [] "a\n".toList ++ "\n".toList ++ fencedBlock [] "b\n".toList ++
          "\n__CODE_BLOCK_0__CODE_BLOCK_1__".toList) =
      some ("<p ".toList ++ getDefaultStyles.ParagraphStyle ++ "><section ".toList ++
          getDefaultStyles.CodeBlockStyle ++ ">a\n</section></p>\n<p ".toList ++
          getDefaultStyles.ParagraphStyle ++ "><section ".toList ++
          getDefaultStyles.CodeBlockStyle ++ ">b\n</section></p>\n<p ".toList ++
          getDefaultStyles.ParagraphStyle ++ "><section ".toList ++
          getDefaultStyles.CodeBlockStyle ++ ">a\n</section>CODE_BLOCK_1__</p>".toList,
        { NewWechatConverterFixed with
          codeBlocks := [("__CODE_BLOCK_0__".toList, "<section ".toList ++
              getDefaultStyles.CodeBlockStyle ++ ">a\n</section>".toList),
            ("__CODE_BLOCK_1__".toList, "<section ".toList ++
              getDefaultStyles.CodeBlockStyle ++ ">b\n</section>".toList)] }) ∧
    ConvertMarkdownToWechat MapOrder.reversed NewWechatConverterFixed
        (fencedBlock [] "a\n".toList ++ "\n".toList ++ fencedBlock [] "b\n".toList ++
          "\n__CODE_BLOCK_0__CODE_BLOCK_1__".toList) =
      some ("<p ".toList ++ getDefaultStyles.ParagraphStyle ++ "><section ".toList ++
          getDefaultStyles.CodeBlockStyle ++ ">a\n</section></p>\n<p ".toList ++
          getDefaultStyles.ParagraphStyle ++ "><section ".toList ++
          getDefaultStyles.CodeBlockStyle ++ ">b\n</section></p>\n<p ".toList ++
          getDefaultStyles.ParagraphStyle ++ ">__CODE_BLOCK_0<section ".toList ++
          getDefaultStyles.CodeBlockStyle ++ ">b\n</section></p>".toList,
        { NewWechatConverterFixed with
          codeBlocks := [("__CODE_BLOCK_0__".toList, "<section ".toList ++
              getDefaultStyles.CodeBlockStyle ++ ">a\n</section>".toList),
            ("__CODE_BLOCK_1__".toList, "<section ".toList ++
              getDefaultStyles.CodeBlockStyle ++ ">b\n</section>".toList)] }) ∧
    ConvertMarkdownToWechat MapOrder.insertion NewWechatConverterFixed
        (fencedBlock [] "a\n".toList ++ "\n".toList ++ fencedBlock [] "b\n".toList ++
          "\n__CODE_BLOCK_0__CODE_BLOCK_1__".toList) ≠
      ConvertMarkdownToWechat MapOrder.reversed NewWechatConverterFixed
        (fencedBlock [] "a\n".toList ++ "\n".toList ++ fencedBlock [] "b\n".toList ++
          "\n__CODE_BLOCK_0__CODE_BLOCK_1__".toList) := by
  refine ⟨placeholder_not_contained, ?_, ?_, ?_, ?_⟩
  · intro k body hb
    cases hc : Contains ("<section ".toList ++ getDefaultStyles.CodeBlockStyle ++ ">".toList ++
        EscapeString body ++ "</section>".toList) (placeholder k) with
    | false => rfl
    | true =>
      have hm := mem_of_Contains _ '_' ("_CODE_BLOCK_".toList ++ itoa k ++ "__".toList) hc
      simp only [List.mem_append] at hm
      rcases hm with (((hm | hm) | hm) | hm) | hm
      · exact absurd hm (by decide)
      · exact absurd hm (by decide)
      · exact absurd hm (by decide)
      · rcases mem_EscapeString body '_' hm with h1 | h1
        · exact absurd h1 hb
        · exact absurd h1 (by decide)
      · exact absurd hm (by decide)
  · decide!
  · decide!
  · decide!

end MarkdownWx
